import Mathlib

/-!
Shallow embedding of Stim's measurement-record reader
(`src/stim/io/measure_record_reader.cc`) and proofs about it.

Bytes are modelled as natural numbers, the sequential byte source as a
`List Nat` (the still-unread suffix of the stream), `getc` as taking the
head, and EOF as the empty list.  Fallible C++ code (functions that can
throw) is modelled with `Except String`.

Part 1 of the file holds the definitions (translated from the source),
part 2 the theorems.
-/

abbrev Byte := Nat

/-- Model of `getc`: returns `none` at end-of-stream, otherwise the next
byte and the remaining stream. -/
def getcS : List Byte → Option Byte × List Byte
  | [] => (none, [])
  | b :: rest => (some b, rest)

/-- Iterating a `read_bit` operation `n` times, collecting the bits in
order.  This is the reference "drain the record via repeated read_bit"
semantics shared by all decoders. -/
def readBitsN {σ : Type} (rb : σ → Except String (Bool × σ)) :
    Nat → σ → Except String (List Bool × σ)
  | 0, s => .ok ([], s)
  | n+1, s =>
    match rb s with
    | .error e => .error e
    | .ok (b, s1) =>
      match readBitsN rb n s1 with
      | .error e => .error e
      | .ok (bs, s2) => .ok (b :: bs, s2)

/-- The record-reader contract shared by the decoders: the three virtual
operations used by the base-class `read_bits_into_bytes`. -/
structure ReaderOps (σ : Type) where
  read_bit : σ → Except String (Bool × σ)
  is_end_of_record : σ → Except String Bool
  current_result_type : σ → Byte

namespace MeasureRecordReader

/-- Inner `for (k = 0; k < 8; k++)` loop of the default
`MeasureRecordReader::read_bits_into_bytes`: OR the next bit into the
byte accumulator at position `k`, stopping early (flag `true`) when the
record ends or the result type changes. -/
def rbibInner {σ : Type} (R : ReaderOps σ) (rt : Byte) :
    Nat → Nat → Nat → Nat → σ → Except String (Nat × Nat × σ × Bool)
  | 0, _k, b, n, s => .ok (b, n, s, false)
  | fk+1, k, b, n, s =>
    match R.read_bit s with
    | .error e => .error e
    | .ok (bit, s1) =>
      match R.is_end_of_record s1 with
      | .error e => .error e
      | .ok e =>
        if e || (R.current_result_type s1 != rt) then
          .ok (b ||| ((if bit then 1 else 0) <<< k), n + 1, s1, true)
        else rbibInner R rt fk (k+1) (b ||| ((if bit then 1 else 0) <<< k)) (n+1) s1

/-- Outer loop over the output bytes of the default
`MeasureRecordReader::read_bits_into_bytes`: each byte is zeroed and then
filled little-endian.  The returned list is the updated buffer (bytes
past the point where the loop stopped are untouched). -/
def rbibBytes {σ : Type} (R : ReaderOps σ) (rt : Byte) :
    List Byte → Nat → σ → Except String (Nat × List Byte × σ)
  | [], n, s => .ok (n, [], s)
  | _b :: rest, n, s =>
    match rbibInner R rt 8 0 0 n s with
    | .error e => .error e
    | .ok (b1, n1, s1, stopped) =>
      if stopped then .ok (n1, b1 :: rest, s1)
      else
        match rbibBytes R rt rest n1 s1 with
        | .error e => .error e
        | .ok (n2, rest2, s2) => .ok (n2, b1 :: rest2, s2)

/-- Default `MeasureRecordReader::read_bits_into_bytes`: return 0 at once
when the record is already ended, otherwise fill the buffer bit by bit
via `read_bit`, stopping when the buffer is full, the record ends, or
`current_result_type` changes. -/
def read_bits_into_bytes {σ : Type} (R : ReaderOps σ) (s : σ) (out : List Byte) :
    Except String (Nat × List Byte × σ) :=
  match R.is_end_of_record s with
  | .error e => .error e
  | .ok e =>
    if e then .ok (0, out, s)
    else rbibBytes R (R.current_result_type s) out 0 s

end MeasureRecordReader

namespace Format01

/-- State of `MeasureRecordReaderFormat01`: remaining input, record
width, the one-byte look-ahead `payload` (`none` = EOF) and `position`. -/
structure State where
  input : List Byte
  bits_per_record : Nat
  payload : Option Byte
  position : Nat
deriving DecidableEq, Repr

/-- Constructor state: `payload` starts as a newline and `position` at
`bits_per_record`. -/
def init (input : List Byte) (m : Nat) : State :=
  ⟨input, m, some 10, m⟩

/-- `MeasureRecordReaderFormat01::read_bit`. -/
def read_bit (s : State) : Except String (Bool × State) :=
  match s.payload with
  | none => .error "Attempt to read past end-of-file"
  | some p =>
    if p == 10 || s.bits_per_record ≤ s.position then
      .error "Attempt to read past end-of-record"
    else if p != 48 && p != 49 then
      .error "Expected 0 or 1 because input format was specified as 01"
    else
      let (c, rest) := getcS s.input
      .ok (p == 49, { s with payload := c, input := rest, position := s.position + 1 })

/-- `MeasureRecordReaderFormat01::start_record`: pull one byte into the
look-ahead, reset the position, report whether the byte existed. -/
def start_record (s : State) : Except String (Bool × State) :=
  let (c, rest) := getcS s.input
  .ok (c.isSome, { s with payload := c, input := rest, position := 0 })

/-- `MeasureRecordReaderFormat01::is_end_of_record`: a mismatch between
the byte-level end (newline or EOF) and reaching `bits_per_record` is a
framing error in either direction. -/
def is_end_of_record (s : State) : Except String Bool :=
  let payload_ended : Bool := s.payload.isNone || s.payload == some 10
  let expected_end : Bool := decide (s.bits_per_record ≤ s.position)
  if payload_ended && !expected_end then
    .error "Record data in 01 format ended early, before expected length"
  else if !payload_ended && expected_end then
    .error "Record data in 01 format did not end by the expected length"
  else .ok payload_ended

/-- The contract operations of the 01 decoder (its
`read_bits_into_bytes` is the inherited default). -/
def ops : ReaderOps State :=
  ⟨read_bit, is_end_of_record, fun _ => 77⟩

end Format01

namespace FormatB8

/-- State of `MeasureRecordReaderFormatB8`: remaining input, record
width, the payload byte being shifted out (`none` = EOF), the number of
bits still available in it, and `position`. -/
structure State where
  input : List Byte
  bits_per_record : Nat
  payload : Option Byte
  bits_available : Nat
  position : Nat
deriving DecidableEq, Repr

/-- Constructor state. -/
def init (input : List Byte) (m : Nat) : State :=
  ⟨input, m, some 0, 0, m⟩

/-- `MeasureRecordReaderFormatB8::maybe_update_payload`: when no bits are
buffered, pull the next byte (or EOF) from the stream. -/
def maybe_update_payload (s : State) : State :=
  if 0 < s.bits_available then s
  else
    let (c, rest) := getcS s.input
    match c with
    | none => { s with payload := none, input := rest }
    | some b => { s with payload := some b, bits_available := 8, input := rest }

/-- `MeasureRecordReaderFormatB8::read_bit`: shift the next bit out of
the payload byte, little-endian. -/
def read_bit (s : State) : Except String (Bool × State) :=
  if s.bits_per_record ≤ s.position then .error "Attempt to read past end-of-record"
  else
    let s := maybe_update_payload s
    match s.payload with
    | none => .error "Attempt to read past end-of-file"
    | some p =>
      .ok (p % 2 == 1,
        { s with payload := some (p / 2), bits_available := s.bits_available - 1,
                 position := s.position + 1 })

/-- `MeasureRecordReaderFormatB8::start_record`: reset the state, pull
one byte, succeed iff it existed. -/
def start_record (s : State) : Except String (Bool × State) :=
  let s := maybe_update_payload { s with position := 0, bits_available := 0, payload := some 0 }
  .ok (s.payload.isSome, s)

/-- `MeasureRecordReaderFormatB8::is_end_of_record`. -/
def is_end_of_record (s : State) : Bool :=
  decide (s.bits_per_record ≤ s.position)

/-- The contract operations of the B8 decoder. -/
def ops : ReaderOps State :=
  ⟨read_bit, fun s => .ok (is_end_of_record s), fun _ => 77⟩

/-- `MeasureRecordReaderFormatB8::read_bits_into_bytes` override: when a
partial byte is buffered fall back to the default, else block-read whole
bytes straight into the output buffer (`fread` reads as many of the
requested bytes as the stream still has). -/
def read_bits_into_bytes (s : State) (out : List Byte) :
    Except String (Nat × List Byte × State) :=
  if s.bits_per_record ≤ s.position then .ok (0, out, s)
  else if 0 < s.bits_available then
    MeasureRecordReader.read_bits_into_bytes ops s out
  else
    let n_bits := min (8 * out.length) (s.bits_per_record - s.position)
    let n_bytes := (n_bits + 7) / 8
    let got := min n_bytes s.input.length
    let n_bits2 := min (8 * got) n_bits
    .ok (n_bits2, s.input.take got ++ out.drop got,
      { s with input := s.input.drop got, position := s.position + n_bits2 })

end FormatB8

namespace FormatR8

/-- State of `MeasureRecordReaderFormatR8`: the remaining input stream,
the record width, and the four framing fields of the C++ class. -/
structure State where
  input : List Byte
  bits_per_record : Nat
  position : Nat
  buffered_0s : Nat
  buffered_1s : Nat
  have_seen_terminal_1 : Bool
deriving DecidableEq, Repr

/-- `MeasureRecordReaderFormatR8::is_end_of_record`:
`position == bits_per_record && have_seen_terminal_1`. -/
def is_end_of_record (s : State) : Bool :=
  s.position == s.bits_per_record && s.have_seen_terminal_1

/-- The do-while loop of `maybe_buffer_data`: read bytes, adding each to
the zero counter, while the byte read is `0xFF`.  At end-of-stream it is
a clean end only when `buffered_0s == 0 && position == 0` (signalled by
`none`); otherwise the source throws. -/
def zeroRun (pos : Nat) (acc : Nat) : List Byte → Except String (Option (Nat × List Byte))
  | [] =>
      if acc == 0 && pos == 0 then .ok none
      else .error "r8 data ended on a continuation (a 0xFF byte) which is not allowed"
  | b :: rest =>
      if b == 255 then zeroRun pos (acc + 255) rest
      else .ok (some (acc + b, rest))

/-- `MeasureRecordReaderFormatR8::maybe_buffer_data`.  Returns `false`
(with the state unchanged) on a clean end-of-stream at a record start,
`true` after buffering one zero-run and its one-bit and applying the
terminator rules, and an error otherwise. -/
def maybe_buffer_data (s : State) : Except String (Bool × State) :=
  if is_end_of_record s then .error "Attempted to read past end-of-record"
  else match zeroRun s.position s.buffered_0s s.input with
  | .error e => .error e
  | .ok none => .ok (false, s)
  | .ok (some (z, rest)) =>
      if s.position + z + 1 == s.bits_per_record then
        match rest with
        | [] => .error "r8 data ended too early: no 0x00 terminator byte before the input ended"
        | t :: rest2 =>
          if t == 0 then
            .ok (true, { s with input := rest2, buffered_0s := z, buffered_1s := 1,
                                have_seen_terminal_1 := true })
          else .error "r8 data ended too early: no 0x00 terminator byte before additional data"
      else if s.position + z + 1 == s.bits_per_record + 1 then
        .ok (true, { s with input := rest, buffered_0s := z, buffered_1s := 0,
                            have_seen_terminal_1 := true })
      else if s.bits_per_record + 1 < s.position + z + 1 then
        .error "r8 data encoded a jump past the expected end of encoded data"
      else .ok (true, { s with input := rest, buffered_0s := z, buffered_1s := 1 })

/-- Tail of `MeasureRecordReaderFormatR8::read_bit` after any buffering:
emit a zero or a one from the run counters. -/
def emit_bit (s : State) : Except String (Bool × State) :=
  if 0 < s.buffered_0s then
    .ok (false, { s with buffered_0s := s.buffered_0s - 1, position := s.position + 1 })
  else if 0 < s.buffered_1s then
    .ok (true, { s with buffered_1s := s.buffered_1s - 1, position := s.position + 1 })
  else
    .error "Read past end-of-record"

/-- `MeasureRecordReaderFormatR8::read_bit`: buffer data if both run
counters are empty, then emit a zero or a one from the counters. -/
def read_bit (s : State) : Except String (Bool × State) :=
  if s.buffered_0s == 0 && s.buffered_1s == 0 then
    match maybe_buffer_data s with
    | .error e => .error e
    | .ok (more, s1) =>
      if more then emit_bit s1
      else .error "assertion failed: maybe_buffer_data returned false"
  else emit_bit s

/-- `MeasureRecordReaderFormatR8::start_record`: reset `position` and
`have_seen_terminal_1`, then run `maybe_buffer_data`. -/
def start_record (s : State) : Except String (Bool × State) :=
  maybe_buffer_data { s with position := 0, have_seen_terminal_1 := false }

/-- Fresh decoder state over an input stream, as built by the constructor
(the constructor leaves the counters zero). -/
def init (input : List Byte) (m : Nat) : State :=
  ⟨input, m, 0, 0, 0, false⟩

/-- The contract operations of the R8 decoder. -/
def ops : ReaderOps State :=
  ⟨read_bit, fun s => .ok (is_end_of_record s), fun _ => 77⟩

/-- Inner `for (k = 0; k < 8; k++)` loop of the R8
`read_bits_into_bytes` override: buffer when all counters are drained and
no terminator has been seen, stop at end of record, else OR the next bit
in. -/
def rbibInner : Nat → Nat → Nat → Nat → State → Except String (Nat × Nat × State × Bool)
  | 0, _k, b, n, s => .ok (b, n, s, false)
  | fk+1, k, b, n, s =>
    match (if s.buffered_0s == 0 && s.buffered_1s == 0 && !s.have_seen_terminal_1 then
        match maybe_buffer_data s with
        | .error e => .error e
        | .ok (more, s1) =>
          if more then .ok s1
          else .error "assertion failed: maybe_buffer_data returned false"
      else .ok s : Except String State) with
    | .error e => .error e
    | .ok s =>
      if is_end_of_record s then .ok (b, n, s, true)
      else
        match read_bit s with
        | .error e => .error e
        | .ok (bit, s1) => rbibInner fk (k+1) (b ||| ((if bit then 1 else 0) <<< k)) (n+1) s1

/-- Outer loop of the R8 `read_bits_into_bytes` override, with the
8-zeros fast path that skips a whole byte. -/
def rbibBytes : List Byte → Nat → State → Except String (Nat × List Byte × State)
  | [], n, s => .ok (n, [], s)
  | _b :: rest, n, s =>
      if 8 ≤ s.buffered_0s then
        match rbibBytes rest (n + 8)
            { s with position := s.position + 8, buffered_0s := s.buffered_0s - 8 } with
        | .error e => .error e
        | .ok (n2, rest2, s2) => .ok (n2, (0 : Byte) :: rest2, s2)
      else
        match rbibInner 8 0 0 n s with
        | .error e => .error e
        | .ok (b1, n1, s1, stopped) =>
          if stopped then .ok (n1, b1 :: rest, s1)
          else
            match rbibBytes rest n1 s1 with
            | .error e => .error e
            | .ok (n2, rest2, s2) => .ok (n2, b1 :: rest2, s2)

/-- `MeasureRecordReaderFormatR8::read_bits_into_bytes` override. -/
def read_bits_into_bytes (s : State) (out : List Byte) :
    Except String (Nat × List Byte × State) :=
  rbibBytes out 0 s

end FormatR8

/-- Model of `isdigit` on a `getc` result: ASCII digit bytes only, false
at EOF. -/
def isDigitB : Option Byte → Bool
  | some n => 48 ≤ n && n ≤ 57
  | none => false

/-- Digit-accumulation loop of `read_uint64`: `d` is the digit currently
in the cursor; multiply-add into a 64-bit value, throwing when the
wrapped value decreases (overflow); stop at the first non-digit, leaving
it in the cursor. -/
def ru64Loop (value : Nat) (d : Byte) : List Byte → Except String (Nat × Option Byte × List Byte)
  | [] =>
    if (value * 10 + (d - 48)) % 2 ^ 64 < value then
      .error "Integer value read from file was too big"
    else .ok ((value * 10 + (d - 48)) % 2 ^ 64, none, [])
  | c :: rest =>
    if (value * 10 + (d - 48)) % 2 ^ 64 < value then
      .error "Integer value read from file was too big"
    else if isDigitB (some c) then ru64Loop ((value * 10 + (d - 48)) % 2 ^ 64) c rest
    else .ok ((value * 10 + (d - 48)) % 2 ^ 64, some c, rest)

/-- Body of `read_uint64` once the cursor byte is settled: returns
whether an integer was found, its value, the cursor byte after it, and
the remaining stream. -/
def read_uint64Core (input : List Byte) : Option Byte →
    Except String (Bool × Nat × Option Byte × List Byte)
  | none => .ok (false, 0, none, input)
  | some d =>
    if isDigitB (some d) then
      match ru64Loop 0 d input with
      | .error e => .error e
      | .ok (v, nx, rest) => .ok (true, v, nx, rest)
    else .ok (false, 0, some d, input)

/-- `read_uint64`: when `include_next` is false a fresh byte is first
read into the cursor, as in the C++ helper. -/
def read_uint64 (input : List Byte) (next : Option Byte) (include_next : Bool) :
    Except String (Bool × Nat × Option Byte × List Byte) :=
  if include_next then read_uint64Core input next
  else read_uint64Core (getcS input).2 (getcS input).1

/-- Character-compare loop of `maybe_consume_keyword`: each keyword byte
must equal the cursor byte literally; after each compare the next byte is
pulled into the cursor. -/
def keywordLoop : List Byte → Option Byte → List Byte → Except String (Option Byte × List Byte)
  | [], next, input => .ok (next, input)
  | k :: ks, next, input =>
      if some k == next then
        let (c, rest) := getcS input
        keywordLoop ks c rest
      else .error "Failed to find expected string"

/-- `maybe_consume_keyword`: `none` when the stream is at EOF before any
byte of the keyword, otherwise the cursor byte after the keyword and the
remaining stream (or an error). -/
def maybe_consume_keyword (input : List Byte) (kw : List Byte) :
    Except String (Option (Option Byte × List Byte)) :=
  match getcS input with
  | (none, _) => .ok none
  | (some c, rest) =>
      match keywordLoop kw (some c) rest with
      | .error e => .error e
      | .ok r => .ok (some r)

namespace FormatHits

/-- State of `MeasureRecordReaderFormatHits`: remaining input, record
width, the eagerly materialised bit buffer and the read position in
it. -/
structure State where
  input : List Byte
  bits_per_record : Nat
  buffer : List Bool
  position_in_buffer : Nat
deriving DecidableEq, Repr

/-- Constructor state: zeroed buffer, position at the record width. -/
def init (input : List Byte) (m : Nat) : State :=
  ⟨input, m, List.replicate m false, m⟩

/-- `MeasureRecordReaderFormatHits::read_bit`: index the materialised
buffer. -/
def read_bit (s : State) : Except String (Bool × State) :=
  if s.bits_per_record ≤ s.position_in_buffer then .error "Read past end of buffer"
  else .ok (s.buffer.getD s.position_in_buffer false,
    { s with position_in_buffer := s.position_in_buffer + 1 })

/-- `while (c != newline)` loop of
`MeasureRecordReaderFormatHits::start_record`: parse comma-separated
decimals, each must be below the record width, and XOR-toggle the
corresponding buffer bit.  The fuel argument only bounds the recursion
and is chosen large enough by the caller. -/
def hitsLoop (m : Nat) : Nat → List Bool → Option Byte → Bool → List Byte →
    Except String (List Bool × List Byte)
  | 0, _, _, _, _ => .error "out of fuel"
  | fuel+1, buf, c, is_first, input =>
    if c == some 10 then .ok (buf, input)
    else
      match read_uint64 input c is_first with
      | .error e => .error e
      | .ok (okb, value, c1, input1) =>
        if !okb then
          .error "Integer didnt start immediately at start of line or after comma in hits format"
        else if c1 != some 44 && c1 != some 10 then
          .error "hits format requires integers to be followed by a comma or newline"
        else if m ≤ value then
          .error "hit value is not less than bits per record"
        else
          hitsLoop m fuel (buf.set value (!(buf.getD value false))) c1 false input1

/-- `MeasureRecordReaderFormatHits::start_record`: EOF before the first
byte is a clean false; otherwise clear the buffer and run the line
loop. -/
def start_record (s : State) : Except String (Bool × State) :=
  match getcS s.input with
  | (none, _) => .ok (false, s)
  | (some c0, rest) =>
      match hitsLoop s.bits_per_record (s.input.length + 1)
          (List.replicate s.bits_per_record false) (some c0) true rest with
      | .error e => .error e
      | .ok (buf, input1) =>
        .ok (true, { s with buffer := buf, position_in_buffer := 0, input := input1 })

/-- `MeasureRecordReaderFormatHits::next_record`: literally
`return start_record()`. -/
def next_record (s : State) : Except String (Bool × State) :=
  start_record s

/-- `MeasureRecordReaderFormatHits::is_end_of_record`. -/
def is_end_of_record (s : State) : Bool :=
  decide (s.bits_per_record ≤ s.position_in_buffer)

/-- The contract operations of the HITS decoder (its
`read_bits_into_bytes` is the inherited default). -/
def ops : ReaderOps State :=
  ⟨read_bit, fun s => .ok (is_end_of_record s), fun _ => 77⟩

end FormatHits

namespace FormatDets

/-- State of `MeasureRecordReaderFormatDets`: remaining input, the three
section widths, the eagerly materialised bit buffer of width m + d + l,
and the read position in it. -/
structure State where
  input : List Byte
  m_bits_per_record : Nat
  d_bits_per_record : Nat
  l_bits_per_record : Nat
  buffer : List Bool
  position_in_buffer : Nat
deriving DecidableEq, Repr

/-- Constructor state: zeroed buffer of width m + d + l, position at the
record width. -/
def init (input : List Byte) (m d l : Nat) : State :=
  ⟨input, m, d, l, List.replicate (m + d + l) false, m + d + l⟩

/-- `MeasureRecordReaderFormatDets::read_bit`: index the materialised
buffer. -/
def read_bit (s : State) : Except String (Bool × State) :=
  if s.m_bits_per_record + s.d_bits_per_record + s.l_bits_per_record ≤ s.position_in_buffer then
    .error "Read past end of buffer"
  else .ok (s.buffer.getD s.position_in_buffer false,
    { s with position_in_buffer := s.position_in_buffer + 1 })

/-- The inner `while (c == ' ')` loop of
`MeasureRecordReaderFormatDets::start_record`. -/
def skipSpaces : Option Byte → List Byte → Option Byte × List Byte
  | some 32, [] => (none, [])
  | some 32, b :: rest => skipSpaces (some b) rest
  | c, input => (c, input)

/-- `while (true)` token loop of
`MeasureRecordReaderFormatDets::start_record`: skip spaces, stop at
newline or EOF, require spacing before each token, map the section byte
M, D or L to its (offset, size), parse the decimal index, bound-check it
against the section size, and XOR-toggle the buffer bit at
offset + index.  The fuel argument only bounds the recursion and is
chosen large enough by the caller. -/
def detsLoop (m d l : Nat) : Nat → List Bool → Option Byte → List Byte →
    Except String (List Bool × List Byte)
  | 0, _, _, _ => .error "out of fuel"
  | fuel+1, buf, c0, input0 =>
    match skipSpaces c0 input0 with
    | (c, input) =>
      if c == some 10 || c == none then .ok (buf, input)
      else if !(c0 == some 32) then .error "DETS values must be separated by spaces"
      else
        match (if c == some 77 then .ok ((0 : Nat), m)
           else if c == some 68 then .ok (m, d)
           else if c == some 76 then .ok (m + d, l)
           else Except.error "Unrecognized DETS character" : Except String (Nat × Nat)) with
        | .error e => .error e
        | .ok (offset, size) =>
          match read_uint64 input none false with
          | .error e => .error e
          | .ok (okb, number, c1, input1) =>
            if !okb then .error "DETS section byte wasnt followed by an integer"
            else if size ≤ number then
              .error "DETS index is not less than the number of values of its type"
            else
              detsLoop m d l fuel
                (buf.set (offset + number) (!(buf.getD (offset + number) false))) c1 input1

/-- `MeasureRecordReaderFormatDets::start_record`: consume the literal
keyword shot (EOF before it is a clean false), clear the buffer, run the
token loop. -/
def start_record (s : State) : Except String (Bool × State) :=
  match maybe_consume_keyword s.input [115, 104, 111, 116] with
  | .error e => .error e
  | .ok none => .ok (false, s)
  | .ok (some (c, input1)) =>
      match detsLoop s.m_bits_per_record s.d_bits_per_record s.l_bits_per_record
          (input1.length + 2)
          (List.replicate
            (s.m_bits_per_record + s.d_bits_per_record + s.l_bits_per_record) false)
          c input1 with
      | .error e => .error e
      | .ok (buf, input2) =>
        .ok (true, { s with buffer := buf, position_in_buffer := 0, input := input2 })

/-- `MeasureRecordReaderFormatDets::next_record`: literally
`return start_record()`. -/
def next_record (s : State) : Except String (Bool × State) :=
  start_record s

/-- `MeasureRecordReaderFormatDets::is_end_of_record`:
`position_in_buffer == m + d + l`. -/
def is_end_of_record (s : State) : Bool :=
  s.position_in_buffer ==
    s.m_bits_per_record + s.d_bits_per_record + s.l_bits_per_record

/-- `MeasureRecordReaderFormatDets::current_result_type` as the pure
function of the buffer position and the three section widths that the
method body computes (77, 68, 76 are the bytes M, D, L). -/
def detsResultType (p m d l : Nat) : Byte :=
  if decide (p < m) && !(m == 0) then 77
  else if decide (p < m + d) && !(d == 0) then 68
  else if !(l == 0) then 76
  else if !(d == 0) then 68
  else 77

/-- `MeasureRecordReaderFormatDets::current_result_type`. -/
def current_result_type (s : State) : Byte :=
  detsResultType s.position_in_buffer s.m_bits_per_record s.d_bits_per_record
    s.l_bits_per_record

/-- The contract operations of the DETS decoder (its
`read_bits_into_bytes` is the inherited default). -/
def ops : ReaderOps State :=
  ⟨read_bit, fun s => .ok (is_end_of_record s), current_result_type⟩

end FormatDets

/-- The XOR-toggle of one bit of a record buffer, as performed by
`buffer[k] ^= true` in the HITS and DETS record parsers. -/
def toggle (buf : List Bool) (i : Nat) : List Bool :=
  buf.set i (!(buf.getD i false))

/-- Whether a fallible computation raised an error. -/
def isErr {α : Type} : Except String α → Bool
  | .error _ => true
  | .ok _ => false

/-- Rank of a result-type byte in the section order M before D before L
(77, 68, 76 are the bytes M, D, L). -/
def mdlRank (b : Byte) : Nat :=
  if b == 68 then 1 else if b == 76 then 2 else 0

/-! Concrete runs used by the claims about specific byte streams. -/

/-- Run used by claim C3: the FDETS decoder with (m,d,l) = (1,0,0) on the
seven bytes of the text "shot M0" with NO trailing newline — the stream
ends in the middle of the record line. -/
def detsRunC3Eof : Except String (Bool × List Bool × List Byte) :=
  (FormatDets.start_record (FormatDets.init [115, 104, 111, 116, 32, 77, 48] 1 0 0)).map
    (fun r => (r.1, r.2.buffer, r.2.input))

/-- Run used by claim C3: the FB8 decoder with m = 16 on a one-byte
stream; after start_record and eight read_bit calls the stream is
exhausted mid-record, and a block read_bits_into_bytes is attempted. -/
def b8RunC3Short : Except String (Bool × Nat × List Byte × Bool × Nat) := do
  let (ok1, s1) ← FormatB8.start_record (FormatB8.init [0xAB] 16)
  let (_bits, s2) ← readBitsN FormatB8.read_bit 8 s1
  let (n, out, s3) ← FormatB8.read_bits_into_bytes s2 [0, 0]
  .ok (ok1, n, out, FormatB8.is_end_of_record s3, s3.position)

/-- Run used by claim C1: start a record of the FR8 decoder with m = 5 on
the byte stream 02 01 01 00, read five bits, and report the start result,
the bits, the end-of-record flag and the unread remainder of the stream. -/
def r8RunC1 : Except String (Bool × List Bool × Bool × List Byte) := do
  let (ok1, s1) ← FormatR8.start_record (FormatR8.init [0x02, 0x01, 0x01, 0x00] 5)
  let (bits, s2) ← readBitsN FormatR8.read_bit 5 s1
  .ok (ok1, bits, FormatR8.is_end_of_record s2, s2.input)

/-- Partial run on the claim C1 stream: start a record with m = 5 on
02 01 01 00, read three bits, then attempt a fourth read_bit on its own,
reporting that fourth outcome separately. -/
def r8RunC1Partial : Except String (Bool × List Bool × Except String Bool) := do
  let (ok1, s1) ← FormatR8.start_record (FormatR8.init [0x02, 0x01, 0x01, 0x00] 5)
  let (bits, s2) ← readBitsN FormatR8.read_bit 3 s1
  .ok (ok1, bits, (FormatR8.read_bit s2).map Prod.fst)

/-- Run of the FR8 decoder with m = 5 on the byte stream 02 01 00, which
is the writer's actual encoding of the record 0,0,1,0,1 (the data one on
the last record position, followed by the 0x00 terminator for the
synthetic post-end one). -/
def r8RunC1Fixed : Except String (Bool × List Bool × Bool × List Byte) := do
  let (ok1, s1) ← FormatR8.start_record (FormatR8.init [0x02, 0x01, 0x00] 5)
  let (bits, s2) ← readBitsN FormatR8.read_bit 5 s1
  .ok (ok1, bits, FormatR8.is_end_of_record s2, s2.input)

/-- Run used by claim C2: same shape for the byte stream 05 00, also
reporting what the next start_record returns. -/
def r8RunC2 : Except String (Bool × List Bool × Bool × List Byte × Bool) := do
  let (ok1, s1) ← FormatR8.start_record (FormatR8.init [0x05, 0x00] 5)
  let (bits, s2) ← readBitsN FormatR8.read_bit 5 s1
  let (ok2, _) ← FormatR8.start_record s2
  .ok (ok1, bits, FormatR8.is_end_of_record s2, s2.input, ok2)

/-- Run of the FR8 decoder with m = 5 on the one-byte stream 05 (the
writer's actual encoding of an all-zero five-bit record): the record
decodes and the next start_record cleanly returns false. -/
def r8RunC2Fixed : Except String (Bool × List Bool × Bool × List Byte × Bool) := do
  let (ok1, s1) ← FormatR8.start_record (FormatR8.init [0x05] 5)
  let (bits, s2) ← readBitsN FormatR8.read_bit 5 s1
  let (ok2, _) ← FormatR8.start_record s2
  .ok (ok1, bits, FormatR8.is_end_of_record s2, s2.input, ok2)

/-- Bytes of the ASCII text used by claim C5: the two-record 01-format
stream "010 newline 111 newline". -/
def f01StreamC5 : List Byte := [48, 49, 48, 10, 49, 49, 49, 10]

/-- Run used by claim C5: decode two three-bit records from the 01-format
stream "010 newline 111 newline", checking is_end_of_record after each,
and report what a third start_record returns. -/
def f01RunC5 : Except String (Bool × List Bool × Bool × Bool × List Bool × Bool × Bool) := do
  let (ok1, s1) ← Format01.start_record (Format01.init f01StreamC5 3)
  let (bits1, s2) ← readBitsN Format01.read_bit 3 s1
  let e1 ← Format01.is_end_of_record s2
  let (ok2, s3) ← Format01.start_record s2
  let (bits2, s4) ← readBitsN Format01.read_bit 3 s3
  let e2 ← Format01.is_end_of_record s4
  let (ok3, _) ← Format01.start_record s4
  .ok (ok1, bits1, e1, ok2, bits2, e2, ok3)

/-- Run used by claim C5: decode the short 01-format stream
"01 newline" with m = 3 and report the is_end_of_record outcome after
the two available bits. -/
def f01RunC5Short : Except String (Bool × List Bool × Except String Bool) := do
  let (ok1, s1) ← Format01.start_record (Format01.init [48, 49, 10] 3)
  let (bits, s2) ← readBitsN Format01.read_bit 2 s1
  .ok (ok1, bits, Format01.is_end_of_record s2)

/-- Value of a little-endian bit list. -/
def bitsVal : List Bool → Nat
  | [] => 0
  | x :: xs => (if x then 1 else 0) + 2 * bitsVal xs

/-- The low `k` bits of a value, little-endian. -/
def bitsLE (v : Nat) : Nat → List Bool
  | 0 => []
  | k+1 => (v % 2 == 1) :: bitsLE (v / 2) k

/-- The eight bits of a byte, little-endian — the order in which both the
B8 payload shifting and the default `read_bits_into_bytes` place bits in
a byte. -/
def byteBits (b : Byte) : List Bool :=
  bitsLE b 8

/-- Little-endian bit expansion of a byte buffer. -/
def bytesToBits (bs : List Byte) : List Bool :=
  (bs.map byteBits).flatten

/-- Reachable-state invariant of the R8 decoder between operations inside
a record: when the terminator has been seen the buffered data reaches
exactly the record width, and before it is seen it falls short of the
width. -/
def R8Inv (s : FormatR8.State) : Prop :=
  (s.have_seen_terminal_1 = true ∧
    s.position + s.buffered_0s + s.buffered_1s = s.bits_per_record) ∨
  (s.have_seen_terminal_1 = false ∧
    s.position + s.buffered_0s + s.buffered_1s < s.bits_per_record)

/-! Definitions used to state the once-per-stream behaviour of
`start_record`: a session runner that performs one `start_record` per
expected record (treating a premature false as a failure) followed by a
full drain of the record's bits, and, for each format, the byte encoding
of a well-formed record as described by the format documentation.  The
encoders define what a "well-formed stream holding these records" is;
the theorems prove the decoders accept exactly them. -/

/-- One `start_record`-then-drain step per expected record: errors if the
decoder reports no record (start_record false) before all expected
records are consumed. -/
def session {σ : Type} (sr : σ → Except String (Bool × σ)) (drain : σ → Except String σ) :
    Nat → σ → Except String σ
  | 0, s => .ok s
  | n+1, s =>
    match sr s with
    | .error e => .error e
    | .ok (false, _) => .error "start_record returned false before the records were consumed"
    | .ok (true, s1) =>
      match drain s1 with
      | .error e => .error e
      | .ok s2 => session sr drain n s2

/-- Draining a record: `m` read_bit calls, keeping only the state. -/
def drainBits {σ : Type} (rb : σ → Except String (Bool × σ)) (m : Nat) (s : σ) :
    Except String σ :=
  match readBitsN rb m s with
  | .error e => .error e
  | .ok (_, s2) => .ok s2

/-- 01-format encoding of one record: one ASCII 0/1 byte per bit and a
terminating newline. -/
def encode01 (r : List Bool) : List Byte :=
  r.map (fun b => if b then 49 else 48) ++ [10]

/-- 01-format encoding of a stream of records. -/
def stream01 (rs : List (List Bool)) : List Byte :=
  (rs.map encode01).flatten

/-- The 01 decoder's state in the middle of a record: the look-ahead
`payload` holds the next record byte (or the terminating newline once
the bits are exhausted). -/
def f01Look (m : Nat) (r : List Bool) (rest : List Byte) (pos : Nat) : Format01.State :=
  match r with
  | [] => ⟨rest, m, some 10, pos⟩
  | b :: bs =>
    ⟨bs.map (fun x => if x then 49 else 48) ++ 10 :: rest, m, some (if b then 49 else 48), pos⟩

/-- B8-format packing of a bit record into whole bytes, little-endian,
the final partial byte zero-padded. -/
def bitsToBytes : List Bool → List Byte
  | [] => []
  | b :: l => bitsVal ((b :: l).take 8) :: bitsToBytes (l.drop 7)
termination_by l => l.length
decreasing_by
  simp only [List.length_drop, List.length_cons]
  omega

/-- B8-format encoding of a stream of records (each record starts on a
fresh byte). -/
def streamB8 (rs : List (List Bool)) : List Byte :=
  (rs.map bitsToBytes).flatten

/-- R8-format encoding of one zero-run length: 0xFF continuation bytes
followed by the remainder. -/
def gapBytes (z : Nat) : List Byte :=
  if h : z < 255 then [z] else 255 :: gapBytes (z - 255)
decreasing_by
  omega

/-- Byte encoding of a list of zero-run lengths. -/
def encGaps (gs : List Nat) : List Byte :=
  (gs.map gapBytes).flatten

/-- The zero-run lengths of a bit record: the gap before each one-bit
and, last, the gap before the synthetic one-bit just past the record
end. -/
def gapsOf : List Bool → List Nat
  | [] => [0]
  | false :: r =>
    match gapsOf r with
    | [] => [1]
    | g :: gs => (g + 1) :: gs
  | true :: r => 0 :: gapsOf r

/-- The bits a zero-run length list denotes: each run's zeros followed by
its one, except the final (synthetic-one) run, whose one lies past the
record end. -/
def bitsOfGaps : List Nat → List Bool
  | [] => []
  | [g] => List.replicate g false
  | g :: gs => List.replicate g false ++ true :: bitsOfGaps gs

/-- R8-format encoding of one bit record. -/
def encodeR8 (r : List Bool) : List Byte :=
  encGaps (gapsOf r)

/-- R8-format encoding of a stream of records. -/
def streamR8 (rs : List (List Bool)) : List Byte :=
  (rs.map encodeR8).flatten

/-- Decimal digits of a number, most significant first. -/
def decDigits (n : Nat) : List Nat :=
  if h : n < 10 then [n] else decDigits (n / 10) ++ [n % 10]
decreasing_by
  exact Nat.div_lt_self (by omega) (by omega)

/-- The value accumulated by folding decimal digits onto `v`, as the
`read_uint64` loop does. -/
def decVal (v : Nat) : List Nat → Nat
  | [] => v
  | d :: ds => decVal (v * 10 + d) ds

/-- ASCII decimal rendering of a number. -/
def decBytes (n : Nat) : List Byte :=
  (decDigits n).map (fun x => x + 48)

/-- HITS-format encoding of one record given as its hit index list:
comma-separated decimals and a terminating newline. -/
def encodeHitsLine : List Nat → List Byte
  | [] => [10]
  | i :: is => decBytes i ++ (if is.isEmpty then [10] else 44 :: encodeHitsLine is)

/-- HITS-format encoding of a stream of records. -/
def streamHits (rs : List (List Nat)) : List Byte :=
  (rs.map encodeHitsLine).flatten

/-- DETS-format encoding of one record entry (a section byte M, D or L
and an index): a space, the section byte, the decimal index. -/
def encodeDetsEntry (e : Byte × Nat) : List Byte :=
  32 :: e.1 :: decBytes e.2

/-- The entry bytes of a DETS record line. -/
def bodyBytes (es : List (Byte × Nat)) : List Byte :=
  (es.map encodeDetsEntry).flatten

/-- DETS-format encoding of one record: the keyword shot, the entries,
a terminating newline. -/
def encodeDetsLine (es : List (Byte × Nat)) : List Byte :=
  [115, 104, 111, 116] ++ bodyBytes es ++ [10]

/-- DETS-format encoding of a stream of records. -/
def streamDets (rs : List (List (Byte × Nat))) : List Byte :=
  (rs.map encodeDetsLine).flatten

/-- The buffer position a DETS entry addresses: its section's offset
(M at 0, D at m, L at m + d) plus its index. -/
def detsPos (m d : Nat) (e : Byte × Nat) : Nat :=
  (if e.1 = 77 then 0 else if e.1 = 68 then m else m + d) + e.2

/-! Part 2: theorems. -/

/-- C1 counterexample: for the FR8 decoder with m = 5 on bytes
02 01 01 00 the run does NOT succeed: after the bits 0,0,1 the fourth
read_bit buffers the run byte 0x01, finds that its one-bit lies exactly
on the last record position (total = 5 = m), demands a 0x00 terminator as
the next byte, sees 0x01 instead, and raises an error — so the claimed
error-free five-bit read of 0,0,1,0,1 is false on this input. -/
theorem C1_r8_example_02_01_01_00_counterexample :
    r8RunC1 =
      .error "r8 data ended too early: no 0x00 terminator byte before additional data" := rfl

/-- C1 amended: on bytes 02 01 01 00 with m = 5, start_record succeeds
and the first three read_bit calls return 0,0,1, but the fourth read_bit
raises the missing-terminator error (the stream is the m = 7 encoding of
0,0,1,0,1,0,1, not a valid m = 5 record).  On the correct m = 5 encoding
02 01 00 of the record 0,0,1,0,1, start_record succeeds, five read_bit
calls return 0,0,1,0,1 in order, is_end_of_record is then true, and the
trailing 0x00 terminator byte has been consumed, leaving the stream
empty, with no error at any point. -/
theorem C1_r8_example_amended :
    r8RunC1Partial =
      .ok (true, [false, false, true],
        .error "r8 data ended too early: no 0x00 terminator byte before additional data") ∧
    r8RunC1Fixed = .ok (true, [false, false, true, false, true], true, []) :=
  ⟨rfl, rfl⟩

/-- C2 counterexample: for the FR8 decoder with m = 5 on bytes 05 00, the
five bits do come out as 0,0,0,0,0 with is_end_of_record true, but the
trailing 0x00 byte is NOT consumed (the remaining stream is still 00) and
the next start_record returns true, not false as the claim states. -/
theorem C2_r8_example_05_00_counterexample :
    r8RunC2 = .ok (true, [false, false, false, false, false], true, [0x00], true) := rfl

/-- C2 amended: on bytes 05 00 with m = 5 the record decodes to 0,0,0,0,0
and terminates via the total = m + 1 rule without consuming any
terminator byte, so the 0x00 remains unread and the next start_record
returns true; on the one-byte stream 05 (the writer's actual encoding of
that record) the record decodes identically, the stream is fully
consumed, and the next start_record returns false. -/
theorem C2_r8_example_05_00_amended :
    r8RunC2 = .ok (true, [false, false, false, false, false], true, [0x00], true) ∧
    r8RunC2Fixed = .ok (true, [false, false, false, false, false], true, [], false) :=
  ⟨rfl, rfl⟩

/-- C5: the F01 decoder with m = 3 decodes "010 newline 111 newline" as
two records 0,1,0 and 1,1,1 with a clean end-of-record after each and a
third start_record returning false; on "01 newline" the record ends early
and is_end_of_record raises a framing error; and in general, for every
m and every decoder state, a byte-level end (newline or EOF) with
position still short of m raises the ended-early framing error, while a
reached length without a byte-level end raises the did-not-end framing
error. -/
theorem C5_f01_records_and_framing :
    f01RunC5 = .ok (true, [false, true, false], true, true, [true, true, true], true, false) ∧
    f01RunC5Short =
      .ok (true, [false, true],
        .error "Record data in 01 format ended early, before expected length") ∧
    (∀ s : Format01.State, (s.payload.isNone || s.payload == some 10) = true →
      s.position < s.bits_per_record →
      Format01.is_end_of_record s =
        .error "Record data in 01 format ended early, before expected length") ∧
    (∀ s : Format01.State, (s.payload.isNone || s.payload == some 10) = false →
      s.bits_per_record ≤ s.position →
      Format01.is_end_of_record s =
        .error "Record data in 01 format did not end by the expected length") := by
  refine ⟨rfl, rfl, ?_, ?_⟩
  · intro s hp hpos
    unfold Format01.is_end_of_record
    simp [hp, Nat.not_le.mpr hpos]
  · intro s hp hpos
    unfold Format01.is_end_of_record
    simp [hp, hpos]

/-- C5 witness: the general framing-error conjuncts of
`C5_f01_records_and_framing` applied at concrete states: a state whose
payload is a newline at position 2 of a width-3 record errors in one
direction, and a state whose payload is the digit zero at position 3
errors in the other. -/
theorem C5_f01_records_and_framing_witness :
    Format01.is_end_of_record ⟨[], 3, some 10, 2⟩ =
      .error "Record data in 01 format ended early, before expected length" ∧
    Format01.is_end_of_record ⟨[], 3, some 48, 3⟩ =
      .error "Record data in 01 format did not end by the expected length" :=
  ⟨C5_f01_records_and_framing.2.2.1 ⟨[], 3, some 10, 2⟩ (by decide) (by decide),
   C5_f01_records_and_framing.2.2.2 ⟨[], 3, some 48, 3⟩ (by decide) (by decide)⟩

/-- Helper: the digit loop of `read_uint64` leaves in the cursor either
EOF (with nothing left) or a byte drawn from the input, with the rest of
the input a suffix of the original. -/
theorem ru64_cursor {v d : Nat} {input : List Byte} {w : Nat} {nx : Option Byte}
    {rest : List Byte} (h : ru64Loop v d input = .ok (w, nx, rest)) :
    (nx = none ∧ rest = []) ∨ ∃ b pre, nx = some b ∧ input = pre ++ b :: rest := by
  induction input generalizing v d w with
  | nil =>
    unfold ru64Loop at h
    split at h
    · exact absurd h (by simp)
    · injection h with hpair
      injection hpair with h1 h23
      injection h23 with h2 h3
      exact Or.inl ⟨h2.symm, h3.symm⟩
  | cons c cs ih =>
    unfold ru64Loop at h
    split at h
    · exact absurd h (by simp)
    · split at h
      · rcases ih h with h1 | ⟨b, pre, h2, h3⟩
        · exact Or.inl h1
        · exact Or.inr ⟨b, c :: pre, h2, by simp [h3]⟩
      · injection h with hpair
        injection hpair with h1 h23
        injection h23 with h2 h3
        exact Or.inr ⟨c, [], h2.symm, by simp [h3.symm]⟩

/-- Helper: when neither the cursor nor the remaining input holds a
newline byte, the cursor and input left behind by the settled-cursor body
of `read_uint64` hold no newline byte either. -/
theorem read_uint64Core_no_newline {input : List Byte} {c : Option Byte}
    {okb : Bool} {v : Nat} {c1 : Option Byte} {input1 : List Byte}
    (hc : c ≠ some 10) (hin : (10 : Byte) ∉ input)
    (h : read_uint64Core input c = .ok (okb, v, c1, input1)) :
    c1 ≠ some 10 ∧ (10 : Byte) ∉ input1 := by
  rcases c with _ | d
  · simp only [read_uint64Core] at h
    injection h with hpair
    injection hpair with h1 h2
    injection h2 with h2a h2b
    injection h2b with h3 h4
    subst h3; subst h4
    exact ⟨by simp, hin⟩
  · simp only [read_uint64Core] at h
    split at h
    · cases hru : ru64Loop 0 d input with
      | error e => simp only [hru] at h; exact absurd h (by simp)
      | ok r =>
        obtain ⟨vv, nxx, restt⟩ := r
        simp only [hru] at h
        injection h with hpair
        injection hpair with h1 h2
        injection h2 with h2a h2b
        injection h2b with h3 h4
        subst h3; subst h4
        rcases ru64_cursor hru with ⟨h5, h6⟩ | ⟨b, pre, h5, h6⟩
        · subst h5; subst h6; exact ⟨by simp, by simp⟩
        · subst h5
          rw [h6] at hin
          simp only [List.mem_append, List.mem_cons, not_or] at hin
          obtain ⟨hpre, hb, hrest⟩ := hin
          refine ⟨fun hx => hb ?_, hrest⟩
          injection hx with hxb
          exact hxb.symm
    · injection h with hpair
      injection hpair with h1 h2
      injection h2 with h2a h2b
      injection h2b with h3 h4
      subst h3; subst h4
      exact ⟨hc, hin⟩

/-- Helper: the same no-newline preservation for `read_uint64` itself. -/
theorem read_uint64_no_newline {input : List Byte} {c : Option Byte} {inc : Bool}
    {okb : Bool} {v : Nat} {c1 : Option Byte} {input1 : List Byte}
    (hc : c ≠ some 10) (hin : (10 : Byte) ∉ input)
    (h : read_uint64 input c inc = .ok (okb, v, c1, input1)) :
    c1 ≠ some 10 ∧ (10 : Byte) ∉ input1 := by
  unfold read_uint64 at h
  split at h
  · exact read_uint64Core_no_newline hc hin h
  · rcases input with _ | ⟨b, bs⟩
    · simp only [getcS] at h
      exact read_uint64Core_no_newline (by simp) (by simp) h
    · simp only [getcS] at h
      have hb : b ≠ 10 := fun hx => hin (by simp [hx])
      have hbs : (10 : Byte) ∉ bs := fun hx => hin (by simp [hx])
      refine read_uint64Core_no_newline ?_ hbs h
      intro hx
      injection hx with hxb
      exact hb hxb

/-- Helper: the line loop of the HITS decoder raises an error whenever no
newline byte is coming (neither in the cursor nor anywhere in the
remaining input): a mid-line end-of-stream can never terminate a HITS
record cleanly. -/
theorem hitsLoop_no_newline {m : Nat} :
    ∀ (fuel : Nat) (buf : List Bool) (c : Option Byte) (is_first : Bool) (input : List Byte),
    c ≠ some 10 → (10 : Byte) ∉ input →
    isErr (FormatHits.hitsLoop m fuel buf c is_first input) = true := by
  intro fuel
  induction fuel with
  | zero => intro buf c is_first input _ _; rfl
  | succ fk ih =>
    intro buf c is_first input hc hin
    unfold FormatHits.hitsLoop
    rw [if_neg (by simpa using hc)]
    split
    · rfl
    · rename_i okb value c1 input1 heq
      obtain ⟨hc1, hin1⟩ := read_uint64_no_newline hc hin heq
      split
      · rfl
      · split
        · rfl
        · split
          · rfl
          · exact ih _ c1 false input1 hc1 hin1

/-- Helper: `maybe_buffer_data` of the R8 decoder raises an error at
end-of-stream whenever the record has already begun (`position` is not
zero and the run counters are empty). -/
theorem r8_mbd_eof_err {s : FormatR8.State} (hin : s.input = []) (h0 : s.buffered_0s = 0)
    (hp : s.position ≠ 0) : isErr (FormatR8.maybe_buffer_data s) = true := by
  unfold FormatR8.maybe_buffer_data
  split
  · rfl
  · rw [hin, h0]
    unfold FormatR8.zeroRun
    rw [if_neg (by simpa using hp)]
    rfl

/-- C3 counterexample: two decoders accept or silently truncate a
mid-record end-of-stream.  The FDETS decoder with (m,d,l) = (1,0,0) on
the bytes of "shot M0" — the stream ending mid-line, with no newline —
returns a successful record (buffer bit set, stream consumed) instead of
raising an error; and the FB8 decoder with m = 16 on a one-byte stream,
after start_record and eight read_bit calls, answers a block
read_bits_into_bytes with a silent short result of 0 bits, no error,
is_end_of_record still false. -/
theorem C3_mid_record_eof_counterexample :
    detsRunC3Eof = .ok (true, [true], []) ∧
    b8RunC3Short = .ok (true, 0, [0, 0], false, 8) := ⟨rfl, rfl⟩

/-- C3 amended: mid-record end-of-stream raises an error in the
bit-level reading paths of the decoders — for FR8, read_bit at
end-of-stream with empty run counters and a begun record (position not
zero) errors; for F01, read_bit and is_end_of_record at EOF before the
record length errors; for FB8, read_bit at end-of-stream mid-record
errors; for FHITS, start_record on a non-empty stream holding no newline
errors — but FDETS start_record treats end-of-stream like a newline
(accepting a mid-line EOF as the end of the record), and the FB8 block
read_bits_into_bytes returns a short count instead of raising. -/
theorem C3_mid_record_eof_amended :
    (∀ s : FormatR8.State, s.input = [] → s.buffered_0s = 0 → s.buffered_1s = 0 →
      s.position ≠ 0 → isErr (FormatR8.read_bit s) = true) ∧
    (∀ s : Format01.State, s.payload = none → s.position < s.bits_per_record →
      isErr (Format01.read_bit s) = true ∧ isErr (Format01.is_end_of_record s) = true) ∧
    (∀ s : FormatB8.State, s.input = [] → s.bits_available = 0 →
      s.position < s.bits_per_record → isErr (FormatB8.read_bit s) = true) ∧
    (∀ s : FormatHits.State, s.input ≠ [] → (10 : Byte) ∉ s.input →
      isErr (FormatHits.start_record s) = true) := by
  refine ⟨?_, ?_, ?_, ?_⟩
  · intro s hin h0 h1 hp
    unfold FormatR8.read_bit
    rw [if_pos (by simp [h0, h1])]
    have := r8_mbd_eof_err hin h0 hp
    cases hm : FormatR8.maybe_buffer_data s with
    | error e => rfl
    | ok r => rw [hm] at this; exact absurd this (by simp [isErr])
  · intro s hpl hpos
    constructor
    · unfold Format01.read_bit
      rw [hpl]
      rfl
    · simp [Format01.is_end_of_record, isErr, hpl, Nat.not_le.mpr hpos]
  · intro s hin hav hpos
    simp [FormatB8.read_bit, FormatB8.maybe_update_payload, isErr, getcS, hin, hav,
      Nat.not_le.mpr hpos]
  · intro s hne hin
    rcases hi : s.input with _ | ⟨b, bs⟩
    · exact absurd hi hne
    · rw [hi] at hin
      have hb : some b ≠ some (10 : Byte) := by
        intro hx; injection hx with hxb; exact hin (by simp [hxb])
      have hbs : (10 : Byte) ∉ bs := fun hx => hin (by simp [hx])
      unfold FormatHits.start_record
      rw [hi]
      simp only [getcS]
      cases hl : FormatHits.hitsLoop s.bits_per_record ((b :: bs).length + 1)
          (List.replicate s.bits_per_record false) (some b) true bs with
      | error e => simp [hl, isErr]
      | ok r =>
        have herr := hitsLoop_no_newline (m := s.bits_per_record) ((b :: bs).length + 1)
          (List.replicate s.bits_per_record false) (some b) true bs hb hbs
        rw [hl] at herr
        exact absurd herr (by simp [isErr])

/-- C3 witness: the four error conjuncts of `C3_mid_record_eof_amended`
applied at concrete states: an FR8 state at position 3 with empty
counters and exhausted stream; an F01 state at EOF at position 1 of a
width-3 record; an FB8 state at position 8 of a width-16 record with the
stream exhausted; and an FHITS state whose remaining stream is the single
digit byte 53 with no newline. -/
theorem C3_mid_record_eof_amended_witness :
    isErr (FormatR8.read_bit ⟨[], 5, 3, 0, 0, false⟩) = true ∧
    isErr (Format01.read_bit ⟨[], 3, none, 1⟩) = true ∧
    isErr (FormatB8.read_bit ⟨[], 16, some 0, 0, 8⟩) = true ∧
    isErr (FormatHits.start_record ⟨[53], 8, List.replicate 8 false, 8⟩) = true :=
  ⟨C3_mid_record_eof_amended.1 ⟨[], 5, 3, 0, 0, false⟩ rfl rfl rfl (by decide),
   (C3_mid_record_eof_amended.2.1 ⟨[], 3, none, 1⟩ rfl (by decide)).1,
   C3_mid_record_eof_amended.2.2.1 ⟨[], 16, some 0, 0, 8⟩ rfl rfl (by decide),
   C3_mid_record_eof_amended.2.2.2 ⟨[53], 8, List.replicate 8 false, 8⟩ (by simp)
     (by decide)⟩

/-- C7: the DETS current_result_type is a pure function of
position_in_buffer and the three widths only (states agreeing on those
four numbers get the same label, whatever their buffer and stream);
its rank in the order M before D before L is monotone non-decreasing in
the position; at the terminus m + d + l it returns the label of the last
non-empty section; and it returns M when m = d = l = 0 (at every
position). -/
theorem C7_dets_result_type :
    (∀ s t : FormatDets.State,
      s.position_in_buffer = t.position_in_buffer →
      s.m_bits_per_record = t.m_bits_per_record →
      s.d_bits_per_record = t.d_bits_per_record →
      s.l_bits_per_record = t.l_bits_per_record →
      FormatDets.current_result_type s = FormatDets.current_result_type t) ∧
    (∀ m d l p q, p ≤ q →
      mdlRank (FormatDets.detsResultType p m d l) ≤
        mdlRank (FormatDets.detsResultType q m d l)) ∧
    (∀ m d l, FormatDets.detsResultType (m + d + l) m d l =
      if l ≠ 0 then 76 else if d ≠ 0 then 68 else 77) ∧
    (∀ p, FormatDets.detsResultType p 0 0 0 = 77) := by
  refine ⟨?_, ?_, ?_, ?_⟩
  · intro s t h1 h2 h3 h4
    unfold FormatDets.current_result_type
    rw [h1, h2, h3, h4]
  · intro m d l p q hpq
    unfold FormatDets.detsResultType
    by_cases hqm : (decide (q < m) && !(m == 0)) = true
    · have hpm : (decide (p < m) && !(m == 0)) = true := by
        simp only [Bool.and_eq_true, decide_eq_true_eq] at hqm ⊢
        exact ⟨lt_of_le_of_lt hpq hqm.1, hqm.2⟩
      rw [if_pos hqm, if_pos hpm]
    · by_cases hqd : (decide (q < m + d) && !(d == 0)) = true
      · rw [if_neg hqm, if_pos hqd]
        by_cases hpm : (decide (p < m) && !(m == 0)) = true
        · rw [if_pos hpm]; decide
        · have hpd : (decide (p < m + d) && !(d == 0)) = true := by
            simp only [Bool.and_eq_true, decide_eq_true_eq] at hqd ⊢
            exact ⟨lt_of_le_of_lt hpq hqd.1, hqd.2⟩
          rw [if_neg hpm, if_pos hpd]
      · rw [if_neg hqm, if_neg hqd]
        by_cases hpm : (decide (p < m) && !(m == 0)) = true
        · rw [if_pos hpm]
          by_cases hl : (!(l == 0)) = true
          · rw [if_pos hl]; decide
          · rw [if_neg hl]
            by_cases hd : (!(d == 0)) = true
            · rw [if_pos hd]; decide
            · rw [if_neg hd]
        · by_cases hpd : (decide (p < m + d) && !(d == 0)) = true
          · rw [if_neg hpm, if_pos hpd]
            have hd : (!(d == 0)) = true := by
              simp only [Bool.and_eq_true] at hpd
              exact hpd.2
            by_cases hl : (!(l == 0)) = true
            · rw [if_pos hl]; decide
            · rw [if_neg hl, if_pos hd]
          · rw [if_neg hpm, if_neg hpd]
  · intro m d l
    have h1 : ¬ (m + d + l < m) := by omega
    have h2 : ¬ (m + d + l < m + d) := by omega
    unfold FormatDets.detsResultType
    by_cases hd : d = 0 <;> by_cases hl : l = 0 <;> simp [h1, h2, hd, hl]
  · intro p
    simp [FormatDets.detsResultType]

/-- C7 witness: the conjuncts of `C7_dets_result_type` applied at
concrete inputs: two states with widths (1,1,1) at position 0 differing
in their streams and buffers; the monotonicity instance p = 0, q = 3 for
widths (1,1,1); the terminus value for widths (1,1,0); and the all-zero
case at position 5. -/
theorem C7_dets_result_type_witness :
    FormatDets.current_result_type ⟨[9], 1, 1, 1, [true, false, true], 0⟩ =
      FormatDets.current_result_type ⟨[], 1, 1, 1, [false, false, false], 0⟩ ∧
    mdlRank (FormatDets.detsResultType 0 1 1 1) ≤ mdlRank (FormatDets.detsResultType 3 1 1 1) ∧
    FormatDets.detsResultType 2 1 1 0 = 68 ∧
    FormatDets.detsResultType 5 0 0 0 = 77 :=
  ⟨C7_dets_result_type.1 ⟨[9], 1, 1, 1, [true, false, true], 0⟩
      ⟨[], 1, 1, 1, [false, false, false], 0⟩ rfl rfl rfl rfl,
   C7_dets_result_type.2.1 1 1 1 0 3 (by decide),
   by rw [C7_dets_result_type.2.2.1 1 1 0]; decide,
   C7_dets_result_type.2.2.2 5⟩

/-- C9: for the FHITS and FDETS decoders all stream consumption happens
inside start_record: a successful read_bit leaves the remaining stream
unchanged (it only indexes the materialised buffer), and next_record is
literally the same function as start_record, so abandoning a
partially-read record consumes nothing beyond what the next start_record
itself reads. -/
theorem C9_hits_dets_frame :
    (∀ (s : FormatHits.State) (b : Bool) (s' : FormatHits.State),
      FormatHits.read_bit s = .ok (b, s') → s'.input = s.input) ∧
    (∀ s : FormatHits.State, FormatHits.next_record s = FormatHits.start_record s) ∧
    (∀ (s : FormatDets.State) (b : Bool) (s' : FormatDets.State),
      FormatDets.read_bit s = .ok (b, s') → s'.input = s.input) ∧
    (∀ s : FormatDets.State, FormatDets.next_record s = FormatDets.start_record s) := by
  refine ⟨?_, fun _ => rfl, ?_, fun _ => rfl⟩
  · intro s b s' h
    unfold FormatHits.read_bit at h
    split at h
    · exact absurd h (by simp)
    · injection h with hpair
      injection hpair with h1 h2
      rw [← h2]
  · intro s b s' h
    unfold FormatDets.read_bit at h
    split at h
    · exact absurd h (by simp)
    · injection h with hpair
      injection hpair with h1 h2
      rw [← h2]

/-- C9 witness: the read_bit conjuncts of `C9_hits_dets_frame` applied at
concrete one-bit states whose stream is the single byte 9: the stream is
unchanged by the read. -/
theorem C9_hits_dets_frame_witness :
    (FormatHits.State.mk [9] 1 [true] 1).input = (FormatHits.State.mk [9] 1 [true] 0).input ∧
    (FormatDets.State.mk [9] 1 0 0 [true] 1).input =
      (FormatDets.State.mk [9] 1 0 0 [true] 0).input :=
  ⟨C9_hits_dets_frame.1 ⟨[9], 1, [true], 0⟩ true ⟨[9], 1, [true], 1⟩ rfl,
   C9_hits_dets_frame.2.2.1 ⟨[9], 1, 0, 0, [true], 0⟩ true ⟨[9], 1, 0, 0, [true], 1⟩ rfl⟩

/-- Helper: a fold of XOR-toggles computes, at every position, the XOR of
the initial bit with the parity of the number of toggles aimed at that
position (all toggle indices in range). -/
theorem toggle_foldl_parity (idxs : List Nat) :
    ∀ (buf : List Bool) (i : Nat), (∀ j ∈ idxs, j < buf.length) →
    (idxs.foldl toggle buf).getD i false =
      xor (buf.getD i false) (decide (idxs.count i % 2 = 1)) := by
  induction idxs with
  | nil => intro buf i _; simp
  | cons j rest ih =>
    intro buf i hb
    rw [List.foldl_cons]
    have hlen : ∀ x ∈ rest, x < (toggle buf j).length := by
      intro x hx
      rw [toggle, List.length_set]
      exact hb x (List.mem_cons_of_mem _ hx)
    rw [ih (toggle buf j) i hlen]
    by_cases hji : j = i
    · subst hji
      have hjlen : j < buf.length := hb j (List.mem_cons_self _ _)
      have htog : (toggle buf j).getD j false = !(buf.getD j false) := by
        simp [toggle, List.getD_eq_getElem?_getD, List.getElem?_set, hjlen]
      rw [htog]
      have hcount : (j :: rest).count j = rest.count j + 1 := by
        simp [List.count_cons]
      rw [hcount]
      rcases Nat.mod_two_eq_zero_or_one (rest.count j) with hc | hc
      · have h1 : ¬ (rest.count j % 2 = 1) := by omega
        have h2 : (rest.count j + 1) % 2 = 1 := by omega
        simp [h1, h2]
      · have h2 : ¬ ((rest.count j + 1) % 2 = 1) := by omega
        simp [hc, h2]
    · have htog : (toggle buf j).getD i false = buf.getD i false := by
        simp [toggle, List.getD_eq_getElem?_getD, List.getElem?_set, hji]
      rw [htog]
      have hcount : (j :: rest).count i = rest.count i := by
        simp [List.count_cons, hji]
      rw [hcount]


/-- Helper: OR-ing a bit at position `k` into an accumulator below `2^k`
is addition — the bits are disjoint. -/
theorem lor_add_pow {x : Nat} (hx : x ≤ 1) :
    ∀ (k b : Nat), b < 2 ^ k → b ||| x * 2 ^ k = b + x * 2 ^ k := by
  intro k
  induction k with
  | zero =>
    intro b hb
    interval_cases b
    interval_cases x <;> simp
  | succ k ih =>
    intro b hb
    have hpow : (2 : Nat) ^ (k + 1) = 2 * 2 ^ k := by ring
    have hxmul : x * 2 ^ (k + 1) = Nat.bit false (x * 2 ^ k) := by
      rw [Nat.bit_val]
      simp
      ring
    have hdecomp := Nat.bit_decomp b
    have hdiv2 : Nat.div2 b < 2 ^ k := by
      rw [Nat.div2_val]
      omega
    have hb2 : 2 * Nat.div2 b + (Nat.bodd b).toNat = b := by
      conv_rhs => rw [← Nat.bit_decomp b]
      rw [Nat.bit_val]
    have hxp : x * 2 ^ (k + 1) = 2 * (x * 2 ^ k) := by rw [hpow]; ring
    conv_lhs => rw [← hdecomp, hxmul]
    rw [Nat.lor_bit, ih (Nat.div2 b) hdiv2]
    simp only [Nat.bit_val, Bool.or_false]
    omega

/-- Helper: a bit list values below two to its length. -/
theorem bitsVal_lt : ∀ bits : List Bool, bitsVal bits < 2 ^ bits.length := by
  intro bits
  induction bits with
  | nil => simp [bitsVal]
  | cons x xs ih =>
    unfold bitsVal
    have hpow : (2 : Nat) ^ (x :: xs).length = 2 * 2 ^ xs.length := by
      simp [List.length_cons]
      ring
    rw [hpow]
    cases x <;> simp <;> omega

/-- Helper: expanding the value of a bit list back to at least as many
little-endian bits starts with the original list. -/
theorem bitsLE_bitsVal_take :
    ∀ (bits : List Bool) (kk : Nat), bits.length ≤ kk →
    (bitsLE (bitsVal bits) kk).take bits.length = bits := by
  intro bits
  induction bits with
  | nil => intro kk _; simp
  | cons x xs ih =>
    intro kk hk
    match kk, hk with
    | kk'+1, hk =>
      unfold bitsLE bitsVal
      have hmod : ((if x then 1 else 0) + 2 * bitsVal xs) % 2 = if x then 1 else 0 := by
        cases x <;> simp <;> omega
      have hdiv : ((if x then 1 else 0) + 2 * bitsVal xs) / 2 = bitsVal xs := by
        cases x <;> simp <;> omega
      rw [hmod, hdiv, List.length_cons, List.take_succ_cons,
        ih kk' (by simpa using hk)]
      cases x <;> simp

/-- Helper: the length of a little-endian expansion. -/
theorem bitsLE_length : ∀ (kk v : Nat), (bitsLE v kk).length = kk := by
  intro kk
  induction kk with
  | zero => intro v; rfl
  | succ k ih => intro v; unfold bitsLE; simp [ih]

/-- Helper: expanding the value of a bit list to exactly its length of
little-endian bits recovers the list. -/
theorem bitsLE_bitsVal (bits : List Bool) :
    bitsLE (bitsVal bits) bits.length = bits :=
  calc bitsLE (bitsVal bits) bits.length
      = (bitsLE (bitsVal bits) bits.length).take
          (bitsLE (bitsVal bits) bits.length).length := (List.take_length _).symm
    _ = (bitsLE (bitsVal bits) bits.length).take bits.length := by rw [bitsLE_length]
    _ = bits := bitsLE_bitsVal_take bits bits.length (Nat.le_refl _)

/-- Helper: reading a + b bits is reading a bits and then b bits. -/
theorem readBitsN_add {σ : Type} (rb : σ → Except String (Bool × σ)) :
    ∀ (a : Nat) (s : σ) (x : List Bool) (s1 : σ) (b : Nat) (y : List Bool) (s2 : σ),
    readBitsN rb a s = .ok (x, s1) → readBitsN rb b s1 = .ok (y, s2) →
    readBitsN rb (a + b) s = .ok (x ++ y, s2) := by
  intro a
  induction a with
  | zero =>
    intro s x s1 b y s2 h1 h2
    unfold readBitsN at h1
    injection h1 with hp
    injection hp with hx hs
    subst hx
    subst hs
    simpa using h2
  | succ a ih =>
    intro s x s1 b y s2 h1 h2
    unfold readBitsN at h1
    split at h1
    · exact absurd h1 (by simp)
    · rename_i bit sm hrb
      split at h1
      · exact absurd h1 (by simp)
      · rename_i xs sn hrest
        injection h1 with hp
        injection hp with hx hs
        subst hx
        rw [← hs] at h2
        have hcomp := ih sm xs sn b y s2 hrest h2
        have hadd : a + 1 + b = (a + b) + 1 := by omega
        rw [hadd]
        unfold readBitsN
        simp only [hrb, hcomp, List.cons_append]

/-- Helper: the inner loop of the default `read_bits_into_bytes` reads a
sequence of bits whose length is at most the remaining loop count
(exactly that count when it ran to completion, and at least one when it
stopped), ORs them into the accumulator starting at position `k`, counts
them, and leaves exactly the state of that many `read_bit` calls. -/
theorem rbibInner_spec {σ : Type} (R : ReaderOps σ) (rt : Byte) :
    ∀ (fk k b n : Nat) (s : σ) (b2 n2 : Nat) (s2 : σ) (stop : Bool),
    MeasureRecordReader.rbibInner R rt fk k b n s = .ok (b2, n2, s2, stop) →
    b < 2 ^ k →
    ∃ bits : List Bool,
      readBitsN R.read_bit bits.length s = .ok (bits, s2) ∧
      n2 = n + bits.length ∧ bits.length ≤ fk ∧
      (stop = false → bits.length = fk) ∧
      (stop = true → 1 ≤ bits.length) ∧
      b2 = b + bitsVal bits * 2 ^ k := by
  intro fk
  induction fk with
  | zero =>
    intro k b n s b2 n2 s2 stop h hb
    unfold MeasureRecordReader.rbibInner at h
    injection h with hp
    injection hp with hb2 hp
    injection hp with hn2 hp
    injection hp with hs2 hstop
    subst hb2; subst hn2; subst hs2; subst hstop
    exact ⟨[], rfl, by simp, by simp, fun _ => rfl,
      fun hc => absurd hc (by simp), by simp [bitsVal]⟩
  | succ fk ih =>
    intro k b n s b2 n2 s2 stop h hb
    unfold MeasureRecordReader.rbibInner at h
    split at h
    · exact absurd h (by simp)
    · rename_i bit s1 hrb
      split at h
      · exact absurd h (by simp)
      · rename_i e he
        have hxle : (if bit then 1 else 0 : Nat) ≤ 1 := by cases bit <;> simp
        have hshift : ((if bit then 1 else 0 : Nat) <<< k) = (if bit then 1 else 0) * 2 ^ k :=
          Nat.shiftLeft_eq _ _
        have hlor : b ||| ((if bit then 1 else 0 : Nat) <<< k) =
            b + (if bit then 1 else 0) * 2 ^ k := by
          rw [hshift]; exact lor_add_pow hxle k b hb
        split at h
        · injection h with hp
          injection hp with hb2 hp
          injection hp with hn2 hp
          injection hp with hs2 hstop
          subst hb2; subst hn2; subst hs2; subst hstop
          refine ⟨[bit], ?_, by simp, by simp, ?_, fun _ => by simp, ?_⟩
          · show readBitsN R.read_bit 1 s = .ok ([bit], s1)
            unfold readBitsN
            simp only [hrb]
            rfl
          · intro hc; exact absurd hc (by simp)
          · rw [hlor]
            have hbv : bitsVal [bit] = (if bit then 1 else 0) := by
              cases bit <;> simp [bitsVal]
            rw [hbv]
        · have hacc : b + (if bit then 1 else 0 : Nat) * 2 ^ k < 2 ^ (k + 1) := by
            have hpow : (2 : Nat) ^ (k + 1) = 2 * 2 ^ k := by ring
            cases bit <;> simp <;> omega
          rw [hlor] at h
          obtain ⟨bits, hread, hn2e, hle, hfull, hstop1, hval⟩ :=
            ih (k+1) (b + (if bit then 1 else 0) * 2 ^ k) (n+1) s1 b2 n2 s2 stop h hacc
          refine ⟨bit :: bits, ?_, ?_, ?_, ?_, fun _ => by simp, ?_⟩
          · show readBitsN R.read_bit (bits.length + 1) s = .ok (bit :: bits, s2)
            unfold readBitsN
            simp only [hrb, hread]
          · simp only [List.length_cons]
            omega
          · simp only [List.length_cons]
            omega
          · intro hc
            have hlen := hfull hc
            simp only [List.length_cons]
            omega
          · rw [hval]
            have hpow : (2 : Nat) ^ (k + 1) = 2 * 2 ^ k := by ring
            have hbv : bitsVal (bit :: bits) = (if bit then 1 else 0) + 2 * bitsVal bits := rfl
            rw [hbv, hpow]
            ring

/-- Helper: the byte loop of the default `read_bits_into_bytes` reads a
bit sequence, writes it little-endian into the buffer bytes it fills
(zeroing each before writing), counts the bits, leaves untouched every
byte from index (bits + 7) / 8 on, keeps the unused high bits of the
final written byte zero, and leaves exactly the state of that many
`read_bit` calls. -/
theorem rbibBytes_spec {σ : Type} (R : ReaderOps σ) (rt : Byte) :
    ∀ (out : List Byte) (n : Nat) (s : σ) (nf : Nat) (out2 : List Byte) (s2 : σ),
    MeasureRecordReader.rbibBytes R rt out n s = .ok (nf, out2, s2) →
    ∃ bits : List Bool,
      readBitsN R.read_bit bits.length s = .ok (bits, s2) ∧
      nf = n + bits.length ∧
      out2.length = out.length ∧
      (bytesToBits out2).take bits.length = bits ∧
      (∀ j, (bits.length + 7) / 8 ≤ j → out2.getD j 0 = out.getD j 0) ∧
      (0 < bits.length →
        out2.getD ((bits.length - 1) / 8) 0 < 2 ^ ((bits.length - 1) % 8 + 1)) := by
  intro out
  induction out with
  | nil =>
    intro n s nf out2 s2 h
    unfold MeasureRecordReader.rbibBytes at h
    injection h with hp
    injection hp with hnf hp
    injection hp with hout hs
    subst hnf; subst hout; subst hs
    exact ⟨[], rfl, by simp, rfl, by simp, fun j _ => rfl, by simp⟩
  | cons byte rest ih =>
    intro n s nf out2 s2 h
    unfold MeasureRecordReader.rbibBytes at h
    split at h
    · exact absurd h (by simp)
    · rename_i b1 n1 s1 stopped hinner
      obtain ⟨bits1, hread1, hn1, hle1, hfull1, hstop1, hval1⟩ :=
        rbibInner_spec R rt 8 0 0 n s b1 n1 s1 stopped hinner (by simp)
      have hb1 : b1 = bitsVal bits1 := by rw [hval1]; simp
      split at h
      · rename_i hstopped
        injection h with hp
        injection hp with hnf hp
        injection hp with hout hs
        subst hnf; subst hout; subst hs
        have hlen1 : 1 ≤ bits1.length := hstop1 hstopped
        refine ⟨bits1, hread1, hn1, by simp, ?_, ?_, ?_⟩
        · show (bytesToBits (b1 :: rest)).take bits1.length = bits1
          have hexp : bytesToBits (b1 :: rest) = byteBits b1 ++ bytesToBits rest := rfl
          have hbblen : bits1.length ≤ (byteBits b1).length := by
            rw [byteBits, bitsLE_length]
            exact hle1
          rw [hexp, List.take_append_of_le_length hbblen, hb1, byteBits]
          exact bitsLE_bitsVal_take bits1 8 hle1
        · intro j hj
          match j with
          | 0 => exact absurd hj (by omega)
          | jj+1 => simp [List.getD_cons_succ]
        · intro hpos
          have hdiv : (bits1.length - 1) / 8 = 0 := by omega
          have hmod : (bits1.length - 1) % 8 + 1 = bits1.length := by omega
          rw [hdiv, hmod, List.getD_cons_zero, hb1]
          exact bitsVal_lt bits1
      · rename_i hstopped
        split at h
        · exact absurd h (by simp)
        · rename_i n2 rest2 s2x hrec
          injection h with hp
          injection hp with hnf hp
          injection hp with hout hs
          subst hnf; subst hout; subst hs
          have hstoppedF : stopped = false := by
            cases stopped
            · rfl
            · exact absurd rfl hstopped
          have hfull := hfull1 hstoppedF
          obtain ⟨bits2, hread2, hn2e, hlen2, htake2, huntouched2, hlast2⟩ :=
            ih n1 s1 n2 rest2 s2x hrec
          have hbb : byteBits b1 = bits1 := by
            rw [hb1, byteBits, ← hfull]
            exact bitsLE_bitsVal bits1
          refine ⟨bits1 ++ bits2, ?_, ?_, ?_, ?_, ?_, ?_⟩
          · rw [List.length_append]
            exact readBitsN_add _ _ _ _ _ _ _ _ hread1 hread2
          · rw [List.length_append]
            omega
          · simp [hlen2]
          · show (bytesToBits (b1 :: rest2)).take (bits1 ++ bits2).length = bits1 ++ bits2
            have hexp : bytesToBits (b1 :: rest2) = byteBits b1 ++ bytesToBits rest2 := rfl
            rw [hexp, hbb, List.length_append, List.take_append, htake2]
          · intro j hj
            rw [List.length_append, hfull] at hj
            match j, hj with
            | 0, hj => exact absurd hj (by omega)
            | jj+1, hj =>
              have hjj : (bits2.length + 7) / 8 ≤ jj := by omega
              simp only [List.getD_cons_succ]
              exact huntouched2 jj hjj
          · intro hpos
            rw [List.length_append, hfull]
            by_cases hl2 : 0 < bits2.length
            · have hdiv : (8 + bits2.length - 1) / 8 = (bits2.length - 1) / 8 + 1 := by omega
              have hmod : (8 + bits2.length - 1) % 8 = (bits2.length - 1) % 8 := by omega
              rw [hdiv, hmod, List.getD_cons_succ]
              exact hlast2 hl2
            · have hlen0 : bits2.length = 0 := by omega
              have hdiv : (8 + bits2.length - 1) / 8 = 0 := by omega
              have hmod : (8 + bits2.length - 1) % 8 + 1 = 8 := by omega
              rw [hdiv, hmod, List.getD_cons_zero, hb1]
              have hv := bitsVal_lt bits1
              rw [hfull] at hv
              exact hv

/-- C10: the default `read_bits_into_bytes` zeroes every output byte it
writes before OR-ing bits into it, so the buffer after a successful call
has unchanged length, every byte from index (n + 7) / 8 on is exactly as
it was before the call, and the final written byte has zeros in all bit
positions above the last bit written (its value is below
2 ^ (((n - 1) mod 8) + 1)). -/
theorem C10_default_rbib_zeroing {σ : Type} (R : ReaderOps σ) (s : σ) (out : List Byte)
    (n : Nat) (out2 : List Byte) (s2 : σ)
    (h : MeasureRecordReader.read_bits_into_bytes R s out = .ok (n, out2, s2)) :
    out2.length = out.length ∧
    (∀ j, (n + 7) / 8 ≤ j → out2.getD j 0 = out.getD j 0) ∧
    (0 < n → out2.getD ((n - 1) / 8) 0 < 2 ^ ((n - 1) % 8 + 1)) := by
  unfold MeasureRecordReader.read_bits_into_bytes at h
  split at h
  · exact absurd h (by simp)
  · split at h
    · injection h with hp
      injection hp with hn hp
      injection hp with hout hs
      subst hn; subst hout
      exact ⟨rfl, fun j _ => rfl, by simp⟩
    · obtain ⟨bits, hread, hn, hlen, htake, huntouched, hlast⟩ :=
        rbibBytes_spec R (R.current_result_type s) out 0 s n out2 s2 h
      have hnb : n = bits.length := by omega
      subst hnb
      exact ⟨hlen, huntouched, hlast⟩

/-- C10 witness: `C10_default_rbib_zeroing` applied to the HITS decoder
holding the three-bit record 1,0,1 and a two-byte output buffer 7, 9: the
call writes the single byte 5 (bits above position 2 zero) and leaves the
second byte 9 untouched. -/
theorem C10_default_rbib_zeroing_witness :
    ([5, 9] : List Byte).length = ([7, 9] : List Byte).length ∧
    (∀ j, (3 + 7) / 8 ≤ j → ([5, 9] : List Byte).getD j 0 = ([7, 9] : List Byte).getD j 0) ∧
    (0 < 3 → ([5, 9] : List Byte).getD ((3 - 1) / 8) 0 < 2 ^ ((3 - 1) % 8 + 1)) :=
  C10_default_rbib_zeroing FormatHits.ops ⟨[], 3, [true, false, true], 0⟩ [7, 9] 3 [5, 9]
    ⟨[], 3, [true, false, true], 3⟩ rfl

/-- Helper: taking a short little-endian expansion of a value from a
longer one. -/
theorem bitsLE_take : ∀ (kk j v : Nat), j ≤ kk → (bitsLE v kk).take j = bitsLE v j := by
  intro kk
  induction kk with
  | zero =>
    intro j v hj
    interval_cases j
    rfl
  | succ k ih =>
    intro j v hj
    match j with
    | 0 => rfl
    | j'+1 =>
      show ((v % 2 == 1) :: bitsLE (v / 2) k).take (j' + 1) = bitsLE v (j' + 1)
      rw [List.take_succ_cons, ih j' (v / 2) (by omega)]
      rfl

/-- Helper: the bit expansion of a byte list has eight bits per byte. -/
theorem bytesToBits_length : ∀ bs : List Byte, (bytesToBits bs).length = 8 * bs.length := by
  intro bs
  induction bs with
  | nil => rfl
  | cons b rest ih =>
    show (byteBits b ++ bytesToBits rest).length = 8 * (rest.length + 1)
    rw [List.length_append, ih, byteBits, bitsLE_length]
    omega

/-- Helper: reading j bits of the B8 decoder out of an available payload
shifts them out little-endian. -/
theorem b8_read_avail :
    ∀ (j a v p : Nat) (input : List Byte) (m : Nat), j ≤ a → a ≤ 8 → p + j ≤ m →
    readBitsN FormatB8.read_bit j ⟨input, m, some v, a, p⟩ =
      .ok (bitsLE v j, ⟨input, m, some (v / 2 ^ j), a - j, p + j⟩) := by
  intro j
  induction j with
  | zero =>
    intro a v p input m hj ha hp
    simp [readBitsN, bitsLE]
  | succ j ih =>
    intro a v p input m hj ha hp
    have hlt : ¬ (m ≤ p) := by omega
    have hpos0 : 0 < a := by omega
    have hstep : FormatB8.read_bit ⟨input, m, some v, a, p⟩ =
        .ok (v % 2 == 1, ⟨input, m, some (v / 2), a - 1, p + 1⟩) := by
      simp [FormatB8.read_bit, FormatB8.maybe_update_payload, hlt, hpos0]
    have hrec := ih (a - 1) (v / 2) (p + 1) input m (by omega) (by omega) (by omega)
    unfold readBitsN
    simp only [hstep, hrec]
    have h1 : v / 2 / 2 ^ j = v / 2 ^ (j + 1) := by
      rw [Nat.div_div_eq_div_mul, pow_succ, mul_comm 2 (2 ^ j), mul_comm (2 ^ j) 2]
    have h2 : a - 1 - j = a - (j + 1) := by omega
    have h3 : p + 1 + j = p + (j + 1) := by omega
    rw [h1, h2, h3]
    rfl

/-- Helper: reading 1 ≤ j ≤ 8 bits of the B8 decoder starting with an
empty payload consumes exactly one stream byte and shifts its bits out
little-endian. -/
theorem b8_read_byte (j : Nat) (hj1 : 1 ≤ j) (hj8 : j ≤ 8) (v p : Nat) (input : List Byte)
    (m : Nat) (pl : Option Byte) (hp : p + j ≤ m) :
    readBitsN FormatB8.read_bit j ⟨v :: input, m, pl, 0, p⟩ =
      .ok ((byteBits v).take j, ⟨input, m, some (v / 2 ^ j), 8 - j, p + j⟩) := by
  match j, hj1 with
  | j'+1, _ =>
    have hlt : ¬ (m ≤ p) := by omega
    have hstep : FormatB8.read_bit ⟨v :: input, m, pl, 0, p⟩ =
        .ok (v % 2 == 1, ⟨input, m, some (v / 2), 7, p + 1⟩) := by
      simp [FormatB8.read_bit, FormatB8.maybe_update_payload, getcS, hlt]
    have hrec := b8_read_avail j' 7 (v / 2) (p + 1) input m (by omega) (by omega) (by omega)
    unfold readBitsN
    simp only [hstep, hrec]
    have h1 : v / 2 / 2 ^ j' = v / 2 ^ (j' + 1) := by
      rw [Nat.div_div_eq_div_mul, pow_succ, mul_comm 2 (2 ^ j'), mul_comm (2 ^ j') 2]
    have h2 : (7 : Nat) - j' = 8 - (j' + 1) := by omega
    have h3 : p + 1 + j' = p + (j' + 1) := by omega
    have h4 : (byteBits v).take (j' + 1) = bitsLE v (j' + 1) := bitsLE_take 8 (j' + 1) v (by omega)
    rw [h1, h2, h3, h4]
    rfl

/-- Helper: a block of whole stream bytes read bit-by-bit through the B8
decoder delivers exactly the little-endian expansion of those bytes and
consumes them from the stream. -/
theorem b8_block_read :
    ∀ (chunk : List Byte) (j p : Nat) (pl : Option Byte) (rest : List Byte) (m : Nat),
    j ≤ 8 * chunk.length → 8 * chunk.length < j + 8 → p + j ≤ m →
    ∃ pl2 av2,
      readBitsN FormatB8.read_bit j ⟨chunk ++ rest, m, pl, 0, p⟩ =
        .ok ((bytesToBits chunk).take j, ⟨rest, m, pl2, av2, p + j⟩) := by
  intro chunk
  induction chunk with
  | nil =>
    intro j p pl rest m hj1 hj2 hp
    have hj0 : j = 0 := by simpa using hj1
    subst hj0
    exact ⟨pl, 0, by simp [readBitsN]⟩
  | cons v chunk' ih =>
    intro j p pl rest m hj1 hj2 hp
    rcases chunk' with _ | ⟨w, chunk''⟩
    · have hj8 : j ≤ 8 := by simpa using hj1
      have hjpos : 1 ≤ j := by
        simp only [List.length_cons, List.length_nil] at hj2
        omega
      refine ⟨some (v / 2 ^ j), 8 - j, ?_⟩
      have h := b8_read_byte j hjpos hj8 v p rest m pl hp
      rw [show (([v] : List Byte) ++ rest) = v :: rest from rfl, h]
      have : (bytesToBits [v]).take j = (byteBits v).take j := by
        show ((byteBits v ++ bytesToBits []).take j) = _
        rw [List.take_append_of_le_length (by rw [byteBits, bitsLE_length]; omega)]
      rw [this]
    · have hlen : (v :: w :: chunk'').length = chunk''.length + 2 := by simp
      have hj8 : 8 ≤ j := by
        rw [hlen] at hj2
        omega
    -- first byte then induction
      have hfirst := b8_read_byte 8 (by omega) (by omega) v p ((w :: chunk'') ++ rest) m pl
        (by rw [hlen] at hj1; omega)
      obtain ⟨pl2, av2, hrest⟩ := ih (j - 8) (p + 8) (some (v / 2 ^ 8)) rest m
        (by rw [hlen] at hj1; simp only [List.length_cons]; omega)
        (by rw [hlen] at hj2; simp only [List.length_cons]; omega) (by omega)
      have hcomb := readBitsN_add FormatB8.read_bit 8 ⟨v :: (w :: chunk'') ++ rest, m, pl, 0, p⟩
        ((byteBits v).take 8) ⟨(w :: chunk'') ++ rest, m, some (v / 2 ^ 8), 8 - 8, p + 8⟩
        (j - 8) ((bytesToBits (w :: chunk'')).take (j - 8)) ⟨rest, m, pl2, av2, p + 8 + (j - 8)⟩
        (by exact hfirst) (by simpa using hrest)
      refine ⟨pl2, av2, ?_⟩
      have hj' : 8 + (j - 8) = j := by omega
      have htake8 : (byteBits v).take 8 = byteBits v := by
        rw [byteBits, bitsLE_take 8 8 v (by omega)]
      have hsplit : (bytesToBits (v :: w :: chunk'')).take (8 + (j - 8)) =
          byteBits v ++ (bytesToBits (w :: chunk'')).take (j - 8) := by
        show ((byteBits v ++ bytesToBits (w :: chunk'')).take (8 + (j - 8))) = _
        rw [show (8 : Nat) = (byteBits v).length from by rw [byteBits, bitsLE_length],
          List.take_append]
      rw [htake8, ← hsplit, Nat.add_assoc] at hcomb
      rw [hj'] at hcomb
      exact hcomb

/-- Helper: the default `read_bits_into_bytes` is equivalent to repeated
`read_bit`: a successful call that reported n bits leaves exactly the
state of n read_bit calls, and the first n bits of the written buffer are
exactly the bits those calls return. -/
theorem rbib_default_equiv {σ : Type} (R : ReaderOps σ) (s : σ) (out : List Byte)
    (n : Nat) (out2 : List Byte) (s2 : σ)
    (h : MeasureRecordReader.read_bits_into_bytes R s out = .ok (n, out2, s2)) :
    readBitsN R.read_bit n s = .ok ((bytesToBits out2).take n, s2) := by
  unfold MeasureRecordReader.read_bits_into_bytes at h
  split at h
  · exact absurd h (by simp)
  · split at h
    · injection h with hp
      injection hp with hn hp
      injection hp with hout hs
      subst hn; subst hout; subst hs
      rfl
    · obtain ⟨bits, hread, hn, hlen, htake, hunt, hlast⟩ :=
        rbibBytes_spec R (R.current_result_type s) out 0 s n out2 s2 h
      have hnb : n = bits.length := by omega
      subst hnb
      rw [htake]
      exact hread

/-- Helper: bit expansion distributes over byte-list append. -/
theorem bytesToBits_append (a b : List Byte) :
    bytesToBits (a ++ b) = bytesToBits a ++ bytesToBits b := by
  simp [bytesToBits]

/-- Helper: the B8 `read_bits_into_bytes` override is equivalent to
repeated `read_bit` whenever the stream holds the bytes the block read
plans to take: same reported bits, and a final state with the same
position, same remaining stream and same is_end_of_record (only the
payload buffering fields may differ after a block read). -/
theorem b8_rbib_equiv (s : FormatB8.State) (out : List Byte) (n : Nat) (out2 : List Byte)
    (s2 : FormatB8.State)
    (hwf : (min (8 * out.length) (s.bits_per_record - s.position) + 7) / 8 ≤ s.input.length)
    (h : FormatB8.read_bits_into_bytes s out = .ok (n, out2, s2)) :
    ∃ s3 : FormatB8.State,
      readBitsN FormatB8.read_bit n s = .ok ((bytesToBits out2).take n, s3) ∧
      s3.position = s2.position ∧ s3.input = s2.input ∧
      FormatB8.is_end_of_record s3 = FormatB8.is_end_of_record s2 := by
  obtain ⟨sin, sm, spl, sav, spos⟩ := s
  simp only at hwf
  unfold FormatB8.read_bits_into_bytes at h
  split at h
  · injection h with hp
    injection hp with hn hp
    injection hp with hout hs
    subst hn; subst hout; subst hs
    exact ⟨_, rfl, rfl, rfl, rfl⟩
  · split at h
    · exact ⟨s2, rbib_default_equiv FormatB8.ops _ out n out2 s2 h, rfl, rfl, rfl⟩
    · rename_i hpos havail
      simp only at h hpos havail
      injection h with hp
      injection hp with hn hp
      injection hp with hout hs
      have hav0 : sav = 0 := by omega
      subst hav0
      have hgot : min ((min (8 * out.length) (sm - spos) + 7) / 8) sin.length =
          (min (8 * out.length) (sm - spos) + 7) / 8 := by omega
      rw [hgot] at hn hout hs
      have hchlen : (sin.take ((min (8 * out.length) (sm - spos) + 7) / 8)).length =
          (min (8 * out.length) (sm - spos) + 7) / 8 := by
        rw [List.length_take]
        omega
      have hn2 : n = min (8 * out.length) (sm - spos) := by omega
      obtain ⟨pl2, av2, hblock⟩ := b8_block_read
        (sin.take ((min (8 * out.length) (sm - spos) + 7) / 8)) n spos spl
        (sin.drop ((min (8 * out.length) (sm - spos) + 7) / 8)) sm
        (by rw [hchlen]; omega) (by rw [hchlen]; omega) (by omega)
      rw [List.take_append_drop] at hblock
      refine ⟨⟨sin.drop ((min (8 * out.length) (sm - spos) + 7) / 8), sm, pl2, av2,
        spos + n⟩, ?_, ?_, ?_, ?_⟩
      · rw [hblock]
        have hlen1 : n ≤
            (bytesToBits (sin.take ((min (8 * out.length) (sm - spos) + 7) / 8))).length := by
          rw [bytesToBits_length, hchlen]
          omega
        rw [← hout, bytesToBits_append, List.take_append_of_le_length hlen1]
      · rw [← hs]
        simp only
        omega
      · rw [← hs]
      · rw [← hs]
        unfold FormatB8.is_end_of_record
        simp only
        rw [show min (8 * ((min (8 * out.length) (sm - spos) + 7) / 8))
          (min (8 * out.length) (sm - spos)) = n from by omega]

/-- Helper: a successful buffering step of the R8 decoder, run from a
mid-record state (invariant, counters empty, terminator unseen),
preserves the invariant, leaves a state that is not yet at end of record,
puts something in the counters, and keeps the record width. -/
theorem r8_mbd_post {s s1 : FormatR8.State} (hinv : R8Inv s) (h0 : s.buffered_0s = 0)
    (h1 : s.buffered_1s = 0) (ht : s.have_seen_terminal_1 = false)
    (h : FormatR8.maybe_buffer_data s = .ok (true, s1)) :
    R8Inv s1 ∧ FormatR8.is_end_of_record s1 = false ∧
    0 < s1.buffered_0s + s1.buffered_1s ∧ s1.bits_per_record = s.bits_per_record := by
  have hsum : s.position < s.bits_per_record := by
    rcases hinv with ⟨hterm, _⟩ | ⟨_, hlt⟩
    · rw [hterm] at ht; exact absurd ht (by simp)
    · omega
  unfold FormatR8.maybe_buffer_data at h
  split at h
  · exact absurd h (by simp)
  · split at h
    · exact absurd h (by simp)
    · exact absurd h (by simp)
    · rename_i z rest hzr
      split at h
      · rename_i htot
        simp only [beq_iff_eq] at htot
        split at h
        · exact absurd h (by simp)
        · rename_i t rest2
          split at h
          · injection h with hp
            injection hp with hmore hs1
            subst hs1
            refine ⟨Or.inl ⟨rfl, by simp only; omega⟩, ?_, by simp, rfl⟩
            unfold FormatR8.is_end_of_record
            simp only [Bool.and_eq_false_iff]
            left
            simp only [beq_eq_false_iff_ne, ne_eq]
            omega
          · exact absurd h (by simp)
      · rename_i htot
        split at h
        · rename_i htot2
          simp only [beq_iff_eq] at htot htot2
          injection h with hp
          injection hp with hmore hs1
          subst hs1
          have hz : 0 < z := by
            rcases hinv with ⟨hterm, _⟩ | ⟨_, hlt⟩
            · rw [hterm] at ht; exact absurd ht (by simp)
            · omega
          refine ⟨Or.inl ⟨rfl, by simp only; omega⟩, ?_, by simp only; omega, rfl⟩
          unfold FormatR8.is_end_of_record
          simp only [Bool.and_eq_false_iff]
          left
          simp only [beq_eq_false_iff_ne, ne_eq]
          omega
        · split at h
          · exact absurd h (by simp)
          · rename_i htot2 htot3
            simp only [beq_iff_eq] at htot htot2
            simp only [Nat.not_lt] at htot3
            injection h with hp
            injection hp with hmore hs1
            subst hs1
            refine ⟨Or.inr ⟨ht, by simp only; omega⟩, ?_, by simp, rfl⟩
            unfold FormatR8.is_end_of_record
            simp only [ht, Bool.and_false]

/-- Helper: the counter-emitting tail of the R8 read_bit preserves the
invariant, the record width, and the stream. -/
theorem r8_emit_inv {s s1 : FormatR8.State} {bit : Bool} (hinv : R8Inv s)
    (h : FormatR8.emit_bit s = .ok (bit, s1)) :
    R8Inv s1 ∧ s1.bits_per_record = s.bits_per_record := by
  unfold FormatR8.emit_bit at h
  split at h
  · injection h with hp
    injection hp with hb hs1
    subst hs1
    refine ⟨?_, rfl⟩
    rcases hinv with ⟨hterm, hsum⟩ | ⟨hterm, hsum⟩
    · exact Or.inl ⟨hterm, by simp only; omega⟩
    · exact Or.inr ⟨hterm, by simp only; omega⟩
  · split at h
    · injection h with hp
      injection hp with hb hs1
      subst hs1
      refine ⟨?_, rfl⟩
      rcases hinv with ⟨hterm, hsum⟩ | ⟨hterm, hsum⟩
      · exact Or.inl ⟨hterm, by simp only; omega⟩
      · exact Or.inr ⟨hterm, by simp only; omega⟩
    · exact absurd h (by simp)

/-- Helper: when a counter is non-empty, R8 read_bit is exactly the
emitting tail. -/
theorem r8_read_bit_counters {s : FormatR8.State} (hc : 0 < s.buffered_0s + s.buffered_1s) :
    FormatR8.read_bit s = FormatR8.emit_bit s := by
  unfold FormatR8.read_bit
  rw [if_neg]
  simp only [Bool.and_eq_true, beq_iff_eq, not_and]
  omega

/-- Helper: when both counters are empty and buffering succeeds with more
data, R8 read_bit is the emitting tail of the buffered state. -/
theorem r8_read_bit_buffered {s s1 : FormatR8.State} (h0 : s.buffered_0s = 0)
    (h1 : s.buffered_1s = 0) (h : FormatR8.maybe_buffer_data s = .ok (true, s1)) :
    FormatR8.read_bit s = FormatR8.emit_bit s1 := by
  unfold FormatR8.read_bit
  rw [if_pos (by simp [h0, h1]), h]
  rfl

/-- Helper: draining k buffered zeros of the R8 decoder emits k false
bits and moves the position. -/
theorem r8_drain_zeros :
    ∀ (k : Nat) (s : FormatR8.State), k ≤ s.buffered_0s →
    readBitsN FormatR8.read_bit k s =
      .ok (List.replicate k false,
        { s with buffered_0s := s.buffered_0s - k, position := s.position + k }) := by
  intro k
  induction k with
  | zero =>
    intro s hk
    simp [readBitsN]
  | succ k ih =>
    intro s hk
    have hstep : FormatR8.read_bit s =
        .ok (false, { s with buffered_0s := s.buffered_0s - 1, position := s.position + 1 }) := by
      rw [r8_read_bit_counters (by omega)]
      unfold FormatR8.emit_bit
      rw [if_pos (by omega)]
    have hrec := ih { s with buffered_0s := s.buffered_0s - 1, position := s.position + 1 }
      (by simp only; omega)
    unfold readBitsN
    simp only [hstep, hrec]
    have h1 : s.buffered_0s - 1 - k = s.buffered_0s - (k + 1) := by omega
    have h2 : s.position + 1 + k = s.position + (k + 1) := by omega
    simp only [h1, h2]
    rfl

/-- Helper: a successful R8 read_bit preserves the invariant and the
record width. -/
theorem r8_read_bit_inv {s s1 : FormatR8.State} {bit : Bool} (hinv : R8Inv s)
    (h : FormatR8.read_bit s = .ok (bit, s1)) :
    R8Inv s1 ∧ s1.bits_per_record = s.bits_per_record := by
  unfold FormatR8.read_bit at h
  split at h
  · rename_i hcond
    simp only [Bool.and_eq_true, beq_iff_eq] at hcond
    obtain ⟨hc0, hc1⟩ := hcond
    split at h
    · exact absurd h (by simp)
    · rename_i more sm hmbd
      split at h
      · rename_i hmore
        subst hmore
        by_cases ht : s.have_seen_terminal_1 = true
        · exfalso
          have hend : FormatR8.is_end_of_record s = true := by
            unfold FormatR8.is_end_of_record
            rcases hinv with ⟨_, hsum⟩ | ⟨ht2, _⟩
            · simp only [Bool.and_eq_true, beq_iff_eq]
              exact ⟨by omega, ht⟩
            · rw [ht2] at ht
              exact absurd ht (by simp)
          unfold FormatR8.maybe_buffer_data at hmbd
          rw [if_pos hend] at hmbd
          exact absurd hmbd (by simp)
        · have ht2 : s.have_seen_terminal_1 = false := by
            cases hx : s.have_seen_terminal_1
            · rfl
            · exact absurd hx ht
          obtain ⟨hi1, _, _, hi4⟩ := r8_mbd_post hinv hc0 hc1 ht2 hmbd
          obtain ⟨hj1, hj2⟩ := r8_emit_inv hi1 h
          exact ⟨hj1, by rw [hj2, hi4]⟩
      · exact absurd h (by simp)
  · exact r8_emit_inv hinv h

/-- Helper: the inner loop of the R8 `read_bits_into_bytes` override,
run from an invariant state, is equivalent to repeated `read_bit`: it
reads some bits (all of the loop count unless it stopped at end of
record), ORs them into the accumulator, and leaves exactly the state of
that many `read_bit` calls, which again satisfies the invariant. -/
theorem r8_rbibInner_spec :
    ∀ (fk k b n : Nat) (s : FormatR8.State) (b2 n2 : Nat) (s2 : FormatR8.State) (stop : Bool),
    FormatR8.rbibInner fk k b n s = .ok (b2, n2, s2, stop) →
    b < 2 ^ k → R8Inv s →
    ∃ bits : List Bool,
      readBitsN FormatR8.read_bit bits.length s = .ok (bits, s2) ∧
      n2 = n + bits.length ∧ bits.length ≤ fk ∧
      (stop = false → bits.length = fk) ∧
      b2 = b + bitsVal bits * 2 ^ k ∧ R8Inv s2 ∧
      s2.bits_per_record = s.bits_per_record := by
  intro fk
  induction fk with
  | zero =>
    intro k b n s b2 n2 s2 stop h hb hinv
    unfold FormatR8.rbibInner at h
    injection h with hp
    injection hp with hb2 hp
    injection hp with hn2 hp
    injection hp with hs2 hstop
    subst hb2; subst hn2; subst hs2; subst hstop
    exact ⟨[], rfl, by simp, by simp, fun _ => rfl, by simp [bitsVal], hinv, rfl⟩
  | succ fk ih =>
    intro k b n s b2 n2 s2 stop h hb hinv
    unfold FormatR8.rbibInner at h
    split at h
    · exact absurd h (by simp)
    · rename_i sb hbuf
      have hcase : sb = s ∨
          (FormatR8.is_end_of_record sb = false ∧
            FormatR8.read_bit s = FormatR8.read_bit sb ∧ R8Inv sb ∧
            sb.bits_per_record = s.bits_per_record) := by
        split at hbuf
        · rename_i hcond
          simp only [Bool.and_eq_true, beq_iff_eq, Bool.not_eq_eq_eq_not, Bool.not_true] at hcond
          obtain ⟨⟨hc0, hc1⟩, hct⟩ := hcond
          split at hbuf
          · exact absurd hbuf (by simp)
          · rename_i more sb0 hmbd
            split at hbuf
            · rename_i hmore
              subst hmore
              injection hbuf with hsb0
              subst hsb0
              obtain ⟨hi1, hi2, hi3, hi4⟩ := r8_mbd_post hinv hc0 hc1 hct hmbd
              refine Or.inr ⟨hi2, ?_, hi1, hi4⟩
              rw [r8_read_bit_buffered hc0 hc1 hmbd, r8_read_bit_counters hi3]
            · exact absurd hbuf (by simp)
        · injection hbuf with hsb0
          exact Or.inl hsb0.symm
      split at h
      · rename_i hend
        injection h with hp
        injection hp with hb2 hp
        injection hp with hn2 hp
        injection hp with hs2 hstop
        subst hb2; subst hn2; subst hs2; subst hstop
        rcases hcase with hsbs | ⟨hendF, _, _, _⟩
        · subst hsbs
          exact ⟨[], rfl, by simp, by simp, fun hc => absurd hc (by simp),
            by simp [bitsVal], hinv, rfl⟩
        · rw [hendF] at hend
          exact absurd hend (by simp)
      · rename_i hend
        split at h
        · exact absurd h (by simp)
        · rename_i bit s1 hrb
          have hrbs : FormatR8.read_bit s = .ok (bit, s1) := by
            rcases hcase with hsbs | ⟨hx1, hrbeq, hx2, hx3⟩
            · rw [hsbs] at hrb
              exact hrb
            · rw [hrbeq]
              exact hrb
          have hinvsb : R8Inv sb ∧ sb.bits_per_record = s.bits_per_record := by
            rcases hcase with hsbs | ⟨hx1, hx2, hi, hw⟩
            · rw [hsbs]
              exact ⟨hinv, rfl⟩
            · exact ⟨hi, hw⟩
          obtain ⟨hinv1, hw1⟩ := r8_read_bit_inv hinvsb.1 hrb
          have hxle : (if bit then 1 else 0 : Nat) ≤ 1 := by cases bit <;> simp
          have hshift : ((if bit then 1 else 0 : Nat) <<< k) = (if bit then 1 else 0) * 2 ^ k :=
            Nat.shiftLeft_eq _ _
          have hlor : b ||| ((if bit then 1 else 0 : Nat) <<< k) =
              b + (if bit then 1 else 0) * 2 ^ k := by
            rw [hshift]
            exact lor_add_pow hxle k b hb
          have hacc : b + (if bit then 1 else 0 : Nat) * 2 ^ k < 2 ^ (k + 1) := by
            have hpow : (2 : Nat) ^ (k + 1) = 2 * 2 ^ k := by ring
            cases bit <;> simp <;> omega
          rw [hlor] at h
          obtain ⟨bits, hread, hn2e, hle, hfull, hval, hinv2, hw2⟩ :=
            ih (k+1) (b + (if bit then 1 else 0) * 2 ^ k) (n+1) s1 b2 n2 s2 stop h hacc hinv1
          refine ⟨bit :: bits, ?_, ?_, ?_, ?_, ?_, hinv2, ?_⟩
          · show readBitsN FormatR8.read_bit (bits.length + 1) s = .ok (bit :: bits, s2)
            unfold readBitsN
            simp only [hrbs, hread]
          · simp only [List.length_cons]
            omega
          · simp only [List.length_cons]
            omega
          · intro hc
            have hlen := hfull hc
            simp only [List.length_cons]
            omega
          · rw [hval]
            have hpow : (2 : Nat) ^ (k + 1) = 2 * 2 ^ k := by ring
            have hbv : bitsVal (bit :: bits) = (if bit then 1 else 0) + 2 * bitsVal bits := rfl
            rw [hbv, hpow]
            ring
          · rw [hw2, hw1, hinvsb.2]

/-- Helper: the byte loop of the R8 `read_bits_into_bytes` override, run
from an invariant state, reads a bit sequence, records it little-endian
in the buffer bytes it fills, counts the bits, and leaves exactly the
state of that many `read_bit` calls, again satisfying the invariant. -/
theorem r8_rbibBytes_spec :
    ∀ (out : List Byte) (n : Nat) (s : FormatR8.State) (nf : Nat) (out2 : List Byte)
      (s2 : FormatR8.State),
    FormatR8.rbibBytes out n s = .ok (nf, out2, s2) → R8Inv s →
    ∃ bits : List Bool,
      readBitsN FormatR8.read_bit bits.length s = .ok (bits, s2) ∧
      nf = n + bits.length ∧
      (bytesToBits out2).take bits.length = bits ∧
      R8Inv s2 := by
  intro out
  induction out with
  | nil =>
    intro n s nf out2 s2 h hinv
    unfold FormatR8.rbibBytes at h
    injection h with hp
    injection hp with hnf hp
    injection hp with hout hs
    subst hnf; subst hout; subst hs
    exact ⟨[], rfl, by simp, rfl, hinv⟩
  | cons byte rest ih =>
    intro n s nf out2 s2 h hinv
    unfold FormatR8.rbibBytes at h
    split at h
    · rename_i h8
      split at h
      · exact absurd h (by simp)
      · rename_i n2 rest2 s2x hrec
        injection h with hp
        injection hp with hnf hp
        injection hp with hout hs
        subst hnf; subst hout; subst hs
        have hdrain := r8_drain_zeros 8 s h8
        have hinvd : R8Inv { s with position := s.position + 8, buffered_0s := s.buffered_0s - 8 } := by
          rcases hinv with ⟨hterm, hsum⟩ | ⟨hterm, hsum⟩
          · exact Or.inl ⟨hterm, by simp only; omega⟩
          · exact Or.inr ⟨hterm, by simp only; omega⟩
        obtain ⟨bits2, hread2, hn2e, htake2, hinv2⟩ := ih (n + 8) _ n2 rest2 s2x hrec hinvd
        refine ⟨List.replicate 8 false ++ bits2, ?_, ?_, ?_, hinv2⟩
        · rw [List.length_append, List.length_replicate]
          exact readBitsN_add _ 8 s _ _ bits2.length _ _ hdrain hread2
        · rw [List.length_append, List.length_replicate]
          omega
        · show (bytesToBits ((0 : Byte) :: rest2)).take
            (List.replicate 8 false ++ bits2).length = List.replicate 8 false ++ bits2
          have hexp : bytesToBits ((0 : Byte) :: rest2) =
              byteBits 0 ++ bytesToBits rest2 := rfl
          have hbb : byteBits (0 : Byte) = List.replicate 8 false := by decide
          rw [hexp, hbb, List.length_append, List.take_append, htake2]
    · rename_i h8
      split at h
      · exact absurd h (by simp)
      · rename_i b1 n1 s1 stopped hinner
        obtain ⟨bits1, hread1, hn1, hle1, hfull1, hval1, hinv1, hw1⟩ :=
          r8_rbibInner_spec 8 0 0 n s b1 n1 s1 stopped hinner (by simp) hinv
        have hb1 : b1 = bitsVal bits1 := by
          rw [hval1]
          simp
        split at h
        · rename_i hstopped
          injection h with hp
          injection hp with hnf hp
          injection hp with hout hs
          subst hnf; subst hout; subst hs
          refine ⟨bits1, hread1, hn1, ?_, hinv1⟩
          show (bytesToBits (b1 :: rest)).take bits1.length = bits1
          have hexp : bytesToBits (b1 :: rest) = byteBits b1 ++ bytesToBits rest := rfl
          have hbblen : bits1.length ≤ (byteBits b1).length := by
            rw [byteBits, bitsLE_length]
            exact hle1
          rw [hexp, List.take_append_of_le_length hbblen, hb1, byteBits]
          exact bitsLE_bitsVal_take bits1 8 hle1
        · rename_i hstopped
          split at h
          · exact absurd h (by simp)
          · rename_i n2 rest2 s2x hrec
            injection h with hp
            injection hp with hnf hp
            injection hp with hout hs
            subst hnf; subst hout; subst hs
            have hstoppedF : stopped = false := by
              cases stopped
              · rfl
              · exact absurd rfl hstopped
            have hfull := hfull1 hstoppedF
            obtain ⟨bits2, hread2, hn2e, htake2, hinv2⟩ := ih n1 s1 n2 rest2 s2x hrec hinv1
            have hbb : byteBits b1 = bits1 := by
              rw [hb1, byteBits, ← hfull]
              exact bitsLE_bitsVal bits1
            refine ⟨bits1 ++ bits2, ?_, ?_, ?_, hinv2⟩
            · rw [List.length_append]
              exact readBitsN_add _ _ _ _ _ _ _ _ hread1 hread2
            · rw [List.length_append]
              omega
            · show (bytesToBits (b1 :: rest2)).take (bits1 ++ bits2).length = bits1 ++ bits2
              have hexp : bytesToBits (b1 :: rest2) = byteBits b1 ++ bytesToBits rest2 := rfl
              rw [hexp, hbb, List.length_append, List.take_append, htake2]

/-- Helper: the R8 `read_bits_into_bytes` override, run from an invariant
state, is equivalent to repeated `read_bit`: the bits recorded in the
returned buffer are exactly the bits the same number of `read_bit` calls
return, and the final states are identical. -/
theorem r8_rbib_equiv (s : FormatR8.State) (out : List Byte) (n : Nat) (out2 : List Byte)
    (s2 : FormatR8.State) (hinv : R8Inv s)
    (h : FormatR8.read_bits_into_bytes s out = .ok (n, out2, s2)) :
    readBitsN FormatR8.read_bit n s = .ok ((bytesToBits out2).take n, s2) := by
  unfold FormatR8.read_bits_into_bytes at h
  obtain ⟨bits, hread, hn, htake, hinv2⟩ := r8_rbibBytes_spec out 0 s n out2 s2 h hinv
  have hnb : n = bits.length := by omega
  subst hnb
  rw [htake]
  exact hread

/-- C4: draining bits through `read_bits_into_bytes` is equivalent to
draining them through repeated `read_bit` calls.  (1) For every decoder
using the inherited default (01, HITS, DETS), a successful call reporting
n bits leaves exactly the state of n `read_bit` calls, which return
exactly the first n bits recorded in the output buffer.  (2) The same
holds, in full state equality, for the R8 override from any
invariant-satisfying (reachable) state.  (3) For the B8 override, when the
input holds the bytes the block read requests, the n `read_bit` calls
return the first n bits of the output buffer and reach a state agreeing
with the call's final state on position, remaining input, and
is_end_of_record (the buffered-payload bookkeeping may differ). -/
theorem C4_rbib_read_bit_equiv :
    (∀ (σ : Type) (R : ReaderOps σ) (s : σ) (out : List Byte) (n : Nat)
        (out2 : List Byte) (s2 : σ),
      MeasureRecordReader.read_bits_into_bytes R s out = .ok (n, out2, s2) →
      readBitsN R.read_bit n s = .ok ((bytesToBits out2).take n, s2)) ∧
    (∀ (s : FormatR8.State) (out : List Byte) (n : Nat) (out2 : List Byte)
        (s2 : FormatR8.State), R8Inv s →
      FormatR8.read_bits_into_bytes s out = .ok (n, out2, s2) →
      readBitsN FormatR8.read_bit n s = .ok ((bytesToBits out2).take n, s2)) ∧
    (∀ (s : FormatB8.State) (out : List Byte) (n : Nat) (out2 : List Byte)
        (s2 : FormatB8.State),
      (min (8 * out.length) (s.bits_per_record - s.position) + 7) / 8 ≤ s.input.length →
      FormatB8.read_bits_into_bytes s out = .ok (n, out2, s2) →
      ∃ s3 : FormatB8.State,
        readBitsN FormatB8.read_bit n s = .ok ((bytesToBits out2).take n, s3) ∧
        s3.position = s2.position ∧ s3.input = s2.input ∧
        FormatB8.is_end_of_record s3 = FormatB8.is_end_of_record s2) :=
  ⟨fun _σ R s out n out2 s2 h => rbib_default_equiv R s out n out2 s2 h,
   fun s out n out2 s2 hinv h => r8_rbib_equiv s out n out2 s2 hinv h,
   fun s out n out2 s2 hwf h => b8_rbib_equiv s out n out2 s2 hwf h⟩

/-- C4 witness: the three parts of `C4_rbib_read_bit_equiv` at concrete
inputs.  (1) The HITS decoder holding the record 1,0,1 and the default
`read_bits_into_bytes` into a two-byte buffer: three `read_bit` calls
return the three recorded bits and the identical final state.  (2) The R8
decoder with one buffered zero and one buffered (terminal) one in a
two-bit record: `read_bits_into_bytes` of one byte records 0,1 and two
`read_bit` calls reach the identical state.  (3) The B8 decoder at a
fresh 16-bit record over the stream {0xAB, 0x00}: the block read returns
both bytes, and sixteen `read_bit` calls return their bits, agreeing on
position, input, and end-of-record. -/
theorem C4_rbib_read_bit_equiv_witness :
    (MeasureRecordReader.read_bits_into_bytes FormatHits.ops
        ⟨[], 3, [true, false, true], 0⟩ [7, 9] =
        .ok (3, [5, 9], (⟨[], 3, [true, false, true], 3⟩ : FormatHits.State)) ∧
      readBitsN FormatHits.ops.read_bit 3 ⟨[], 3, [true, false, true], 0⟩ =
        .ok ((bytesToBits [5, 9]).take 3, (⟨[], 3, [true, false, true], 3⟩ : FormatHits.State))) ∧
    (R8Inv ⟨[], 2, 0, 1, 1, true⟩ ∧
      readBitsN FormatR8.read_bit 2 ⟨[], 2, 0, 1, 1, true⟩ =
        .ok ((bytesToBits [2]).take 2, (⟨[], 2, 2, 0, 0, true⟩ : FormatR8.State))) ∧
    ((min (8 * ([0, 0] : List Byte).length) (16 - 0) + 7) / 8 ≤ ([171, 0] : List Byte).length ∧
      ∃ s3 : FormatB8.State,
        readBitsN FormatB8.read_bit 16 ⟨[171, 0], 16, none, 0, 0⟩ =
          .ok ((bytesToBits [171, 0]).take 16, s3) ∧
        s3.position = (⟨[], 16, none, 0, 16⟩ : FormatB8.State).position ∧
        s3.input = (⟨[], 16, none, 0, 16⟩ : FormatB8.State).input ∧
        FormatB8.is_end_of_record s3 =
          FormatB8.is_end_of_record (⟨[], 16, none, 0, 16⟩ : FormatB8.State)) :=
  ⟨⟨rfl, C4_rbib_read_bit_equiv.1 FormatHits.State FormatHits.ops
      ⟨[], 3, [true, false, true], 0⟩ [7, 9] 3 [5, 9] ⟨[], 3, [true, false, true], 3⟩ rfl⟩,
   ⟨Or.inl ⟨rfl, rfl⟩, C4_rbib_read_bit_equiv.2.1 ⟨[], 2, 0, 1, 1, true⟩ [0] 2 [2]
      ⟨[], 2, 2, 0, 0, true⟩ (Or.inl ⟨rfl, rfl⟩) rfl⟩,
   ⟨by decide, C4_rbib_read_bit_equiv.2.2 ⟨[171, 0], 16, none, 0, 0⟩ [0, 0] 16 [171, 0]
      ⟨[], 16, none, 0, 16⟩ (by decide) rfl⟩⟩

/-- Helper: draining a 01 record from the look-ahead state returns its
bits and leaves the terminating newline in the look-ahead. -/
theorem f01_look_read : ∀ (r : List Bool) (m : Nat) (rest : List Byte) (pos : Nat),
    pos + r.length ≤ m →
    readBitsN Format01.read_bit r.length (f01Look m r rest pos) =
      .ok (r, ⟨rest, m, some 10, pos + r.length⟩) := by
  intro r
  induction r with
  | nil =>
    intro m rest pos hlen
    simp [f01Look, readBitsN]
  | cons b bs ih =>
    intro m rest pos hlen
    have hpos : ¬ (m ≤ pos) := by
      simp only [List.length_cons] at hlen
      omega
    have hstep : Format01.read_bit (f01Look m (b :: bs) rest pos) =
        .ok (b, f01Look m bs rest (pos + 1)) := by
      cases b <;> rcases bs with _ | ⟨b2, bs2⟩ <;>
        simp [f01Look, Format01.read_bit, getcS, hpos] <;> cases b2 <;> simp
    have hrec := ih m rest (pos + 1) (by simp only [List.length_cons] at hlen; omega)
    show readBitsN Format01.read_bit (bs.length + 1) (f01Look m (b :: bs) rest pos) = _
    unfold readBitsN
    simp only [hstep, hrec]
    have harith : pos + 1 + bs.length = pos + (bs.length + 1) := by omega
    rw [harith]
    rfl

/-- Helper: `start_record` of the 01 decoder on a stream holding an
encoded record succeeds and readies the look-ahead. -/
theorem f01_start (r : List Bool) (m : Nat) (rest : List Byte) (pl : Option Byte) (pos : Nat) :
    Format01.start_record ⟨encode01 r ++ rest, m, pl, pos⟩ = .ok (true, f01Look m r rest 0) := by
  rcases r with _ | ⟨b, bs⟩
  · simp [encode01, Format01.start_record, getcS, f01Look]
  · cases b <;> simp [encode01, Format01.start_record, getcS, f01Look]

/-- Helper: `start_record` of the 01 decoder at end-of-stream returns
false. -/
theorem f01_end (m : Nat) (pl : Option Byte) (pos : Nat) :
    Format01.start_record ⟨[], m, pl, pos⟩ = .ok (false, ⟨[], m, none, 0⟩) := by
  simp [Format01.start_record, getcS]

/-- Helper: the 01 decoder consumes a whole encoded record stream, one
successful `start_record` plus drain per record. -/
theorem f01_session : ∀ (rs : List (List Bool)) (m : Nat), (∀ r ∈ rs, r.length = m) →
    ∀ (pl : Option Byte) (pos : Nat),
    ∃ pl2 pos2,
      session Format01.start_record (drainBits Format01.read_bit m) rs.length
        ⟨stream01 rs, m, pl, pos⟩ = .ok ⟨[], m, pl2, pos2⟩ := by
  intro rs
  induction rs with
  | nil =>
    intro m h pl pos
    exact ⟨pl, pos, by simp [stream01, session]⟩
  | cons r rs' ih =>
    intro m h pl pos
    have hr : r.length = m := h r (by simp)
    have hstream : stream01 (r :: rs') = encode01 r ++ stream01 rs' := by
      simp [stream01]
    obtain ⟨pl2, pos2, hrec⟩ := ih m (fun x hx => h x (by simp [hx])) (some 10) m
    refine ⟨pl2, pos2, ?_⟩
    show session Format01.start_record (drainBits Format01.read_bit m) (rs'.length + 1) _ = _
    unfold session
    rw [hstream]
    have hlook := f01_look_read r m (stream01 rs') 0 (by omega)
    rw [hr] at hlook
    have hdrain : drainBits Format01.read_bit m (f01Look m r (stream01 rs') 0) =
        .ok ⟨stream01 rs', m, some 10, m⟩ := by
      unfold drainBits
      rw [hlook]
      simp
    simp only [f01_start r m (stream01 rs') pl pos, hdrain]
    exact hrec

/-- Helper: the B8 packing of a record takes one byte per eight bits,
rounded up. -/
theorem bitsToBytes_length : ∀ (n : Nat) (r : List Bool), r.length ≤ n →
    (bitsToBytes r).length = (r.length + 7) / 8 := by
  intro n
  induction n with
  | zero =>
    intro r hr
    have hnil : r = [] := List.eq_nil_of_length_eq_zero (by omega)
    subst hnil
    simp [bitsToBytes]
  | succ n ih =>
    intro r hr
    match r with
    | [] => simp [bitsToBytes]
    | b :: l =>
      have hrec := ih (l.drop 7) (by simp only [List.length_drop]; simp only [List.length_cons] at hr; omega)
      rw [show bitsToBytes (b :: l) = bitsVal ((b :: l).take 8) :: bitsToBytes (l.drop 7) from by
        rw [bitsToBytes]]
      simp only [List.length_cons, hrec, List.length_drop]
      omega

/-- Helper: expanding the B8 packing of a record back to bits recovers
the record. -/
theorem bytesToBits_bitsToBytes : ∀ (n : Nat) (r : List Bool), r.length ≤ n →
    (bytesToBits (bitsToBytes r)).take r.length = r := by
  intro n
  induction n with
  | zero =>
    intro r hr
    have hnil : r = [] := List.eq_nil_of_length_eq_zero (by omega)
    subst hnil
    simp
  | succ n ih =>
    intro r hr
    match r with
    | [] => simp
    | b :: l =>
      rw [show bitsToBytes (b :: l) = bitsVal ((b :: l).take 8) :: bitsToBytes (l.drop 7) from by
        rw [bitsToBytes]]
      have hexp : bytesToBits (bitsVal ((b :: l).take 8) :: bitsToBytes (l.drop 7)) =
          byteBits (bitsVal ((b :: l).take 8)) ++ bytesToBits (bitsToBytes (l.drop 7)) := rfl
      rw [hexp, byteBits]
      by_cases hle : l.length + 1 ≤ 8
      · have hc : (b :: l).take 8 = b :: l := List.take_of_length_le (by simp; omega)
        have hr7 : l.drop 7 = [] := List.drop_eq_nil_of_le (by omega)
        rw [hc, hr7]
        have hbt : bytesToBits (bitsToBytes ([] : List Bool)) = [] := by
          rw [show bitsToBytes ([] : List Bool) = [] from by rw [bitsToBytes]]
          rfl
        rw [hbt, List.append_nil]
        exact bitsLE_bitsVal_take (b :: l) 8 (by simp; omega)
      · have hlen8 : ((b :: l).take 8).length = 8 := by
          simp only [List.length_take, List.length_cons]
          omega
        have hbits := bitsLE_bitsVal ((b :: l).take 8)
        rw [hlen8] at hbits
        rw [hbits]
        have hsplitlen : (b :: l).length = ((b :: l).take 8).length + (l.length - 7) := by
          simp only [hlen8, List.length_cons]
          omega
        show (((b :: l).take 8) ++ bytesToBits (bitsToBytes (l.drop 7))).take (b :: l).length =
          b :: l
        rw [hsplitlen, List.take_append]
        have hdrop : (b :: l).drop 8 = l.drop 7 := rfl
        have hrec := ih (l.drop 7) (by simp only [List.length_drop]; simp only [List.length_cons] at hr; omega)
        rw [show l.length - 7 = (l.drop 7).length from by simp only [List.length_drop], hrec,
          ← hdrop, List.take_append_drop]

/-- Helper: `start_record` of the B8 decoder on a non-empty stream pulls
the first byte and succeeds. -/
theorem b8_start (hd : Byte) (tl : List Byte) (m : Nat) (pl : Option Byte) (av pos : Nat) :
    FormatB8.start_record ⟨hd :: tl, m, pl, av, pos⟩ = .ok (true, ⟨tl, m, some hd, 8, 0⟩) := by
  simp [FormatB8.start_record, FormatB8.maybe_update_payload, getcS]

/-- Helper: `start_record` of the B8 decoder at end-of-stream returns
false. -/
theorem b8_end (m : Nat) (pl : Option Byte) (av pos : Nat) :
    FormatB8.start_record ⟨[], m, pl, av, pos⟩ = .ok (false, ⟨[], m, none, 0, 0⟩) := by
  simp [FormatB8.start_record, FormatB8.maybe_update_payload, getcS]

/-- Helper: after `start_record` has pulled the first packed byte of a
record, draining the record's bits consumes exactly the record's
remaining bytes and returns the record. -/
theorem b8_record_drain (r : List Bool) (m : Nat) (rest : List Byte) (hd : Byte)
    (tl : List Byte) (hr : r.length = m) (hm : 1 ≤ m) (henc : bitsToBytes r = hd :: tl) :
    ∃ pl2 av2, readBitsN FormatB8.read_bit m ⟨tl ++ rest, m, some hd, 8, 0⟩ =
      .ok (r, ⟨rest, m, pl2, av2, m⟩) := by
  have hlen := bitsToBytes_length r.length r (by omega)
  rw [henc] at hlen
  simp only [List.length_cons] at hlen
  have hbits := bytesToBits_bitsToBytes r.length r (by omega)
  rw [henc] at hbits
  have hexp : bytesToBits (hd :: tl) = byteBits hd ++ bytesToBits tl := rfl
  rw [hexp] at hbits
  by_cases h8 : m ≤ 8
  · have htl : tl = [] := by
      have : tl.length = 0 := by omega
      exact List.eq_nil_of_length_eq_zero this
    subst htl
    have hread := b8_read_avail m 8 hd 0 rest m (by omega) (by omega) (by omega)
    refine ⟨some (hd / 2 ^ m), 8 - m, ?_⟩
    rw [show (([] : List Byte) ++ rest) = rest from rfl, hread]
    have hblen : (byteBits hd).length = 8 := by rw [byteBits, bitsLE_length]
    have htake : (byteBits hd ++ bytesToBits []).take r.length = (byteBits hd).take r.length := by
      rw [List.take_append_of_le_length (by rw [hblen]; omega)]
    rw [htake] at hbits
    have hle : (byteBits hd).take r.length = bitsLE hd r.length := by
      rw [byteBits]
      exact bitsLE_take 8 r.length hd (by omega)
    rw [hle] at hbits
    rw [hr] at hbits
    rw [hbits]
    simp
  · have hread1 := b8_read_avail 8 8 hd 0 (tl ++ rest) m (by omega) (by omega) (by omega)
    obtain ⟨pl2, av2, hread2⟩ := b8_block_read tl (m - 8) 8 (some (hd / 2 ^ 8)) rest m
      (by omega) (by omega) (by omega)
    refine ⟨pl2, av2, ?_⟩
    have hcomb := readBitsN_add FormatB8.read_bit 8 ⟨tl ++ rest, m, some hd, 8, 0⟩
      (bitsLE hd 8) ⟨tl ++ rest, m, some (hd / 2 ^ 8), 0, 8⟩ (m - 8)
      ((bytesToBits tl).take (m - 8)) ⟨rest, m, pl2, av2, 8 + (m - 8)⟩
      (by simpa using hread1) hread2
    have hm8 : 8 + (m - 8) = m := by omega
    rw [hm8] at hcomb
    have hbitseq : bitsLE hd 8 ++ (bytesToBits tl).take (m - 8) = r := by
      have hblen : (byteBits hd).length = 8 := by rw [byteBits, bitsLE_length]
      have htake : (byteBits hd ++ bytesToBits tl).take r.length =
          byteBits hd ++ (bytesToBits tl).take (r.length - 8) := by
        rw [show r.length = (byteBits hd).length + (r.length - 8) from by rw [hblen]; omega,
          List.take_append, hblen,
          show (8 : Nat) + (r.length - 8) - 8 = r.length - 8 from by omega]
      rw [htake] at hbits
      rw [← hbits, byteBits, hr]
    rw [hbitseq] at hcomb
    exact hcomb

/-- Helper: the B8 decoder consumes a whole encoded record stream, one
successful `start_record` plus drain per record. -/
theorem b8_session : ∀ (rs : List (List Bool)) (m : Nat), 1 ≤ m → (∀ r ∈ rs, r.length = m) →
    ∀ (pl : Option Byte) (av pos : Nat),
    ∃ pl2 av2 pos2,
      session FormatB8.start_record (drainBits FormatB8.read_bit m) rs.length
        ⟨streamB8 rs, m, pl, av, pos⟩ = .ok ⟨[], m, pl2, av2, pos2⟩ := by
  intro rs
  induction rs with
  | nil =>
    intro m hm h pl av pos
    exact ⟨pl, av, pos, by simp [streamB8, session]⟩
  | cons r rs' ih =>
    intro m hm h pl av pos
    have hr : r.length = m := h r (by simp)
    have hstream : streamB8 (r :: rs') = bitsToBytes r ++ streamB8 rs' := by
      simp [streamB8]
    obtain ⟨hd, tl, henc⟩ : ∃ hd tl, bitsToBytes r = hd :: tl := by
      match r with
      | [] =>
        exfalso
        rw [← hr] at hm
        simp at hm
      | b :: l =>
        exact ⟨_, _, by rw [bitsToBytes]⟩
    obtain ⟨pl2, av2, hdrain⟩ := b8_record_drain r m (streamB8 rs') hd tl hr hm henc
    obtain ⟨pl3, av3, pos3, hrec⟩ := ih m hm (fun x hx => h x (by simp [hx])) pl2 av2 m
    refine ⟨pl3, av3, pos3, ?_⟩
    show session FormatB8.start_record (drainBits FormatB8.read_bit m) (rs'.length + 1) _ = _
    unfold session
    rw [hstream, henc]
    have hstart := b8_start hd (tl ++ streamB8 rs') m pl av pos
    rw [show (hd :: tl) ++ streamB8 rs' = hd :: (tl ++ streamB8 rs') from rfl]
    have hdr : drainBits FormatB8.read_bit m ⟨tl ++ streamB8 rs', m, some hd, 8, 0⟩ =
        .ok ⟨streamB8 rs', m, pl2, av2, m⟩ := by
      unfold drainBits
      rw [hdrain]
    simp only [hstart, hdr]
    exact hrec

/-- Helper: the R8 zero-run loop consumes an encoded run and adds its
length to the accumulator. -/
theorem zeroRun_gap : ∀ (n z pos acc : Nat) (rest : List Byte), z ≤ n →
    FormatR8.zeroRun pos acc (gapBytes z ++ rest) = .ok (some (acc + z, rest)) := by
  intro n
  induction n with
  | zero =>
    intro z pos acc rest hz
    have hz0 : z = 0 := by omega
    subst hz0
    rw [show gapBytes 0 = [0] from by rw [gapBytes]; simp]
    simp [FormatR8.zeroRun]
  | succ n ih =>
    intro z pos acc rest hz
    by_cases hlt : z < 255
    · rw [show gapBytes z = [z] from by rw [gapBytes]; simp [hlt]]
      have hne : (z == 255) = false := by
        simp only [beq_eq_false_iff_ne, ne_eq]
        omega
      simp [FormatR8.zeroRun, hne]
    · rw [show gapBytes z = 255 :: gapBytes (z - 255) from by rw [gapBytes]; simp [hlt]]
      show FormatR8.zeroRun pos acc (255 :: (gapBytes (z - 255) ++ rest)) = _
      unfold FormatR8.zeroRun
      rw [if_pos (by simp)]
      rw [ih (z - 255) pos (acc + 255) rest (by omega)]
      have harith : acc + 255 + (z - 255) = acc + z := by omega
      rw [harith]

/-- Helper: draining buffered R8 counters (at most one buffered one-bit)
emits the zeros then the one and clears the counters. -/
theorem r8_drain_mixed (b0 b1 : Nat) (hb1 : b1 ≤ 1) (input : List Byte) (m pos : Nat)
    (term : Bool) :
    readBitsN FormatR8.read_bit (b0 + b1) ⟨input, m, pos, b0, b1, term⟩ =
      .ok (List.replicate b0 false ++ List.replicate b1 true,
        ⟨input, m, pos + b0 + b1, 0, 0, term⟩) := by
  match b1, hb1 with
  | 0, _ =>
    have h := r8_drain_zeros b0 ⟨input, m, pos, b0, 0, term⟩ (le_refl _)
    simpa using h
  | 1, _ =>
    have h1 := r8_drain_zeros b0 ⟨input, m, pos, b0, 1, term⟩ (le_refl _)
    have h2 : readBitsN FormatR8.read_bit 1 ⟨input, m, pos + b0, 0, 1, term⟩ =
        .ok ([true], ⟨input, m, pos + b0 + 1, 0, 0, term⟩) := by
      unfold readBitsN
      have hrb : FormatR8.read_bit ⟨input, m, pos + b0, 0, 1, term⟩ =
          .ok (true, ⟨input, m, pos + b0 + 1, 0, 0, term⟩) := by
        rw [r8_read_bit_counters (by simp)]
        simp [FormatR8.emit_bit]
      rw [hrb]
      rfl
    have hadd := readBitsN_add FormatR8.read_bit b0 ⟨input, m, pos, b0, 1, term⟩
      (List.replicate b0 false) ⟨input, m, pos + b0, 0, 1, term⟩ 1 [true]
      ⟨input, m, pos + b0 + 1, 0, 0, term⟩ (by simpa using h1) h2
    simpa using hadd

/-- Helper: two states on which read_bit agrees produce the same
non-empty bit reads. -/
theorem readBitsN_first_eq {σ : Type} (rb : σ → Except String (Bool × σ)) (n : Nat)
    (s t : σ) (h : rb s = rb t) :
    readBitsN rb (n + 1) s = readBitsN rb (n + 1) t := by
  unfold readBitsN
  rw [h]

/-- Helper: a bit record always has at least one zero-run (the one in
front of the synthetic one-bit). -/
theorem gapsOf_ne_nil : ∀ r : List Bool, gapsOf r ≠ [] := by
  intro r
  induction r with
  | nil => simp [gapsOf]
  | cons b rest ih =>
    cases b
    · unfold gapsOf
      split <;> simp
    · simp [gapsOf]

/-- Helper: the zero-runs of a record plus their one-bits cover the
record and the synthetic post-end one. -/
theorem gapsOf_wf : ∀ r : List Bool, (gapsOf r).sum + (gapsOf r).length = r.length + 1 := by
  intro r
  induction r with
  | nil => simp [gapsOf]
  | cons b rest ih =>
    cases b
    · cases hg : gapsOf rest with
      | nil => exact absurd hg (gapsOf_ne_nil rest)
      | cons g gs =>
        rw [hg] at ih
        simp only [List.sum_cons, List.length_cons] at ih
        simp only [gapsOf, hg, List.sum_cons, List.length_cons]
        omega
    · simp only [gapsOf, List.sum_cons, List.length_cons]
      omega

/-- Helper: the bits denoted by a record's zero-runs are the record. -/
theorem bitsOfGaps_gapsOf : ∀ r : List Bool, bitsOfGaps (gapsOf r) = r := by
  intro r
  induction r with
  | nil => simp [gapsOf, bitsOfGaps]
  | cons b rest ih =>
    cases b
    · cases hg : gapsOf rest with
      | nil => exact absurd hg (gapsOf_ne_nil rest)
      | cons g gs =>
        rw [hg] at ih
        simp only [gapsOf, hg]
        cases gs with
        | nil =>
          simp only [bitsOfGaps] at ih ⊢
          rw [List.replicate_succ, ih]
        | cons g2 gs2 =>
          simp only [bitsOfGaps] at ih ⊢
          rw [List.replicate_succ, List.cons_append, ih]
    · cases hg : gapsOf rest with
      | nil => exact absurd hg (gapsOf_ne_nil rest)
      | cons g gs =>
        rw [hg] at ih
        simp only [gapsOf, hg]
        simp only [bitsOfGaps, List.replicate, List.nil_append]
        rw [ih]

/-- Helper: from an idle decoder state (no buffered runs, terminator not
seen), the R8 decoder buffers the first encoded zero-run and then drains
exactly the bits the remaining runs denote, ending at the record width
with the terminator seen and the remaining stream intact. -/
theorem r8_gaps_spec : ∀ (gs : List Nat) (m pos : Nat) (rest : List Byte), gs ≠ [] →
    gs.sum + gs.length + pos = m + 1 →
    ∃ sb, FormatR8.maybe_buffer_data ⟨encGaps gs ++ rest, m, pos, 0, 0, false⟩ =
        .ok (true, sb) ∧
      (pos < m → 0 < sb.buffered_0s + sb.buffered_1s) ∧
      readBitsN FormatR8.read_bit (m - pos) sb =
        .ok (bitsOfGaps gs, ⟨rest, m, m, 0, 0, true⟩) := by
  intro gs
  induction gs with
  | nil =>
    intro m pos rest hne _
    exact absurd rfl hne
  | cons g gs' ih =>
    intro m pos rest hne hwf
    simp only [List.sum_cons, List.length_cons] at hwf
    have hendF : FormatR8.is_end_of_record ⟨encGaps (g :: gs') ++ rest, m, pos, 0, 0, false⟩ =
        false := by
      simp [FormatR8.is_end_of_record]
    cases gs' with
    | nil =>
      simp only [List.sum_nil, List.length_nil] at hwf
      have hpos : pos + g = m := by omega
      have hin : encGaps [g] ++ rest = gapBytes g ++ rest := by
        simp [encGaps]
      have hzr := zeroRun_gap g g pos 0 rest (le_refl g)
      have hc1 : (pos + g + 1 == m) = false := by
        simp only [beq_eq_false_iff_ne, ne_eq]
        omega
      have hc2 : (pos + g + 1 == m + 1) = true := by
        simp only [beq_iff_eq]
        omega
      refine ⟨⟨rest, m, pos, g, 0, true⟩, ?_, ?_, ?_⟩
      · unfold FormatR8.maybe_buffer_data
        rw [if_neg (by rw [hendF]; simp)]
        simp only [hin, hzr, Nat.zero_add, hc1, hc2, Bool.false_eq_true, if_false, if_true]
      · intro hposlt
        simp only
        omega
      · have hdrain := r8_drain_mixed g 0 (by omega) rest m pos true
        rw [show m - pos = g + 0 from by omega, hdrain]
        simp only [List.replicate, List.append_nil, bitsOfGaps]
        rw [show pos + g + 0 = m from by omega]
    | cons g2 gs'' =>
      simp only [List.sum_cons, List.length_cons] at hwf
      by_cases heq : pos + g + 1 = m
      · have hg2 : g2 = 0 := by omega
        have hgs'' : gs'' = [] := by
          have : gs''.length = 0 := by omega
          exact List.eq_nil_of_length_eq_zero this
        subst hg2
        subst hgs''
        have hin : encGaps [g, 0] ++ rest = gapBytes g ++ (0 :: rest) := by
          simp only [encGaps, List.map_cons, List.map_nil, List.flatten_cons, List.flatten_nil,
            List.append_nil, List.append_assoc]
          rw [show gapBytes 0 = [0] from by rw [gapBytes]; simp]
          rfl
        have hzr := zeroRun_gap g g pos 0 (0 :: rest) (le_refl g)
        have hc1 : (pos + g + 1 == m) = true := by
          simp only [beq_iff_eq]
          omega
        refine ⟨⟨rest, m, pos, g, 1, true⟩, ?_, ?_, ?_⟩
        · unfold FormatR8.maybe_buffer_data
          rw [if_neg (by rw [hendF]; simp)]
          simp only [hin, hzr, Nat.zero_add, hc1, if_true]
          simp
        · intro hposlt
          simp only
          omega
        · have hdrain := r8_drain_mixed g 1 (by omega) rest m pos true
          rw [show m - pos = g + 1 from by omega, hdrain]
          simp only [bitsOfGaps, List.replicate, List.append_nil]
          rw [show pos + g + 1 = m from by omega]
      · have hlt : pos + g + 1 < m := by omega
        have hc1 : (pos + g + 1 == m) = false := by
          simp only [beq_eq_false_iff_ne, ne_eq]
          omega
        have hc2 : (pos + g + 1 == m + 1) = false := by
          simp only [beq_eq_false_iff_ne, ne_eq]
          omega
        have hc3 : ¬ (m + 1 < pos + g + 1) := by omega
        have hin : encGaps (g :: g2 :: gs'') ++ rest =
            gapBytes g ++ (encGaps (g2 :: gs'') ++ rest) := by
          simp [encGaps]
        have hzr := zeroRun_gap g g pos 0 (encGaps (g2 :: gs'') ++ rest) (le_refl g)
        obtain ⟨sb', hmbd', hcnt', hread'⟩ :=
          ih m (pos + g + 1) rest (by simp)
            (by simp only [List.sum_cons, List.length_cons]; omega)
        have hcnt'' := hcnt' hlt
        refine ⟨⟨encGaps (g2 :: gs'') ++ rest, m, pos, g, 1, false⟩, ?_, ?_, ?_⟩
        · unfold FormatR8.maybe_buffer_data
          rw [if_neg (by rw [hendF]; simp)]
          simp only [hin, hzr, Nat.zero_add, hc1, hc2, Bool.false_eq_true, if_false,
            if_neg hc3]
        · intro hposlt
          simp only
          omega
        · have hdrain := r8_drain_mixed g 1 (by omega) (encGaps (g2 :: gs'') ++ rest) m pos false
          have hbridge : readBitsN FormatR8.read_bit (m - (pos + g + 1))
              ⟨encGaps (g2 :: gs'') ++ rest, m, pos + g + 1, 0, 0, false⟩ =
              readBitsN FormatR8.read_bit (m - (pos + g + 1)) sb' := by
            rw [show m - (pos + g + 1) = (m - (pos + g + 1) - 1) + 1 from by omega]
            apply readBitsN_first_eq
            rw [r8_read_bit_buffered rfl rfl hmbd', r8_read_bit_counters hcnt'']
          have hadd := readBitsN_add FormatR8.read_bit (g + 1)
            ⟨encGaps (g2 :: gs'') ++ rest, m, pos, g, 1, false⟩
            (List.replicate g false ++ List.replicate 1 true)
            ⟨encGaps (g2 :: gs'') ++ rest, m, pos + g + 1, 0, 0, false⟩
            (m - (pos + g + 1)) (bitsOfGaps (g2 :: gs'')) ⟨rest, m, m, 0, 0, true⟩
            (by rw [← hdrain]) (by rw [hbridge]; exact hread')
          rw [show m - pos = g + 1 + (m - (pos + g + 1)) from by omega, hadd]
          simp [bitsOfGaps, List.replicate]

/-- Helper: `start_record` of the R8 decoder on a stream holding an
encoded record (counters drained) succeeds, and draining the record's
bits returns them and consumes exactly the record's bytes. -/
theorem r8_record (r : List Bool) (m : Nat) (rest : List Byte) (hr : r.length = m)
    (input : List Byte) (pos : Nat) (term : Bool) (hin : input = encodeR8 r ++ rest) :
    ∃ sb, FormatR8.start_record ⟨input, m, pos, 0, 0, term⟩ = .ok (true, sb) ∧
      readBitsN FormatR8.read_bit m sb = .ok (r, ⟨rest, m, m, 0, 0, true⟩) := by
  subst hin
  have hwf := gapsOf_wf r
  obtain ⟨sb, hmbd, _, hread⟩ := r8_gaps_spec (gapsOf r) m 0 rest (gapsOf_ne_nil r)
    (by omega)
  refine ⟨sb, ?_, ?_⟩
  · unfold FormatR8.start_record
    exact hmbd
  · rw [Nat.sub_zero] at hread
    rw [bitsOfGaps_gapsOf r] at hread
    exact hread

/-- Helper: `start_record` of the R8 decoder at end-of-stream with
drained counters returns false. -/
theorem r8_end (m pos : Nat) (term : Bool) :
    FormatR8.start_record ⟨[], m, pos, 0, 0, term⟩ =
      .ok (false, ⟨[], m, 0, 0, 0, false⟩) := by
  unfold FormatR8.start_record
  unfold FormatR8.maybe_buffer_data
  rw [if_neg (by simp [FormatR8.is_end_of_record])]
  simp [FormatR8.zeroRun]

/-- Helper: the R8 decoder consumes a whole encoded record stream, one
successful `start_record` plus drain per record. -/
theorem r8_session : ∀ (rs : List (List Bool)) (m : Nat), (∀ r ∈ rs, r.length = m) →
    ∀ (pos : Nat) (term : Bool),
    ∃ pos2 term2,
      session FormatR8.start_record (drainBits FormatR8.read_bit m) rs.length
        ⟨streamR8 rs, m, pos, 0, 0, term⟩ = .ok ⟨[], m, pos2, 0, 0, term2⟩ := by
  intro rs
  induction rs with
  | nil =>
    intro m h pos term
    exact ⟨pos, term, by simp [streamR8, session]⟩
  | cons r rs' ih =>
    intro m h pos term
    have hr : r.length = m := h r (by simp)
    have hstream : streamR8 (r :: rs') = encodeR8 r ++ streamR8 rs' := by
      simp [streamR8]
    obtain ⟨sb, hstart, hread⟩ :=
      r8_record r m (streamR8 rs') hr (streamR8 (r :: rs')) pos term hstream
    obtain ⟨pos2, term2, hrec⟩ := ih m (fun x hx => h x (by simp [hx])) m true
    refine ⟨pos2, term2, ?_⟩
    show session _ _ (rs'.length + 1) _ = _
    unfold session
    have hdrain : drainBits FormatR8.read_bit m sb = .ok ⟨streamR8 rs', m, m, 0, 0, true⟩ := by
      unfold drainBits
      rw [hread]
    simp only [hstart, hdrain]
    exact hrec

/-- Helper: decimal digits are at most 9. -/
theorem decDigits_le9 : ∀ (fuel n : Nat), n ≤ fuel → ∀ x ∈ decDigits n, x ≤ 9 := by
  intro fuel
  induction fuel with
  | zero =>
    intro n hn x hx
    have hn0 : n = 0 := by omega
    subst hn0
    rw [show decDigits 0 = [0] from by rw [decDigits]; simp] at hx
    simp at hx
    omega
  | succ fuel ih =>
    intro n hn x hx
    by_cases hlt : n < 10
    · rw [show decDigits n = [n] from by rw [decDigits]; simp [hlt]] at hx
      simp at hx
      omega
    · rw [show decDigits n = decDigits (n / 10) ++ [n % 10] from by
        rw [decDigits]; simp [hlt]] at hx
      rw [List.mem_append] at hx
      rcases hx with hx | hx
      · exact ih (n / 10) (by omega) x hx
      · simp at hx
        omega

/-- Helper: a decimal rendering is never empty. -/
theorem decDigits_ne_nil (n : Nat) : decDigits n ≠ [] := by
  by_cases hlt : n < 10
  · rw [show decDigits n = [n] from by rw [decDigits]; simp [hlt]]
    simp
  · rw [show decDigits n = decDigits (n / 10) ++ [n % 10] from by
      rw [decDigits]; simp [hlt]]
    simp

/-- Helper: digit folding splits over append. -/
theorem decVal_append : ∀ (a b : List Nat) (v : Nat), decVal v (a ++ b) = decVal (decVal v a) b := by
  intro a
  induction a with
  | nil => intro b v; rfl
  | cons d ds ih =>
    intro b v
    show decVal (v * 10 + d) (ds ++ b) = _
    rw [ih]
    rfl

/-- Helper: folding a number's decimal digits onto zero recovers it. -/
theorem decVal_decDigits : ∀ (fuel n : Nat), n ≤ fuel → decVal 0 (decDigits n) = n := by
  intro fuel
  induction fuel with
  | zero =>
    intro n hn
    have hn0 : n = 0 := by omega
    subst hn0
    rw [show decDigits 0 = [0] from by rw [decDigits]; simp]
    rfl
  | succ fuel ih =>
    intro n hn
    by_cases hlt : n < 10
    · rw [show decDigits n = [n] from by rw [decDigits]; simp [hlt]]
      show 0 * 10 + n = n
      omega
    · rw [show decDigits n = decDigits (n / 10) ++ [n % 10] from by
        rw [decDigits]; simp [hlt]]
      rw [decVal_append, ih (n / 10) (by omega)]
      show n / 10 * 10 + n % 10 = n
      omega

/-- Helper: digit folding never decreases its accumulator. -/
theorem decVal_ge : ∀ (ds : List Nat) (v : Nat), v ≤ decVal v ds := by
  intro ds
  induction ds with
  | nil => intro v; exact le_refl v
  | cons d ds ih =>
    intro v
    calc v ≤ v * 10 + d := by omega
    _ ≤ decVal (v * 10 + d) ds := ih (v * 10 + d)

/-- Helper: un-ASCII-ing a decimal rendering gives back the digits. -/
theorem decBytes_roundtrip (n : Nat) : (decBytes n).map (fun x => x - 48) = decDigits n := by
  rw [decBytes, List.map_map]
  have hcomp : ((fun x => x - 48) ∘ (fun x : Nat => x + 48)) = id := by
    funext x
    simp
  rw [hcomp, List.map_id]

/-- Helper: the bytes of a decimal rendering are ASCII digits. -/
theorem decBytes_digits (n : Nat) : ∀ x ∈ decBytes n, 48 ≤ x ∧ x ≤ 57 := by
  intro x hx
  rw [decBytes, List.mem_map] at hx
  obtain ⟨d, hd, hxd⟩ := hx
  replace hxd : d + 48 = x := hxd
  have h9 := decDigits_le9 n n (le_refl n) d hd
  have key : ∀ e y : Nat, e ≤ 9 → e + 48 = y → 48 ≤ y ∧ y ≤ 57 := by omega
  exact key d x h9 hxd

/-- Helper: the digit loop of `read_uint64` parses a digit-byte run up to
the first non-digit, delivering the folded value, provided it fits in 64
bits. -/
theorem ru64Loop_parse : ∀ (ds : List Byte) (v : Nat) (d : Byte) (tail : List Byte),
    48 ≤ d → d ≤ 57 → (∀ x ∈ ds, 48 ≤ x ∧ x ≤ 57) →
    isDigitB (getcS tail).1 = false →
    decVal v ((d :: ds).map (fun x => x - 48)) < 2 ^ 64 →
    ru64Loop v d (ds ++ tail) =
      .ok (decVal v ((d :: ds).map (fun x => x - 48)), (getcS tail).1, (getcS tail).2) := by
  intro ds
  induction ds with
  | nil =>
    intro v d tail hd1 hd2 _ hnd hval
    simp only [List.map_cons, List.map_nil, decVal] at hval ⊢
    have hge : v ≤ v * 10 + (d - 48) := by omega
    match tail with
    | [] =>
      show (if (v * 10 + (d - 48)) % 2 ^ 64 < v then _ else _) = _
      rw [Nat.mod_eq_of_lt hval, if_neg (by omega)]
      rfl
    | c :: rest =>
      show (if (v * 10 + (d - 48)) % 2 ^ 64 < v then _
        else if isDigitB (some c) then _ else _) = _
      rw [Nat.mod_eq_of_lt hval, if_neg (by omega)]
      simp only [getcS] at hnd
      rw [if_neg (by rw [hnd]; simp)]
      rfl
  | cons d2 ds' ih =>
    intro v d tail hd1 hd2 hds hnd hval
    have hd2r : 48 ≤ d2 ∧ d2 ≤ 57 := hds d2 (by simp)
    have hval' : decVal (v * 10 + (d - 48)) ((d2 :: ds').map (fun x => x - 48)) < 2 ^ 64 := by
      simp only [List.map_cons, decVal] at hval
      exact hval
    have hvge : v * 10 + (d - 48) ≤
        decVal (v * 10 + (d - 48)) ((d2 :: ds').map (fun x => x - 48)) := decVal_ge _ _
    have hlt64 : v * 10 + (d - 48) < 2 ^ 64 := by omega
    show (if (v * 10 + (d - 48)) % 2 ^ 64 < v then _
      else if isDigitB (some d2) then _ else _) = _
    rw [Nat.mod_eq_of_lt hlt64]
    rw [if_neg (show ¬ (v * 10 + (d - 48) < v) from by omega)]
    rw [if_pos (show isDigitB (some d2) = true from by
      simp only [isDigitB]
      simp [hd2r.1, hd2r.2])]
    exact ih (v * 10 + (d - 48)) d2 tail hd2r.1 hd2r.2
      (fun x hx => hds x (by simp [hx])) hnd hval'

/-- Helper: `read_uint64`'s core parses the decimal rendering of a
64-bit number up to the first non-digit, leaving that byte in the
cursor. -/
theorem read_uint64Core_parse (i : Nat) (hi : i < 2 ^ 64) (tail : List Byte)
    (hnd : isDigitB (getcS tail).1 = false) :
    ∃ d0 ds, decBytes i = d0 :: ds ∧
      read_uint64Core (ds ++ tail) (some d0) =
        .ok (true, i, (getcS tail).1, (getcS tail).2) := by
  obtain ⟨x, xs, hdd⟩ : ∃ x xs, decDigits i = x :: xs := by
    cases hd : decDigits i with
    | nil => exact absurd hd (decDigits_ne_nil i)
    | cons x xs => exact ⟨x, xs, rfl⟩
  have hx9 : x ≤ 9 := decDigits_le9 i i (le_refl i) x (by rw [hdd]; simp)
  have hlist : decBytes i = (x + 48) :: xs.map (fun t => t + 48) := by
    rw [decBytes, hdd]
    rfl
  refine ⟨x + 48, xs.map (fun t => t + 48), hlist, ?_⟩
  have hval : decVal 0 (((x + 48) :: xs.map (fun t => t + 48)).map (fun b => b - 48)) = i := by
    rw [← hlist, decBytes_roundtrip, decVal_decDigits i i (le_refl i)]
  have hbounds : ∀ b ∈ xs.map (fun t : Nat => t + 48), 48 ≤ b ∧ b ≤ 57 := by
    intro b hb
    apply decBytes_digits i
    rw [hlist]
    exact List.mem_cons_of_mem _ hb
  have hkey : ∀ e : Nat, e ≤ 9 → 48 ≤ e + 48 ∧ e + 48 ≤ 57 := by omega
  have hdig : isDigitB (some (x + 48)) = true := by
    simp only [isDigitB]
    simp [(hkey x hx9).1, (hkey x hx9).2]
  have hparse := ru64Loop_parse (xs.map (fun t => t + 48)) 0 (x + 48) tail
    (hkey x hx9).1 (hkey x hx9).2 hbounds hnd (by rw [hval]; exact hi)
  rw [hval] at hparse
  simp only [read_uint64Core, hdig, if_true, eq_self_iff_true, hparse]


/-- Helper: the HITS line loop consumes the remaining encoded indices of
a record line and stops right after the newline. -/
theorem hitsLine_loop : ∀ (idxs : List Nat) (m fuel : Nat) (buf : List Bool)
    (c1 : Option Byte) (rest1 tail : List Byte),
    (∀ i ∈ idxs, i < m) → m ≤ 2 ^ 64 → idxs.length + 1 ≤ fuel →
    ((idxs = [] ∧ c1 = some 10 ∧ rest1 = tail) ∨
     (idxs ≠ [] ∧ c1 = some 44 ∧ rest1 = encodeHitsLine idxs ++ tail)) →
    FormatHits.hitsLoop m fuel buf c1 false rest1 = .ok (idxs.foldl toggle buf, tail) := by
  intro idxs
  induction idxs with
  | nil =>
    intro m fuel buf c1 rest1 tail hm h64 hfuel hc
    rcases hc with ⟨_, hc1, hrest⟩ | ⟨hne, _, _⟩
    · subst hc1
      subst hrest
      match fuel, hfuel with
      | f + 1, _ =>
        unfold FormatHits.hitsLoop
        rw [if_pos (by decide)]
        rfl
    · exact absurd rfl hne
  | cons i is ih =>
    intro m fuel buf c1 rest1 tail hm h64 hfuel hc
    rcases hc with ⟨habs, _, _⟩ | ⟨_, hc1, hrest⟩
    · exact absurd habs (by simp)
    · subst hc1
      subst hrest
      have hi : i < m := hm i (by simp)
      have hi64 : i < 2 ^ 64 := by omega
      have hmi : ¬ (m ≤ i) := by omega
      match fuel, hfuel with
      | f + 1, hfuel =>
        cases is with
        | nil =>
          obtain ⟨d0, ds, henc, hcore⟩ := read_uint64Core_parse i hi64 (10 :: tail) rfl
          have hline : encodeHitsLine [i] ++ tail = d0 :: (ds ++ (10 :: tail)) := by
            show (decBytes i ++ (if ([] : List Nat).isEmpty then [10] else _)) ++ tail = _
            rw [henc]
            simp
          have hrec := ih m f (buf.set i (!(buf.getD i false))) (some 10) tail tail
            (by simp) h64
            (by have := hfuel; simp only [List.length_cons, List.length_nil] at this ⊢; omega)
            (Or.inl ⟨rfl, rfl, rfl⟩)
          unfold FormatHits.hitsLoop
          rw [if_neg (by decide), hline]
          have hru2 : read_uint64 (d0 :: (ds ++ (10 :: tail))) (some 44) false =
              .ok (true, i, some 10, tail) := by
            show read_uint64Core (ds ++ (10 :: tail)) (some d0) = _
            rw [hcore]
            rfl
          simp only [hru2, Bool.not_true, Bool.false_eq_true, if_false, hmi]
          simp only [show ((some 10 : Option Byte) != some 44 &&
            (some 10 : Option Byte) != some 10) = false from by decide, Bool.false_eq_true,
            if_false]
          exact hrec
        | cons j js =>
          obtain ⟨d0, ds, henc, hcore⟩ := read_uint64Core_parse i hi64
            ((44 :: encodeHitsLine (j :: js)) ++ tail) rfl
          have hline : encodeHitsLine (i :: j :: js) ++ tail =
              d0 :: (ds ++ ((44 :: encodeHitsLine (j :: js)) ++ tail)) := by
            show (decBytes i ++ (if (j :: js).isEmpty then [10]
              else 44 :: encodeHitsLine (j :: js))) ++ tail = _
            rw [henc]
            simp
          have hrec := ih m f (buf.set i (!(buf.getD i false))) (some 44)
            (encodeHitsLine (j :: js) ++ tail) tail
            (fun x hx => hm x (by simp [hx])) h64
            (by have := hfuel; simp only [List.length_cons, List.length_nil] at this ⊢; omega)
            (Or.inr ⟨by simp, rfl, rfl⟩)
          unfold FormatHits.hitsLoop
          rw [if_neg (by decide), hline]
          have hru2 : read_uint64 (d0 :: (ds ++ ((44 :: encodeHitsLine (j :: js)) ++ tail)))
              (some 44) false = .ok (true, i, some 44, encodeHitsLine (j :: js) ++ tail) := by
            show read_uint64Core (ds ++ ((44 :: encodeHitsLine (j :: js)) ++ tail))
              (some d0) = _
            rw [hcore]
            rfl
          simp only [hru2, Bool.not_true, Bool.false_eq_true, if_false, hmi]
          simp only [show ((some 44 : Option Byte) != some 44 &&
            (some 44 : Option Byte) != some 10) = false from by decide, Bool.false_eq_true,
            if_false]
          exact hrec

/-- Helper: an encoded HITS line is longer than its index count. -/
theorem encodeHitsLine_length : ∀ idxs : List Nat,
    idxs.length + 1 ≤ (encodeHitsLine idxs).length := by
  intro idxs
  induction idxs with
  | nil => simp [encodeHitsLine]
  | cons i is ih =>
    have hdb : 1 ≤ (decBytes i).length := by
      rw [decBytes, List.length_map]
      cases hd : decDigits i with
      | nil => exact absurd hd (decDigits_ne_nil i)
      | cons x xs => simp
    show (decBytes i ++ (if is.isEmpty then [10] else 44 :: encodeHitsLine is)).length ≥ _
    cases is with
    | nil =>
      simp only [List.isEmpty_nil, if_true, List.length_append, List.length_cons,
        List.length_nil]
      omega
    | cons j js =>
      simp only [List.isEmpty_cons, Bool.false_eq_true, if_false, List.length_append,
        List.length_cons] at ih ⊢
      omega

/-- Helper: `start_record` of the HITS decoder on a stream holding an
encoded record line succeeds and consumes exactly the line. -/
theorem hits_start (idxs : List Nat) (m : Nat) (tail : List Byte) (buf0 : List Bool)
    (pos0 : Nat) (hm : ∀ i ∈ idxs, i < m) (h64 : m ≤ 2 ^ 64) :
    FormatHits.start_record ⟨encodeHitsLine idxs ++ tail, m, buf0, pos0⟩ =
      .ok (true, ⟨tail, m, idxs.foldl toggle (List.replicate m false), 0⟩) := by
  cases idxs with
  | nil =>
    show (match getcS (encodeHitsLine [] ++ tail) with
      | (none, _) =>
        Except.ok (false, (⟨encodeHitsLine [] ++ tail, m, buf0, pos0⟩ : FormatHits.State))
      | (some c0, rest) =>
        match FormatHits.hitsLoop m ((encodeHitsLine [] ++ tail).length + 1)
            (List.replicate m false) (some c0) true rest with
        | .error e => .error e
        | .ok (buf, input1) =>
          .ok (true, ⟨input1, m, buf, 0⟩)) = _
    have hloop : FormatHits.hitsLoop m ((encodeHitsLine [] ++ tail).length + 1)
        (List.replicate m false) (some 10) true tail = .ok (List.replicate m false, tail) := by
      show FormatHits.hitsLoop m ((10 :: tail).length + 1) _ (some 10) true tail = _
      unfold FormatHits.hitsLoop
      rw [if_pos (by decide)]
    simp only [show (getcS (encodeHitsLine [] ++ tail)) = (some 10, tail) from rfl, hloop,
      List.foldl_nil]
  | cons i is =>
    have hi : i < m := hm i (by simp)
    have hi64 : i < 2 ^ 64 := by omega
    have hmi : ¬ (m ≤ i) := by omega
    have hlen := encodeHitsLine_length (i :: is)
    cases is with
    | nil =>
      obtain ⟨d0, ds, henc, hcore⟩ := read_uint64Core_parse i hi64 (10 :: tail) rfl
      have hd0 := decBytes_digits i d0 (by rw [henc]; simp)
      have hd0ne : (some d0 == some 10 : Bool) = false := by
        have key : ∀ e : Nat, 48 ≤ e → ¬ (e = 10) := by omega
        simp only [beq_eq_false_iff_ne, ne_eq, Option.some.injEq]
        exact key d0 hd0.1
      have hline : encodeHitsLine [i] ++ tail = d0 :: (ds ++ (10 :: tail)) := by
        show (decBytes i ++ (if ([] : List Nat).isEmpty then [10] else _)) ++ tail = _
        rw [henc]
        simp
      have hrec := hitsLine_loop [] m ((encodeHitsLine [i] ++ tail).length)
        (List.replicate m false |>.set i (!((List.replicate m false).getD i false)))
        (some 10) tail tail (by simp) h64
        (by simp only [List.length_append]; simp at hlen ⊢; omega)
        (Or.inl ⟨rfl, rfl, rfl⟩)
      show (match getcS (encodeHitsLine [i] ++ tail) with
        | (none, _) =>
          Except.ok (false, (⟨encodeHitsLine [i] ++ tail, m, buf0, pos0⟩ : FormatHits.State))
        | (some c0, rest) =>
          match FormatHits.hitsLoop m ((encodeHitsLine [i] ++ tail).length + 1)
              (List.replicate m false) (some c0) true rest with
          | .error e => .error e
          | .ok (buf, input1) =>
            .ok (true, ⟨input1, m, buf, 0⟩)) = _
      rw [show getcS (encodeHitsLine [i] ++ tail) = (some d0, ds ++ (10 :: tail)) from by
        rw [hline]
        rfl]
      have hru : read_uint64 (ds ++ (10 :: tail)) (some d0) true =
          .ok (true, i, some 10, tail) := by
        show read_uint64Core (ds ++ (10 :: tail)) (some d0) = _
        rw [hcore]
        rfl
      have hloop : FormatHits.hitsLoop m ((encodeHitsLine [i] ++ tail).length + 1)
          (List.replicate m false) (some d0) true (ds ++ (10 :: tail)) =
          .ok ([i].foldl toggle (List.replicate m false), tail) := by
        unfold FormatHits.hitsLoop
        rw [if_neg (by rw [hd0ne]; simp)]
        simp only [hru, Bool.not_true, Bool.false_eq_true, if_false, hmi]
        simp only [show ((some 10 : Option Byte) != some 44 &&
          (some 10 : Option Byte) != some 10) = false from by decide, Bool.false_eq_true,
          if_false]
        exact hrec
      simp only [hloop]
    | cons j js =>
      obtain ⟨d0, ds, henc, hcore⟩ := read_uint64Core_parse i hi64
        ((44 :: encodeHitsLine (j :: js)) ++ tail) rfl
      have hd0 := decBytes_digits i d0 (by rw [henc]; simp)
      have hd0ne : (some d0 == some 10 : Bool) = false := by
        have key : ∀ e : Nat, 48 ≤ e → ¬ (e = 10) := by omega
        simp only [beq_eq_false_iff_ne, ne_eq, Option.some.injEq]
        exact key d0 hd0.1
      have hline : encodeHitsLine (i :: j :: js) ++ tail =
          d0 :: (ds ++ ((44 :: encodeHitsLine (j :: js)) ++ tail)) := by
        show (decBytes i ++ (if (j :: js).isEmpty then [10]
          else 44 :: encodeHitsLine (j :: js))) ++ tail = _
        rw [henc]
        simp
      have hrec := hitsLine_loop (j :: js) m
        ((encodeHitsLine (i :: j :: js) ++ tail).length)
        (List.replicate m false |>.set i (!((List.replicate m false).getD i false)))
        (some 44) (encodeHitsLine (j :: js) ++ tail) tail
        (fun x hx => hm x (by simp [hx])) h64
        (by simp only [List.length_append]; simp at hlen ⊢; omega)
        (Or.inr ⟨by simp, rfl, rfl⟩)
      show (match getcS (encodeHitsLine (i :: j :: js) ++ tail) with
        | (none, _) =>
          Except.ok (false,
            (⟨encodeHitsLine (i :: j :: js) ++ tail, m, buf0, pos0⟩ : FormatHits.State))
        | (some c0, rest) =>
          match FormatHits.hitsLoop m ((encodeHitsLine (i :: j :: js) ++ tail).length + 1)
              (List.replicate m false) (some c0) true rest with
          | .error e => .error e
          | .ok (buf, input1) =>
            .ok (true, ⟨input1, m, buf, 0⟩)) = _
      rw [show getcS (encodeHitsLine (i :: j :: js) ++ tail) =
        (some d0, ds ++ ((44 :: encodeHitsLine (j :: js)) ++ tail)) from by
          rw [hline]
          rfl]
      have hru : read_uint64 (ds ++ ((44 :: encodeHitsLine (j :: js)) ++ tail)) (some d0)
          true = .ok (true, i, some 44, encodeHitsLine (j :: js) ++ tail) := by
        show read_uint64Core (ds ++ ((44 :: encodeHitsLine (j :: js)) ++ tail)) (some d0) = _
        rw [hcore]
        rfl
      have hloop : FormatHits.hitsLoop m ((encodeHitsLine (i :: j :: js) ++ tail).length + 1)
          (List.replicate m false) (some d0) true
          (ds ++ ((44 :: encodeHitsLine (j :: js)) ++ tail)) =
          .ok ((i :: j :: js).foldl toggle (List.replicate m false), tail) := by
        unfold FormatHits.hitsLoop
        rw [if_neg (by rw [hd0ne]; simp)]
        simp only [hru, Bool.not_true, Bool.false_eq_true, if_false, hmi]
        simp only [show ((some 44 : Option Byte) != some 44 &&
          (some 44 : Option Byte) != some 10) = false from by decide, Bool.false_eq_true,
          if_false]
        exact hrec
      simp only [hloop]

/-- Helper: `start_record` of the HITS decoder at end-of-stream returns
false. -/
theorem hits_end (m : Nat) (buf : List Bool) (pos : Nat) :
    FormatHits.start_record ⟨[], m, buf, pos⟩ = .ok (false, ⟨[], m, buf, pos⟩) := by
  rfl

/-- Helper: draining the HITS buffer only advances the position. -/
theorem hits_drain : ∀ (k : Nat) (input : List Byte) (m : Nat) (buf : List Bool) (pos : Nat),
    pos + k ≤ m →
    ∃ bits, readBitsN FormatHits.read_bit k ⟨input, m, buf, pos⟩ =
      .ok (bits, ⟨input, m, buf, pos + k⟩) := by
  intro k
  induction k with
  | zero =>
    intro input m buf pos h
    exact ⟨[], by simp [readBitsN]⟩
  | succ k ih =>
    intro input m buf pos h
    have hstep : FormatHits.read_bit ⟨input, m, buf, pos⟩ =
        .ok (buf.getD pos false, ⟨input, m, buf, pos + 1⟩) := by
      unfold FormatHits.read_bit
      rw [if_neg (show ¬ (m ≤ pos) from by omega)]
    obtain ⟨bits, hrec⟩ := ih input m buf (pos + 1) (by omega)
    refine ⟨buf.getD pos false :: bits, ?_⟩
    unfold readBitsN
    simp only [hstep, hrec]
    rw [show pos + 1 + k = pos + (k + 1) from by omega]

/-- Helper: the HITS decoder consumes a whole encoded record stream, one
successful `start_record` plus drain per record. -/
theorem hits_session : ∀ (rs : List (List Nat)) (m : Nat), m ≤ 2 ^ 64 →
    (∀ r ∈ rs, ∀ i ∈ r, i < m) →
    ∀ (buf : List Bool) (pos : Nat),
    ∃ buf2 pos2,
      session FormatHits.start_record (drainBits FormatHits.read_bit m) rs.length
        ⟨streamHits rs, m, buf, pos⟩ = .ok ⟨[], m, buf2, pos2⟩ := by
  intro rs
  induction rs with
  | nil =>
    intro m h64 h buf pos
    exact ⟨buf, pos, by simp [streamHits, session]⟩
  | cons r rs' ih =>
    intro m h64 h buf pos
    have hstream : streamHits (r :: rs') = encodeHitsLine r ++ streamHits rs' := by
      simp [streamHits]
    have hstart := hits_start r m (streamHits rs') buf pos
      (h r (by simp)) h64
    obtain ⟨bits, hdrain0⟩ := hits_drain m (streamHits rs') m
      (r.foldl toggle (List.replicate m false)) 0 (by omega)
    obtain ⟨buf2, pos2, hrec⟩ := ih m h64 (fun x hx => h x (by simp [hx]))
      (r.foldl toggle (List.replicate m false)) m
    refine ⟨buf2, pos2, ?_⟩
    show session _ _ (rs'.length + 1) _ = _
    unfold session
    rw [hstream]
    have hdr : drainBits FormatHits.read_bit m
        ⟨streamHits rs', m, r.foldl toggle (List.replicate m false), 0⟩ =
        .ok ⟨streamHits rs', m, r.foldl toggle (List.replicate m false), 0 + m⟩ := by
      unfold drainBits
      rw [hdrain0]
    simp only [hstart, hdr]
    rw [show 0 + m = m from by omega]
    exact hrec

/-- Helper: the DETS space-skipping loop does nothing when the cursor is
not a space. -/
theorem skipSpaces_non32 (c : Option Byte) (X : List Byte) (h : (c == some 32) = false) :
    FormatDets.skipSpaces c X = (c, X) := by
  unfold FormatDets.skipSpaces
  split
  · simp at h
  · simp at h
  · rfl

/-- Helper: the DETS token loop consumes the remaining encoded entries of
a record line and stops right after the newline. -/
theorem detsLine_loop : ∀ (es : List (Byte × Nat)) (m d l fuel : Nat) (buf : List Bool)
    (c0 : Option Byte) (input0 tail : List Byte),
    (∀ e ∈ es, (e.1 = 77 ∧ e.2 < m) ∨ (e.1 = 68 ∧ e.2 < d) ∨ (e.1 = 76 ∧ e.2 < l)) →
    m ≤ 2 ^ 64 → d ≤ 2 ^ 64 → l ≤ 2 ^ 64 →
    es.length + 1 ≤ fuel →
    ((es = [] ∧ c0 = some 10 ∧ input0 = tail) ∨
     (∃ e es', es = e :: es' ∧ c0 = some 32 ∧
       input0 = e.1 :: (decBytes e.2 ++ (bodyBytes es' ++ 10 :: tail)))) →
    FormatDets.detsLoop m d l fuel buf c0 input0 =
      .ok (es.foldl (fun b e => toggle b (detsPos m d e)) buf, tail) := by
  intro es
  induction es with
  | nil =>
    intro m d l fuel buf c0 input0 tail hwf hm64 hd64 hl64 hfuel hc
    rcases hc with ⟨_, hc0, hin⟩ | ⟨e, es', habs, _, _⟩
    · subst hc0
      subst hin
      match fuel, hfuel with
      | f + 1, _ =>
        unfold FormatDets.detsLoop
        rw [skipSpaces_non32 (some 10) input0 (by decide)]
        rfl
    · exact absurd habs (by simp)
  | cons e es' ih =>
    intro m d l fuel buf c0 input0 tail hwf hm64 hd64 hl64 hfuel hc
    rcases hc with ⟨habs, _, _⟩ | ⟨e', es'', heq, hc0, hin⟩
    · exact absurd habs (by simp)
    · injection heq with h1 h2
      subst h1
      subst h2
      subst hc0
      subst hin
      obtain ⟨sec, num⟩ := e
      match fuel, hfuel with
      | f + 1, hfuel =>
        have hfuel' : es'.length + 1 ≤ f := by
          simp only [List.length_cons] at hfuel
          omega
        have hnext : ∃ (c1 : Option Byte) (input1 : List Byte),
            getcS (bodyBytes es' ++ 10 :: tail) = (c1, input1) ∧
            isDigitB c1 = false ∧
            ((es' = [] ∧ c1 = some 10 ∧ input1 = tail) ∨
             (∃ e2 es3, es' = e2 :: es3 ∧ c1 = some 32 ∧
               input1 = e2.1 :: (decBytes e2.2 ++ (bodyBytes es3 ++ 10 :: tail)))) := by
          cases es' with
          | nil => exact ⟨some 10, tail, rfl, rfl, Or.inl ⟨rfl, rfl, rfl⟩⟩
          | cons e2 es3 =>
            refine ⟨some 32, e2.1 :: (decBytes e2.2 ++ (bodyBytes es3 ++ 10 :: tail)), ?_,
              rfl, Or.inr ⟨e2, es3, rfl, rfl, rfl⟩⟩
            show getcS (bodyBytes (e2 :: es3) ++ 10 :: tail) = _
            rw [show bodyBytes (e2 :: es3) =
              32 :: (e2.1 :: (decBytes e2.2 ++ bodyBytes es3)) from by
                simp [bodyBytes, encodeDetsEntry]]
            simp [getcS, List.append_assoc]
        obtain ⟨c1, input1, hget, hndx, hcont⟩ := hnext
        have hwfe := hwf ⟨sec, num⟩ (by simp)
        have hwf' : ∀ x ∈ es', (x.1 = 77 ∧ x.2 < m) ∨ (x.1 = 68 ∧ x.2 < d) ∨
            (x.1 = 76 ∧ x.2 < l) := fun x hx => hwf x (by simp [hx])
        have hrec := ih m d l f (toggle buf (detsPos m d (sec, num)))
          c1 input1 tail hwf' hm64 hd64 hl64 hfuel' hcont
        rcases hwfe with ⟨hsec, hnum⟩ | ⟨hsec, hnum⟩ | ⟨hsec, hnum⟩ <;> simp only at hsec <;>
          subst hsec
        · obtain ⟨d0, ds, henc, hcore⟩ := read_uint64Core_parse num (by omega)
            (bodyBytes es' ++ 10 :: tail) (by rw [hget]; exact hndx)
          have hru : read_uint64 (decBytes num ++ (bodyBytes es' ++ 10 :: tail)) none false =
              .ok (true, num, c1, input1) := by
            rw [show decBytes num ++ (bodyBytes es' ++ 10 :: tail) =
              d0 :: (ds ++ (bodyBytes es' ++ 10 :: tail)) from by rw [henc]; rfl]
            show read_uint64Core (ds ++ (bodyBytes es' ++ 10 :: tail)) (some d0) = _
            rw [hcore, hget]
          unfold FormatDets.detsLoop
          rw [show FormatDets.skipSpaces (some 32)
              (77 :: (decBytes num ++ (bodyBytes es' ++ 10 :: tail))) =
              FormatDets.skipSpaces (some 77)
                (decBytes num ++ (bodyBytes es' ++ 10 :: tail)) from rfl,
            skipSpaces_non32 (some 77) (decBytes num ++ (bodyBytes es' ++ 10 :: tail))
              (by decide)]
          simp only []
          rw [if_neg (by decide), if_neg (by decide)]
          rw [show (if ((some 77 : Option Byte) == some 77) = true then
              (Except.ok ((0 : Nat), m) : Except String (Nat × Nat))
            else if ((some 77 : Option Byte) == some 68) = true then .ok (m, d)
            else if ((some 77 : Option Byte) == some 76) = true then .ok (m + d, l)
            else .error "Unrecognized DETS character") = .ok ((0 : Nat), m) from rfl]
          simp only [hru, Bool.not_true, Bool.false_eq_true, if_false]
          rw [if_neg (show ¬ (m ≤ num) from by omega)]
          simpa [toggle, detsPos] using hrec
        · obtain ⟨d0, ds, henc, hcore⟩ := read_uint64Core_parse num (by omega)
            (bodyBytes es' ++ 10 :: tail) (by rw [hget]; exact hndx)
          have hru : read_uint64 (decBytes num ++ (bodyBytes es' ++ 10 :: tail)) none false =
              .ok (true, num, c1, input1) := by
            rw [show decBytes num ++ (bodyBytes es' ++ 10 :: tail) =
              d0 :: (ds ++ (bodyBytes es' ++ 10 :: tail)) from by rw [henc]; rfl]
            show read_uint64Core (ds ++ (bodyBytes es' ++ 10 :: tail)) (some d0) = _
            rw [hcore, hget]
          unfold FormatDets.detsLoop
          rw [show FormatDets.skipSpaces (some 32)
              (68 :: (decBytes num ++ (bodyBytes es' ++ 10 :: tail))) =
              FormatDets.skipSpaces (some 68)
                (decBytes num ++ (bodyBytes es' ++ 10 :: tail)) from rfl,
            skipSpaces_non32 (some 68) (decBytes num ++ (bodyBytes es' ++ 10 :: tail))
              (by decide)]
          simp only []
          rw [if_neg (by decide), if_neg (by decide)]
          rw [show (if ((some 68 : Option Byte) == some 77) = true then
              (Except.ok ((0 : Nat), m) : Except String (Nat × Nat))
            else if ((some 68 : Option Byte) == some 68) = true then .ok (m, d)
            else if ((some 68 : Option Byte) == some 76) = true then .ok (m + d, l)
            else .error "Unrecognized DETS character") = .ok ((m : Nat), d) from rfl]
          simp only [hru, Bool.not_true, Bool.false_eq_true, if_false]
          rw [if_neg (show ¬ (d ≤ num) from by omega)]
          simpa [toggle, detsPos] using hrec
        · obtain ⟨d0, ds, henc, hcore⟩ := read_uint64Core_parse num (by omega)
            (bodyBytes es' ++ 10 :: tail) (by rw [hget]; exact hndx)
          have hru : read_uint64 (decBytes num ++ (bodyBytes es' ++ 10 :: tail)) none false =
              .ok (true, num, c1, input1) := by
            rw [show decBytes num ++ (bodyBytes es' ++ 10 :: tail) =
              d0 :: (ds ++ (bodyBytes es' ++ 10 :: tail)) from by rw [henc]; rfl]
            show read_uint64Core (ds ++ (bodyBytes es' ++ 10 :: tail)) (some d0) = _
            rw [hcore, hget]
          unfold FormatDets.detsLoop
          rw [show FormatDets.skipSpaces (some 32)
              (76 :: (decBytes num ++ (bodyBytes es' ++ 10 :: tail))) =
              FormatDets.skipSpaces (some 76)
                (decBytes num ++ (bodyBytes es' ++ 10 :: tail)) from rfl,
            skipSpaces_non32 (some 76) (decBytes num ++ (bodyBytes es' ++ 10 :: tail))
              (by decide)]
          simp only []
          rw [if_neg (by decide), if_neg (by decide)]
          rw [show (if ((some 76 : Option Byte) == some 77) = true then
              (Except.ok ((0 : Nat), m) : Except String (Nat × Nat))
            else if ((some 76 : Option Byte) == some 68) = true then .ok (m, d)
            else if ((some 76 : Option Byte) == some 76) = true then .ok (m + d, l)
            else .error "Unrecognized DETS character") = .ok ((m + d : Nat), l) from rfl]
          simp only [hru, Bool.not_true, Bool.false_eq_true, if_false]
          rw [if_neg (show ¬ (l ≤ num) from by omega)]
          simpa [toggle, detsPos] using hrec

/-- Helper: a DETS body is at least as long as its entry count. -/
theorem bodyBytes_length_ge : ∀ es : List (Byte × Nat), es.length ≤ (bodyBytes es).length := by
  intro es
  induction es with
  | nil => simp [bodyBytes]
  | cons e es' ih =>
    have hdb : 1 ≤ (decBytes e.2).length := by
      rw [decBytes, List.length_map]
      cases hd : decDigits e.2 with
      | nil => exact absurd hd (decDigits_ne_nil e.2)
      | cons x xs => simp
    have hexp : bodyBytes (e :: es') = 32 :: (e.1 :: (decBytes e.2 ++ bodyBytes es')) := by
      simp [bodyBytes, encodeDetsEntry]
    rw [hexp]
    simp only [List.length_cons, List.length_append]
    omega

/-- Helper: `start_record` of the DETS decoder on a stream holding an
encoded record line succeeds and consumes exactly the line. -/
theorem dets_start (es : List (Byte × Nat)) (m d l : Nat) (tail : List Byte)
    (buf0 : List Bool) (pos0 : Nat)
    (hwf : ∀ e ∈ es, (e.1 = 77 ∧ e.2 < m) ∨ (e.1 = 68 ∧ e.2 < d) ∨ (e.1 = 76 ∧ e.2 < l))
    (hm64 : m ≤ 2 ^ 64) (hd64 : d ≤ 2 ^ 64) (hl64 : l ≤ 2 ^ 64) :
    FormatDets.start_record ⟨encodeDetsLine es ++ tail, m, d, l, buf0, pos0⟩ =
      .ok (true, ⟨tail, m, d, l,
        es.foldl (fun b e => toggle b (detsPos m d e))
          (List.replicate (m + d + l) false), 0⟩) := by
  cases es with
  | nil =>
    have hloop := detsLine_loop [] m d l (tail.length + 2)
      (List.replicate (m + d + l) false) (some 10) tail tail (by simp) hm64 hd64 hl64
      (by simp) (Or.inl ⟨rfl, rfl, rfl⟩)
    have hkw : maybe_consume_keyword (encodeDetsLine [] ++ tail) [115, 104, 111, 116] =
        .ok (some (some 10, tail)) := rfl
    unfold FormatDets.start_record
    simp only [hkw]
    simp only [hloop]
  | cons e es' =>
    have hin : encodeDetsLine (e :: es') ++ tail =
        115 :: 104 :: 111 :: 116 ::
          (32 :: (e.1 :: (decBytes e.2 ++ (bodyBytes es' ++ 10 :: tail)))) := by
      simp [encodeDetsLine, bodyBytes, encodeDetsEntry, List.append_assoc]
    have hkw : maybe_consume_keyword (encodeDetsLine (e :: es') ++ tail)
        [115, 104, 111, 116] =
        .ok (some (some 32, e.1 :: (decBytes e.2 ++ (bodyBytes es' ++ 10 :: tail)))) := by
      rw [hin]
      rfl
    have hdb : 1 ≤ (decBytes e.2).length := by
      rw [decBytes, List.length_map]
      cases hd : decDigits e.2 with
      | nil => exact absurd hd (decDigits_ne_nil e.2)
      | cons x xs => simp
    have hbl := bodyBytes_length_ge es'
    have hloop := detsLine_loop (e :: es') m d l
      ((e.1 :: (decBytes e.2 ++ (bodyBytes es' ++ 10 :: tail))).length + 2)
      (List.replicate (m + d + l) false) (some 32)
      (e.1 :: (decBytes e.2 ++ (bodyBytes es' ++ 10 :: tail))) tail hwf hm64 hd64 hl64
      (by simp only [List.length_cons, List.length_append]; omega)
      (Or.inr ⟨e, es', rfl, rfl, rfl⟩)
    unfold FormatDets.start_record
    simp only [hkw]
    simp only [hloop]

/-- Helper: `start_record` of the DETS decoder at end-of-stream returns
false. -/
theorem dets_end (m d l : Nat) (buf : List Bool) (pos : Nat) :
    FormatDets.start_record ⟨[], m, d, l, buf, pos⟩ = .ok (false, ⟨[], m, d, l, buf, pos⟩) := by
  rfl

/-- Helper: draining the DETS buffer only advances the position. -/
theorem dets_drain : ∀ (k : Nat) (input : List Byte) (m d l : Nat) (buf : List Bool)
    (pos : Nat), pos + k ≤ m + d + l →
    ∃ bits, readBitsN FormatDets.read_bit k ⟨input, m, d, l, buf, pos⟩ =
      .ok (bits, ⟨input, m, d, l, buf, pos + k⟩) := by
  intro k
  induction k with
  | zero =>
    intro input m d l buf pos h
    exact ⟨[], by simp [readBitsN]⟩
  | succ k ih =>
    intro input m d l buf pos h
    have hstep : FormatDets.read_bit ⟨input, m, d, l, buf, pos⟩ =
        .ok (buf.getD pos false, ⟨input, m, d, l, buf, pos + 1⟩) := by
      unfold FormatDets.read_bit
      rw [if_neg (show ¬ (m + d + l ≤ pos) from by omega)]
    obtain ⟨bits, hrec⟩ := ih input m d l buf (pos + 1) (by omega)
    refine ⟨buf.getD pos false :: bits, ?_⟩
    unfold readBitsN
    simp only [hstep, hrec]
    rw [show pos + 1 + k = pos + (k + 1) from by omega]

/-- Helper: the DETS decoder consumes a whole encoded record stream, one
successful `start_record` plus drain per record. -/
theorem dets_session : ∀ (rs : List (List (Byte × Nat))) (m d l : Nat),
    m ≤ 2 ^ 64 → d ≤ 2 ^ 64 → l ≤ 2 ^ 64 →
    (∀ r ∈ rs, ∀ e ∈ r, (e.1 = 77 ∧ e.2 < m) ∨ (e.1 = 68 ∧ e.2 < d) ∨ (e.1 = 76 ∧ e.2 < l)) →
    ∀ (buf : List Bool) (pos : Nat),
    ∃ buf2 pos2,
      session FormatDets.start_record (drainBits FormatDets.read_bit (m + d + l)) rs.length
        ⟨streamDets rs, m, d, l, buf, pos⟩ = .ok ⟨[], m, d, l, buf2, pos2⟩ := by
  intro rs
  induction rs with
  | nil =>
    intro m d l hm64 hd64 hl64 h buf pos
    exact ⟨buf, pos, by simp [streamDets, session]⟩
  | cons r rs' ih =>
    intro m d l hm64 hd64 hl64 h buf pos
    have hstream : streamDets (r :: rs') = encodeDetsLine r ++ streamDets rs' := by
      simp [streamDets]
    have hstart := dets_start r m d l (streamDets rs') buf pos
      (h r (by simp)) hm64 hd64 hl64
    obtain ⟨bits, hdrain0⟩ := dets_drain (m + d + l) (streamDets rs') m d l
      (r.foldl (fun b e => toggle b (detsPos m d e)) (List.replicate (m + d + l) false))
      0 (by omega)
    obtain ⟨buf2, pos2, hrec⟩ := ih m d l hm64 hd64 hl64 (fun x hx => h x (by simp [hx]))
      (r.foldl (fun b e => toggle b (detsPos m d e)) (List.replicate (m + d + l) false))
      (m + d + l)
    refine ⟨buf2, pos2, ?_⟩
    show session _ _ (rs'.length + 1) _ = _
    unfold session
    rw [hstream]
    have hdr : drainBits FormatDets.read_bit (m + d + l)
        ⟨streamDets rs', m, d, l,
          r.foldl (fun b e => toggle b (detsPos m d e))
            (List.replicate (m + d + l) false), 0⟩ =
        .ok ⟨streamDets rs', m, d, l,
          r.foldl (fun b e => toggle b (detsPos m d e))
            (List.replicate (m + d + l) false), 0 + (m + d + l)⟩ := by
      unfold drainBits
      rw [hdrain0]
    simp only [hstart, hdr]
    rw [show 0 + (m + d + l) = m + d + l from by omega]
    exact hrec

/-- C6: parsing a HITS or DETS record XOR-toggles the buffer bit of every
index occurrence the record's bytes list, with no duplicate detection:
`start_record` on the encoded line of an index list (`encodeHitsLine`,
resp. section-prefixed entries via `encodeDetsLine`) succeeds and yields
exactly the toggle-fold of the listed occurrences over the zeroed buffer,
and the resulting bit at every position is the parity of that position's
occurrence count in the input line — an index repeated an even number of
times cancels back to 0, an odd number of times gives 1. -/
theorem C6_hits_dets_toggle_parity :
    (∀ (m : Nat) (idxs : List Nat) (tail : List Byte) (buf0 : List Bool) (pos0 : Nat),
      (∀ i ∈ idxs, i < m) → m ≤ 2 ^ 64 →
      FormatHits.start_record ⟨encodeHitsLine idxs ++ tail, m, buf0, pos0⟩ =
        .ok (true, ⟨tail, m, idxs.foldl toggle (List.replicate m false), 0⟩) ∧
      ∀ p, p < m →
        (idxs.foldl toggle (List.replicate m false)).getD p false =
          decide (idxs.count p % 2 = 1)) ∧
    (∀ (m d l : Nat) (es : List (Byte × Nat)) (tail : List Byte) (buf0 : List Bool)
      (pos0 : Nat),
      (∀ e ∈ es, (e.1 = 77 ∧ e.2 < m) ∨ (e.1 = 68 ∧ e.2 < d) ∨ (e.1 = 76 ∧ e.2 < l)) →
      m ≤ 2 ^ 64 → d ≤ 2 ^ 64 → l ≤ 2 ^ 64 →
      FormatDets.start_record ⟨encodeDetsLine es ++ tail, m, d, l, buf0, pos0⟩ =
        .ok (true, ⟨tail, m, d, l,
          es.foldl (fun b e => toggle b (detsPos m d e))
            (List.replicate (m + d + l) false), 0⟩) ∧
      ∀ p, p < m + d + l →
        (es.foldl (fun b e => toggle b (detsPos m d e))
            (List.replicate (m + d + l) false)).getD p false =
          decide ((es.map (detsPos m d)).count p % 2 = 1)) := by
  constructor
  · intro m idxs tail buf0 pos0 hm h64
    refine ⟨hits_start idxs m tail buf0 pos0 hm h64, ?_⟩
    intro p hp
    have hrep : (List.replicate m false).getD p false = false := by
      simp only [List.getD_eq_getElem?_getD, List.getElem?_replicate]
      split <;> rfl
    rw [toggle_foldl_parity idxs (List.replicate m false) p
        (by intro j hj; rw [List.length_replicate]; exact hm j hj),
      hrep, Bool.false_xor]
  · intro m d l es tail buf0 pos0 hwf hm64 hd64 hl64
    refine ⟨dets_start es m d l tail buf0 pos0 hwf hm64 hd64 hl64, ?_⟩
    intro p hp
    have hrep : (List.replicate (m + d + l) false).getD p false = false := by
      simp only [List.getD_eq_getElem?_getD, List.getElem?_replicate]
      split <;> rfl
    have hfold : es.foldl (fun b e => toggle b (detsPos m d e))
        (List.replicate (m + d + l) false) =
        (es.map (detsPos m d)).foldl toggle (List.replicate (m + d + l) false) := by
      rw [List.foldl_map]
    have hlen : ∀ j ∈ es.map (detsPos m d),
        j < (List.replicate (m + d + l) false).length := by
      intro j hj
      rw [List.length_replicate]
      obtain ⟨e, he, hje⟩ := List.mem_map.mp hj
      rcases hwf e he with ⟨hsec, hnum⟩ | ⟨hsec, hnum⟩ | ⟨hsec, hnum⟩ <;>
        simp only [detsPos, hsec] at hje <;> simp at hje <;> omega
    rw [hfold, toggle_foldl_parity (es.map (detsPos m d))
        (List.replicate (m + d + l) false) p hlen,
      hrep, Bool.false_xor]

/-- C6 witness: `C6_hits_dets_toggle_parity` applied at concrete records
holding a duplicated index.  HITS with m = 3 on the line "1,1,2": index 1
is listed twice, so its two toggles cancel and the parsed buffer is
0,0,1 — bit 1 is 0 (even count) and bit 2 is 1 (odd count).  DETS with
(m,d,l) = (1,1,1) on "shot M0 M0 D0": the M0 entry is listed twice and
cancels, so the buffer is 0,1,0. -/
theorem C6_hits_dets_toggle_parity_witness :
    ((∀ i ∈ ([1, 1, 2] : List Nat), i < 3) ∧
     FormatHits.start_record ⟨encodeHitsLine [1, 1, 2] ++ [], 3, [], 0⟩ =
       .ok (true, ⟨[], 3, [false, false, true], 0⟩) ∧
     ∀ p, p < 3 → ([false, false, true] : List Bool).getD p false =
       decide (([1, 1, 2] : List Nat).count p % 2 = 1)) ∧
    ((∀ e ∈ ([(77, 0), (77, 0), (68, 0)] : List (Byte × Nat)),
        (e.1 = 77 ∧ e.2 < 1) ∨ (e.1 = 68 ∧ e.2 < 1) ∨ (e.1 = 76 ∧ e.2 < 1)) ∧
     FormatDets.start_record
         ⟨encodeDetsLine [(77, 0), (77, 0), (68, 0)] ++ [], 1, 1, 1, [], 0⟩ =
       .ok (true, ⟨[], 1, 1, 1, [false, true, false], 0⟩) ∧
     ∀ p, p < 3 → ([false, true, false] : List Bool).getD p false =
       decide ((([(77, 0), (77, 0), (68, 0)] : List (Byte × Nat)).map
         (detsPos 1 1)).count p % 2 = 1)) :=
  ⟨⟨by decide, C6_hits_dets_toggle_parity.1 3 [1, 1, 2] [] [] 0 (by decide) (by decide)⟩,
   ⟨by decide, C6_hits_dets_toggle_parity.2 1 1 1 [(77, 0), (77, 0), (68, 0)] [] [] 0
     (by decide) (by decide) (by decide) (by decide)⟩⟩

/-- C8: for every format decoder, on a stream holding a sequence of
well-formed encoded records, `start_record` returns true exactly once per
record — the session runner performs one start_record per record and by
construction fails if any of them returns false, so a successful session
means none returned false early — and the first `start_record` call made
after all records have been consumed returns false.  (1) the 01 decoder
on records of the configured width; (2) the B8 decoder (width at least
one bit, so records occupy bytes); (3) the R8 decoder; (4) the HITS
decoder on index lists below the (64-bit) width; (5) the DETS decoder on
section-prefixed entries below their section widths. -/
theorem C8_start_record_once :
    (∀ (m : Nat) (rs : List (List Bool)), (∀ r ∈ rs, r.length = m) →
      ∃ send : Format01.State,
        session Format01.start_record (drainBits Format01.read_bit m) rs.length
          (Format01.init (stream01 rs) m) = .ok send ∧ send.input = [] ∧
        ∃ s2, Format01.start_record send = .ok (false, s2)) ∧
    (∀ (m : Nat) (rs : List (List Bool)), 1 ≤ m → (∀ r ∈ rs, r.length = m) →
      ∃ send : FormatB8.State,
        session FormatB8.start_record (drainBits FormatB8.read_bit m) rs.length
          (FormatB8.init (streamB8 rs) m) = .ok send ∧ send.input = [] ∧
        ∃ s2, FormatB8.start_record send = .ok (false, s2)) ∧
    (∀ (m : Nat) (rs : List (List Bool)), (∀ r ∈ rs, r.length = m) →
      ∃ send : FormatR8.State,
        session FormatR8.start_record (drainBits FormatR8.read_bit m) rs.length
          (FormatR8.init (streamR8 rs) m) = .ok send ∧ send.input = [] ∧
        ∃ s2, FormatR8.start_record send = .ok (false, s2)) ∧
    (∀ (m : Nat) (rs : List (List Nat)), m ≤ 2 ^ 64 → (∀ r ∈ rs, ∀ i ∈ r, i < m) →
      ∃ send : FormatHits.State,
        session FormatHits.start_record (drainBits FormatHits.read_bit m) rs.length
          (FormatHits.init (streamHits rs) m) = .ok send ∧ send.input = [] ∧
        ∃ s2, FormatHits.start_record send = .ok (false, s2)) ∧
    (∀ (m d l : Nat) (rs : List (List (Byte × Nat))),
      m ≤ 2 ^ 64 → d ≤ 2 ^ 64 → l ≤ 2 ^ 64 →
      (∀ r ∈ rs, ∀ e ∈ r,
        (e.1 = 77 ∧ e.2 < m) ∨ (e.1 = 68 ∧ e.2 < d) ∨ (e.1 = 76 ∧ e.2 < l)) →
      ∃ send : FormatDets.State,
        session FormatDets.start_record (drainBits FormatDets.read_bit (m + d + l)) rs.length
          (FormatDets.init (streamDets rs) m d l) = .ok send ∧ send.input = [] ∧
        ∃ s2, FormatDets.start_record send = .ok (false, s2)) := by
  refine ⟨?_, ?_, ?_, ?_, ?_⟩
  · intro m rs h
    obtain ⟨pl2, pos2, hs⟩ := f01_session rs m h (some 10) m
    exact ⟨⟨[], m, pl2, pos2⟩, hs, rfl, ⟨[], m, none, 0⟩, f01_end m pl2 pos2⟩
  · intro m rs hm h
    obtain ⟨pl2, av2, pos2, hs⟩ := b8_session rs m hm h (some 0) 0 m
    exact ⟨⟨[], m, pl2, av2, pos2⟩, hs, rfl, ⟨[], m, none, 0, 0⟩, b8_end m pl2 av2 pos2⟩
  · intro m rs h
    obtain ⟨pos2, term2, hs⟩ := r8_session rs m h 0 false
    exact ⟨⟨[], m, pos2, 0, 0, term2⟩, hs, rfl, ⟨[], m, 0, 0, 0, false⟩, r8_end m pos2 term2⟩
  · intro m rs hm h
    obtain ⟨buf2, pos2, hs⟩ := hits_session rs m hm h (List.replicate m false) m
    exact ⟨⟨[], m, buf2, pos2⟩, hs, rfl, ⟨[], m, buf2, pos2⟩, hits_end m buf2 pos2⟩
  · intro m d l rs hm hd hl h
    obtain ⟨buf2, pos2, hs⟩ := dets_session rs m d l hm hd hl h
      (List.replicate (m + d + l) false) (m + d + l)
    exact ⟨⟨[], m, d, l, buf2, pos2⟩, hs, rfl, ⟨[], m, d, l, buf2, pos2⟩,
      dets_end m d l buf2 pos2⟩

/-- C8 witness: the five parts of `C8_start_record_once` at concrete
streams: a two-record 01 stream of width 2, a one-record B8 stream of
width 1, a one-record R8 stream of width 2, a two-record HITS stream of
width 3, and a two-record DETS stream with one bit per section. -/
theorem C8_start_record_once_witness :
    ((∀ r ∈ ([[true, false], [false, true]] : List (List Bool)), r.length = 2) ∧
      ∃ send : Format01.State,
        session Format01.start_record (drainBits Format01.read_bit 2) 2
          (Format01.init (stream01 [[true, false], [false, true]]) 2) = .ok send ∧
        send.input = [] ∧
        ∃ s2, Format01.start_record send = .ok (false, s2)) ∧
    ((1 ≤ 1 ∧ ∀ r ∈ ([[true]] : List (List Bool)), r.length = 1) ∧
      ∃ send : FormatB8.State,
        session FormatB8.start_record (drainBits FormatB8.read_bit 1) 1
          (FormatB8.init (streamB8 [[true]]) 1) = .ok send ∧
        send.input = [] ∧
        ∃ s2, FormatB8.start_record send = .ok (false, s2)) ∧
    ((∀ r ∈ ([[true, false]] : List (List Bool)), r.length = 2) ∧
      ∃ send : FormatR8.State,
        session FormatR8.start_record (drainBits FormatR8.read_bit 2) 1
          (FormatR8.init (streamR8 [[true, false]]) 2) = .ok send ∧
        send.input = [] ∧
        ∃ s2, FormatR8.start_record send = .ok (false, s2)) ∧
    ((3 ≤ 2 ^ 64 ∧ ∀ r ∈ ([[0, 2], [1]] : List (List Nat)), ∀ i ∈ r, i < 3) ∧
      ∃ send : FormatHits.State,
        session FormatHits.start_record (drainBits FormatHits.read_bit 3) 2
          (FormatHits.init (streamHits [[0, 2], [1]]) 3) = .ok send ∧
        send.input = [] ∧
        ∃ s2, FormatHits.start_record send = .ok (false, s2)) ∧
    ((1 ≤ 2 ^ 64 ∧
      ∀ r ∈ ([[(77, 0), (68, 0)], [(76, 0)]] : List (List (Byte × Nat))), ∀ e ∈ r,
        (e.1 = 77 ∧ e.2 < 1) ∨ (e.1 = 68 ∧ e.2 < 1) ∨ (e.1 = 76 ∧ e.2 < 1)) ∧
      ∃ send : FormatDets.State,
        session FormatDets.start_record (drainBits FormatDets.read_bit (1 + 1 + 1)) 2
          (FormatDets.init (streamDets [[(77, 0), (68, 0)], [(76, 0)]]) 1 1 1) = .ok send ∧
        send.input = [] ∧
        ∃ s2, FormatDets.start_record send = .ok (false, s2)) :=
  ⟨⟨by decide, C8_start_record_once.1 2 [[true, false], [false, true]] (by decide)⟩,
   ⟨⟨by decide, by decide⟩, C8_start_record_once.2.1 1 [[true]] (by decide) (by decide)⟩,
   ⟨by decide, C8_start_record_once.2.2.1 2 [[true, false]] (by decide)⟩,
   ⟨⟨by decide, by decide⟩, C8_start_record_once.2.2.2.1 3 [[0, 2], [1]] (by decide) (by decide)⟩,
   ⟨⟨by decide, by decide⟩, C8_start_record_once.2.2.2.2 1 1 1 [[(77, 0), (68, 0)], [(76, 0)]]
      (by decide) (by decide) (by decide) (by decide)⟩⟩
